import Mathlib

/-!
# OSC message and bundle buffers (`osc.c`, `osc.h`)

A shallow embedding of the library (messages, blobs and bundles), and theorems about it.

Conventions of the embedding.

* A heap block is the list of its bytes (`List Nat`, every byte below 256).  A pointer into
  the block owned by a message is the offset from `raw_data`.
* Every function that touches memory returns an `Option`: `none` stands for undefined
  behaviour (a read or write outside the block, a `strlen` that runs off the block).
* Functions that return an `int` status and update `*msg` return the pair of the status and
  the new structure.
* `unsigned int` arithmetic is arithmetic modulo `2^32` (`u32`, `sub32`); `size_t` and pointer
  arithmetic is 64 bit and is not reduced.
* The host is little-endian, so `htobe32` and `be32toh` reverse the four bytes.
* What C leaves open is collected in an `Env`: whether each `realloc` succeeds, the bytes of
  freshly allocated memory, and the value found in an uninitialised local.
* A `const char*` argument is given by the characters before its terminating NUL; the memory
  it points to is that list followed by one zero byte.
* A message that `osc_bundle_next_message` returns points into the block of the bundle: its
  three pointers are offsets from the `raw_data` of the bundle, and the null message is `none`.
-/

set_option linter.all false

namespace OSC

/-! ## Machine arithmetic -/

/-- Conversion to `unsigned int`. -/
def u32 (x : Nat) : Nat := x % 4294967296

/-- Subtraction of `unsigned int` values. -/
def sub32 (a b : Nat) : Nat := (a % 4294967296 + 4294967296 - b % 4294967296) % 4294967296

/-- The `int32_t` with the given 32-bit pattern. -/
def toI32 (x : Nat) : Int :=
  if x % 4294967296 < 2147483648 then (x % 4294967296 : Nat) else ((x % 4294967296 : Nat) : Int) - 4294967296

/-- The 32-bit pattern of an integer (conversion to `uint32_t`). -/
def toU32 (x : Int) : Nat := (x % 4294967296).toNat

/-- Conversion of a signed integer to `size_t` (64 bit). -/
def toSize (x : Int) : Nat := (x % 18446744073709551616).toNat

/-- Reversal of the four bytes of a 32-bit value. -/
def bswap32 (x : Nat) : Nat :=
  (x % 256) * 16777216 + (x / 256 % 256) * 65536 + (x / 65536 % 256) * 256 + (x / 16777216 % 256)

/-- Embedding of `htobe32` of `endian.h` on a little-endian host. -/
def htobe32 (x : Nat) : Nat := bswap32 (u32 x)

/-- Embedding of `be32toh` of `endian.h` on a little-endian host. -/
def be32toh (x : Nat) : Nat := bswap32 (u32 x)

/-- Object representation of a 32-bit value on the little-endian host. -/
def le32 (v : Nat) : List Nat :=
  [v % 256, v / 256 % 256, v / 65536 % 256, v / 16777216 % 256]

/-- Big-endian (wire) encoding of a 32-bit value. -/
def be32 (v : Nat) : List Nat :=
  [v / 16777216 % 256, v / 65536 % 256, v / 256 % 256, v % 256]

/-! ## Memory primitives -/

/-- What the C semantics leaves open during one call. -/
structure Env where
  /-- does the `realloc` of the called function succeed -/
  alloc : Bool
  /-- does the `realloc` inside `actualize_typetag` succeed -/
  alloc_tt : Bool
  /-- contents of freshly allocated bytes, by offset -/
  fresh : Nat → Nat
  /-- value found in an uninitialised `unsigned int` local -/
  uninit : Nat

/-- Indeterminate bytes `start .. start + n - 1` of a fresh allocation. -/
def fresh_bytes (fresh : Nat → Nat) (start n : Nat) : List Nat :=
  (List.range n).map (fun i => fresh (start + i) % 256)

/-- Embedding of `realloc(block, size)`: `none` is the NULL result; on success the old contents are kept up
to the lesser of the two sizes and the rest is indeterminate. -/
def realloc (ok : Bool) (fresh : Nat → Nat) (block : List Nat) (size : Nat) : Option (List Nat) :=
  if ok then some (block.take size ++ fresh_bytes fresh block.length (size - block.length))
  else none

/-- Read of `n` bytes at offset `p`. -/
def read_bytes (block : List Nat) (p n : Nat) : Option (List Nat) :=
  if p + n ≤ block.length then some ((block.drop p).take n) else none

/-- Write of the bytes `bs` at offset `p`. -/
def write_bytes (block : List Nat) (p : Nat) (bs : List Nat) : Option (List Nat) :=
  if p + bs.length ≤ block.length then some (block.take p ++ bs ++ block.drop (p + bs.length))
  else none

/-- Embedding of `memset(block + p, c, n)`. -/
def memset (block : List Nat) (p c n : Nat) : Option (List Nat) :=
  write_bytes block p (List.replicate n (c % 256))

/-- Embedding of `memmove(block + dst, block + src, n)`. -/
def memmove (block : List Nat) (dst src n : Nat) : Option (List Nat) := do
  let bs ← read_bytes block src n
  write_bytes block dst bs

/-- Embedding of `strlen` of the string that starts a byte sequence; `none` when there is no NUL. -/
def strlen_at : List Nat → Option Nat
  | [] => none
  | b :: bs => if b = 0 then some 0 else (strlen_at bs).map (· + 1)

/-- Embedding of `strlen(block + p)`. -/
def strlen (block : List Nat) (p : Nat) : Option Nat := strlen_at (block.drop p)

/-- Embedding of `strcpy(block + dst, src)` where `src` is the memory the source pointer points to. -/
def strcpy (block : List Nat) (dst : Nat) (src : List Nat) : Option (List Nat) := do
  let n ← strlen_at src
  write_bytes block dst (src.take (n + 1))

/-! ## Type tags -/

abbrev OSC_TT_INT : Nat := 105
abbrev OSC_TT_STRING : Nat := 115
abbrev OSC_TT_FLOAT : Nat := 102
abbrev OSC_TT_TIMETAG : Nat := 116
abbrev OSC_TT_BLOB : Nat := 98

/-! ## Byte-order codec -/

/-- Embedding of `osc_unpack_int32`. -/
def osc_unpack_int32 (value : Int) : Int := toI32 (be32toh (toU32 value))

/-- Embedding of `osc_unpack_float`; a `float` is given by its 32-bit pattern. -/
def osc_unpack_float (value : Nat) : Nat := be32toh value

/-- The body shared by `osc_message_serialized_length`, `osc_bundle_serialized_length` and
`osc_blob_data_size`: the loop ors `uchar_ptr[i] << j` for `i = 0..3`, `j = 0, 8, 16, 24` into
a `size_t`, the result is converted to `int32_t`, unpacked, and converted back to `size_t`. -/
def length_field (block : List Nat) : Option Nat := do
  let b0 ← block[0]?
  let b1 ← block[1]?
  let b2 ← block[2]?
  let b3 ← block[3]?
  let cur := 0 ||| u32 (b0 <<< 0) ||| u32 (b1 <<< 8) ||| u32 (b2 <<< 16) ||| u32 (b3 <<< 24)
  pure (toSize (osc_unpack_int32 (toI32 cur)))

/-! ## Messages -/

/-- Embedding of `struct osc_message`: `raw_data` is the block, `address` and `typetag` are offsets in it. -/
structure osc_message where
  address : Nat
  typetag : Nat
  raw_data : List Nat
deriving DecidableEq

/-- Embedding of `osc_message_serialized_length`. -/
def osc_message_serialized_length (msg : osc_message) : Option Nat :=
  length_field msg.raw_data

/-- A blob (`osc_blob`) is the block it points to. -/
abbrev osc_blob := List Nat

/-- Embedding of `osc_blob_data_size`. -/
def osc_blob_data_size (b : osc_blob) : Option Nat :=
  length_field b

/-- Embedding of `actualize_length`: the loop stores `be_value & 0xff` and shifts `be_value` right by 8,
four times. -/
def actualize_length (msg : osc_message) (new_msg_length : Nat) : Option osc_message := do
  let be_value := htobe32 new_msg_length
  let block ← write_bytes msg.raw_data 0
    [be_value &&& 255, (be_value >>> 8) &&& 255, (be_value >>> 16) &&& 255,
     (be_value >>> 24) &&& 255]
  pure { msg with raw_data := block }

/-- Embedding of `actualize_typetag`. -/
def actualize_typetag (e : Env) (msg : osc_message) (tag : Nat) : Option (Nat × osc_message) := do
  let cur_tg_length := u32 (← strlen msg.raw_data msg.typetag)
  if (cur_tg_length % 4) % 3 = 0 ∧ cur_tg_length % 4 ≠ 0 then
    let cur_msg_length := u32 (← osc_message_serialized_length msg)
    let new_mem_size := u32 (cur_msg_length + 8)
    let new_msg_length := u32 (cur_msg_length + 4)
    let addr_length := sub32 msg.typetag msg.address
    let arg_size :=
      sub32 (sub32 (sub32 cur_msg_length addr_length) cur_tg_length) (4 - cur_tg_length % 4)
    match realloc e.alloc_tt e.fresh msg.raw_data new_mem_size with
    | none => pure (1, msg)
    | some block =>
      let address := 4
      let alen ← strlen block address
      let typetag := address + alen + (4 - alen % 4)
      let tlen ← strlen block typetag
      let arg_start := typetag + tlen + 1
      let block ← memmove block (arg_start + 4) arg_start arg_size
      let tlen ← strlen block typetag
      let block ← memset block (typetag + tlen + 1) 0 4
      let tlen ← strlen block typetag
      let block ← memset block (typetag + tlen) tag 1
      let msg ← actualize_length ⟨address, typetag, block⟩ new_msg_length
      pure (0, msg)
  else
    let tlen ← strlen msg.raw_data msg.typetag
    let block ← memset msg.raw_data (msg.typetag + tlen) tag 1
    pure (0, { msg with raw_data := block })

/-- Embedding of `osc_message_new`; `msg` is the structure the caller passes in. -/
def osc_message_new (e : Env) (msg : osc_message) : Option (Nat × osc_message) :=
  match realloc e.alloc e.fresh [] 12 with
  | none => pure (1, msg)
  | some block => do
    let block ← memset block 0 0 3
    let block ← memset block 3 8 1
    let block ← memset block 4 0 4
    let block ← memset block 8 44 1
    let block ← memset block 9 0 3
    let address := 4
    let alen ← strlen block address
    pure (0, ⟨address, address + alen + (4 - alen % 4), block⟩)

/-- Embedding of `osc_message_set_address`. -/
def osc_message_set_address (e : Env) (msg : osc_message) (address : List Nat) :
    Option (Nat × osc_message) := do
  let src := address ++ [0]
  let slen ← strlen_at src
  let cur_addr_space_size := sub32 msg.typetag msg.address
  let new_addr_space_size := u32 (slen + (4 - slen % 4))
  if cur_addr_space_size = new_addr_space_size then
    let block ← strcpy msg.raw_data msg.address src
    pure (0, { msg with raw_data := block })
  else
    let add_mem_size := sub32 new_addr_space_size cur_addr_space_size
    let cur_msg_length := u32 (← osc_message_serialized_length msg)
    let new_mem_size := u32 (cur_msg_length + 4 + add_mem_size)
    let num_bytes_to_copy := sub32 cur_msg_length cur_addr_space_size
    let new_msg_length := u32 (cur_msg_length + add_mem_size)
    match realloc e.alloc e.fresh msg.raw_data new_mem_size with
    | none => pure (1, msg)
    | some block =>
      let addr := 4
      let alen ← strlen block addr
      let typetag := addr + alen + (4 - alen % 4)
      let block ← memmove block (typetag + add_mem_size) typetag num_bytes_to_copy
      let block ← strcpy block addr src
      let block ← memset block (addr + slen) 0 (4 - slen % 4)
      let msg ← actualize_length ⟨addr, typetag, block⟩ new_msg_length
      pure (0, { msg with typetag := msg.typetag + add_mem_size })

/-- The first `switch` of `add_argument`: `(new_mem_size, byte_count)` for the tag; `bytes` is
the memory the argument pointer points to. -/
def add_argument_sizes (e : Env) (cur_msg_length tag : Nat) (bytes : List Nat) :
    Option (Nat × Nat) :=
  if tag = OSC_TT_INT then pure (u32 (cur_msg_length + 4 + 4), 4)
  else if tag = OSC_TT_FLOAT then pure (u32 (cur_msg_length + 4 + 4), 4)
  else if tag = OSC_TT_STRING then do
    let n ← strlen_at bytes
    pure (u32 (cur_msg_length + 4 + n + (4 - n % 4)), u32 (n + 1))
  else if tag = OSC_TT_TIMETAG then pure (u32 (cur_msg_length + 4 + 8), 8)
  else if tag = OSC_TT_BLOB then do
    let byte_count := u32 (← osc_blob_data_size bytes)
    let blob_add_bytes := if byte_count % 4 ≠ 0 then 4 - byte_count % 4 else u32 e.uninit
    let byte_count := u32 (byte_count + 4 + blob_add_bytes)
    pure (u32 (cur_msg_length + 4 + byte_count), byte_count)
  else pure (0, 0)

/-- Embedding of `add_argument`. -/
def add_argument (e : Env) (msg : osc_message) (tag : Nat) (argument : List Nat) :
    Option (Nat × osc_message) := do
  let bytes := argument
  let cur_msg_length := u32 (← osc_message_serialized_length msg)
  let (new_mem_size, byte_count) ← add_argument_sizes e cur_msg_length tag bytes
  let new_msg_length := sub32 new_mem_size 4
  match realloc e.alloc e.fresh msg.raw_data new_mem_size with
  | none => pure (1, msg)
  | some block =>
    let address := 4
    let alen ← strlen block address
    let typetag := address + alen + (4 - alen % 4)
    let p_new_data := 4 + cur_msg_length
    let block ←
      if tag = OSC_TT_STRING then do
        let n ← strlen_at bytes
        memset block p_new_data 0 (n + (4 - n % 4))
      else pure block
    -- for (i = 0; i < byte_count; i++) p_new_data[i] = bytes[i];
    let copied ← read_bytes bytes 0 byte_count
    let block ← write_bytes block p_new_data copied
    let msg ← actualize_length ⟨address, typetag, block⟩ new_msg_length
    if tag = OSC_TT_INT ∨ tag = OSC_TT_FLOAT ∨ tag = OSC_TT_STRING ∨ tag = OSC_TT_TIMETAG
        ∨ tag = OSC_TT_BLOB then
      -- the status of actualize_typetag is not looked at
      let r ← actualize_typetag e msg tag
      pure (0, r.2)
    else pure (0, msg)

/-- Embedding of `osc_message_add_timetag`; the fields of the tag are `uint32_t`. -/
def osc_message_add_timetag (e : Env) (msg : osc_message) (sec frac : Nat) :
    Option (Nat × osc_message) := do
  let r ← add_argument e msg OSC_TT_TIMETAG (le32 (htobe32 sec) ++ le32 (htobe32 frac))
  if r.1 = 1 then pure (1, r.2) else pure (0, r.2)

/-- Embedding of `osc_message_add_string`. -/
def osc_message_add_string (e : Env) (msg : osc_message) (data : List Nat) :
    Option (Nat × osc_message) := do
  let r ← add_argument e msg OSC_TT_STRING (data ++ [0])
  if r.1 = 1 then pure (1, r.2) else pure (0, r.2)

/-- Embedding of `osc_message_add_float`; the `float` is given by its 32-bit pattern. -/
def osc_message_add_float (e : Env) (msg : osc_message) (data : Nat) :
    Option (Nat × osc_message) := do
  let r ← add_argument e msg OSC_TT_FLOAT (le32 (htobe32 data))
  if r.1 = 1 then pure (1, r.2) else pure (0, r.2)

/-- Embedding of `osc_message_add_blob`. -/
def osc_message_add_blob (e : Env) (msg : osc_message) (b : osc_blob) :
    Option (Nat × osc_message) := do
  let r ← add_argument e msg OSC_TT_BLOB b
  if r.1 = 1 then pure (1, r.2) else pure (0, r.2)

/-- Embedding of `osc_message_add_int32`. -/
def osc_message_add_int32 (e : Env) (msg : osc_message) (data : Int) :
    Option (Nat × osc_message) := do
  let r ← add_argument e msg OSC_TT_INT (le32 (htobe32 (toU32 data)))
  if r.1 = 1 then pure (1, r.2) else pure (0, r.2)

/-- Embedding of `osc_message_argc`; the subtraction is in `size_t`. -/
def osc_message_argc (msg : osc_message) : Option Nat := do
  let tlen ← strlen msg.raw_data msg.typetag
  pure ((tlen + 18446744073709551616 - 1) % 18446744073709551616)

/-- The loop of `osc_message_arg`: `k` iterations are left, `i` is the loop counter,
`p_arguments` the running pointer and `add_bytes` the local that the blob case sets. -/
def osc_message_arg_loop (block : List Nat) (typetag : Nat) :
    Nat → Nat → Nat → Nat → Option Nat
  | 0, _, p_arguments, _ => some p_arguments
  | k + 1, i, p_arguments, add_bytes => do
    let c ← block[typetag + i]?
    if c = OSC_TT_INT then osc_message_arg_loop block typetag k (i + 1) (p_arguments + 4) add_bytes
    else if c = OSC_TT_FLOAT then
      osc_message_arg_loop block typetag k (i + 1) (p_arguments + 4) add_bytes
    else if c = OSC_TT_STRING then do
      let n ← strlen block p_arguments
      osc_message_arg_loop block typetag k (i + 1) (p_arguments + (n + (4 - n % 4))) add_bytes
    else if c = OSC_TT_TIMETAG then
      osc_message_arg_loop block typetag k (i + 1) (p_arguments + 8) add_bytes
    else if c = OSC_TT_BLOB then do
      let blob_size := u32 (← osc_blob_data_size (block.drop p_arguments))
      let add_bytes := if blob_size % 4 ≠ 0 then 4 - blob_size % 4 else add_bytes
      osc_message_arg_loop block typetag k (i + 1)
        (p_arguments + u32 (4 + blob_size + add_bytes)) add_bytes
    else osc_message_arg_loop block typetag k (i + 1) p_arguments add_bytes

/-- Embedding of `osc_message_arg`: the inner `none` is the NULL result, `some p` the offset of the
argument in the block.  The sum `arg_index + 1` is a `size_t`; the loop runs while its counter,
which starts at 1, is below that sum. -/
def osc_message_arg (msg : osc_message) (arg_index : Nat) : Option (Option Nat) := do
  let tlen ← strlen msg.raw_data msg.typetag
  let p_arguments := msg.typetag + tlen + (4 - tlen % 4)
  let bound := (arg_index + 1) % 18446744073709551616
  let c ← msg.raw_data[msg.typetag + bound]?
  if c = 0 then pure none
  else
    let p ← osc_message_arg_loop msg.raw_data msg.typetag (bound - 1) 1 p_arguments 0
    pure (some p)

/-! ## Blobs -/

/-- Embedding of `osc_blob_new`: `none` is undefined behaviour, `some none` the NULL result. -/
def osc_blob_new (e : Env) (length : Nat) : Option (Option osc_blob) :=
  let add_bytes := if length % 4 ≠ 0 then u32 (4 - length % 4) else 0
  match realloc e.alloc e.fresh [] (length + 4 + add_bytes) with
  | none => pure none
  | some blob => do
    let be_length := htobe32 length
    let blob ← write_bytes blob 0
      [be_length &&& 255, (be_length >>> 8) &&& 255, (be_length >>> 16) &&& 255,
       (be_length >>> 24) &&& 255]
    let blob ← memset blob 4 0 (length + add_bytes)
    pure (some blob)

/-- Embedding of `osc_blob_data_ptr`: the offset of the data in the blob block. -/
def osc_blob_data_ptr (_b : osc_blob) : Nat := 4

/-! ## Reference encoding and call sequences -/

/-- A string followed by 1 to 4 zero bytes, up to a multiple of 4. -/
def pad_str (s : List Nat) : List Nat := s ++ List.replicate (4 - s.length % 4) 0

/-- The characters of the C string that a byte list denotes (those before the first NUL). -/
def c_str : List Nat → List Nat
  | [] => []
  | b :: bs => if b = 0 then [] else b :: c_str bs

/-- An argument value handed to one of the `osc_message_add_*` functions. -/
inductive Arg where
  | int32 (x : Int)
  | float32 (bits : Nat)
  | string (s : List Nat)
  | timetag (sec frac : Nat)
  | blob (b : osc_blob)
deriving DecidableEq

/-- The type tag of an argument. -/
def Arg.tag : Arg → Nat
  | .int32 _ => OSC_TT_INT
  | .float32 _ => OSC_TT_FLOAT
  | .string _ => OSC_TT_STRING
  | .timetag _ _ => OSC_TT_TIMETAG
  | .blob _ => OSC_TT_BLOB

/-- The wire encoding of an argument: big-endian 32-bit values, padded strings, and for a blob
the bytes of the blob block. -/
def Arg.wire : Arg → List Nat
  | .int32 x => be32 (toU32 x)
  | .float32 bits => be32 (u32 bits)
  | .string s => pad_str s
  | .timetag sec frac => be32 (u32 sec) ++ be32 (u32 frac)
  | .blob b => b

/-- An int32, float32, NUL-free string or time-tag argument whose value fits its C type. -/
def Arg.plain : Arg → Prop
  | .int32 x => -2147483648 ≤ x ∧ x < 2147483648
  | .float32 bits => bits < 4294967296
  | .string s => 0 ∉ s
  | .timetag sec frac => sec < 4294967296 ∧ frac < 4294967296
  | .blob _ => False

instance (x : Arg) : Decidable x.plain := by
  cases x <;> simp only [Arg.plain] <;> infer_instance

/-- The `osc_message_add_*` function that matches the argument. -/
def add_arg (e : Env) (msg : osc_message) : Arg → Option (Nat × osc_message)
  | .int32 x => osc_message_add_int32 e msg x
  | .float32 bits => osc_message_add_float e msg bits
  | .string s => osc_message_add_string e msg s
  | .timetag sec frac => osc_message_add_timetag e msg sec frac
  | .blob b => osc_message_add_blob e msg b

/-- One call of the mutating message API. -/
inductive Call where
  | set_address (address : List Nat)
  | add (x : Arg)
deriving DecidableEq

/-- A call with NUL-free text and no blob. -/
def Call.plain : Call → Prop
  | .set_address a => 0 ∉ a
  | .add x => x.plain

instance (c : Call) : Decidable c.plain := by
  cases c <;> simp only [Call.plain] <;> infer_instance

/-- Execution of one call. -/
def call (e : Env) (msg : osc_message) : Call → Option (Nat × osc_message)
  | .set_address a => osc_message_set_address e msg a
  | .add x => add_arg e msg x

/-- Execution of a sequence of calls, each in its own environment; the sequence stops at the
first call that does not return 0. -/
def run (msg : osc_message) : List (Env × Call) → Option (Nat × osc_message)
  | [] => some (0, msg)
  | ec :: cs => do
    let r ← call ec.1 msg ec.2
    if r.1 = 0 then run r.2 cs else pure r

/-- The arguments appended by a sequence of calls. -/
def added : List (Env × Call) → List Arg
  | [] => []
  | (_, .set_address _) :: cs => added cs
  | (_, .add x) :: cs => x :: added cs

/-- The call of `osc_message_new` followed by a sequence of calls. -/
def build (e : Env) (m0 : osc_message) (s : List (Env × Call)) : Option (Nat × osc_message) := do
  let r ← osc_message_new e m0
  if r.1 = 0 then run r.2 s else pure r

/-- Messages the API produces: `osc_message_new` followed by calls that all return 0. -/
def Reachable (m : osc_message) : Prop :=
  ∃ e m0 s, build e m0 s = some (0, m)

/-- The reference encoding of a message with address `a` and arguments `args`. -/
def encode (a : List Nat) (args : List Arg) : List Nat :=
  let body := pad_str a ++ (pad_str (44 :: args.map Arg.tag) ++ (args.map Arg.wire).flatten)
  be32 body.length ++ body

/-- The message made of a length field, an address region, a signature region and an
argument region. -/
def layout (A S R : List Nat) : osc_message :=
  ⟨4, 4 + A.length, be32 (A.length + (S.length + R.length)) ++ (A ++ (S ++ R))⟩

/-- Rounding up to the padded size of a string of length `k` (`k` plus 1 to 4). -/
def padded (k : Nat) : Nat := k + (4 - k % 4)

/-- The 32-bit object at offset `p`, as the little-endian host loads it. -/
def load32 (block : List Nat) (p : Nat) : Option Nat := do
  let bs ← read_bytes block p 4
  match bs with
  | [b0, b1, b2, b3] => pure (b0 + 256 * b1 + 65536 * b2 + 16777216 * b3)
  | _ => none

/-- The characters of the NUL-terminated string at offset `p`. -/
def cstr_at (block : List Nat) (p : Nat) : Option (List Nat) := do
  let n ← strlen block p
  read_bytes block p n

/-- Decoding of the argument stored at offset `p` according to its tag: `osc_unpack_int32` on
an int32 and on each half of a time-tag, `osc_unpack_float` on a float, the characters up to
the first NUL for a string. -/
def decode_arg (block : List Nat) (p tag : Nat) : Option Arg :=
  if tag = OSC_TT_INT then do
    let v ← load32 block p
    pure (.int32 (osc_unpack_int32 (toI32 v)))
  else if tag = OSC_TT_FLOAT then do
    let v ← load32 block p
    pure (.float32 (osc_unpack_float v))
  else if tag = OSC_TT_STRING then do
    let s ← cstr_at block p
    pure (.string s)
  else if tag = OSC_TT_TIMETAG then do
    let sec ← load32 block p
    let frac ← load32 block (p + 4)
    pure (.timetag (toU32 (osc_unpack_int32 (toI32 sec))) (toU32 (osc_unpack_int32 (toI32 frac))))
  else none

/-- The memory that the `osc_message_add_*` function hands to `add_argument`. -/
def Arg.bytes : Arg → List Nat
  | .int32 x => le32 (htobe32 (toU32 x))
  | .float32 bits => le32 (htobe32 bits)
  | .string s => s ++ [0]
  | .timetag sec frac => le32 (htobe32 sec) ++ le32 (htobe32 frac)
  | .blob b => b

/-- The number of bytes `add_argument` copies for an argument that is not a blob. -/
def Arg.count : Arg → Nat
  | .int32 _ => 4
  | .float32 _ => 4
  | .string s => s.length + 1
  | .timetag _ _ => 8
  | .blob b => b.length

/-- Well-formed message: a length field, an address region that holds a terminated string and
has the padded size of that string, a padded signature and an argument region, below `2^32`
bytes in total. -/
def WF (m : osc_message) : Prop :=
  ∃ A ts R k, m = layout A (pad_str (44 :: ts)) R ∧ strlen_at A = some k ∧ A.length = padded k ∧
    0 ∉ ts ∧ 4 + (A.length + ((pad_str (44 :: ts)).length + R.length)) < 4294967296

/-- An environment in which every allocation succeeds. -/
def env_ok : Env := ⟨true, true, fun _ => 170, 0⟩

/-- Rounding up to a multiple of 4. -/
def round_up4 (n : Nat) : Nat := (n + 3) / 4 * 4


/-! ## Bundles -/

/-- The structure `struct osc_bundle`: `raw_data` is the heap block and `timetag` the offset of
the time-tag in it. -/
structure osc_bundle where
  timetag : Nat
  raw_data : List Nat
deriving DecidableEq

/-- Embedding of `osc_bundle_serialized_length`. -/
def osc_bundle_serialized_length (bundle : osc_bundle) : Option Nat :=
  length_field bundle.raw_data

/-- Embedding of `osc_bundle_set_timetag`: both fields are converted with `htobe32` and the
eight bytes of the structure are copied to offset 12. -/
def osc_bundle_set_timetag (bundle : osc_bundle) (sec frac : Nat) : Option osc_bundle := do
  let sec := u32 (htobe32 sec)
  let frac := u32 (htobe32 frac)
  let bnd_tag := 12
  let bytes := le32 sec ++ le32 frac
  let copied ← read_bytes bytes 0 8
  let block ← write_bytes bundle.raw_data bnd_tag copied
  pure { bundle with raw_data := block }

/-- Embedding of `osc_bundle_new`; `bnd` is the structure the caller passes in. -/
def osc_bundle_new (e : Env) (bnd : osc_bundle) : Option (Nat × osc_bundle) :=
  match realloc e.alloc e.fresh [] 20 with
  | none => pure (1, bnd)
  | some block => do
    let bnd ← osc_bundle_set_timetag ⟨12, block⟩ 0 1
    let block ← memset bnd.raw_data 0 0 3
    let block ← memset block 3 16 1
    let block ← strcpy block 4 [35, 98, 117, 110, 100, 108, 101, 0]
    pure (0, { bnd with raw_data := block })

/-- Embedding of `osc_bundle_add_message`; the bytes of the message are read from the block of
`msg` and written into the block of the bundle. -/
def osc_bundle_add_message (e : Env) (bundle : osc_bundle) (msg : osc_message) :
    Option (Nat × osc_bundle) := do
  let cur_bd_length := u32 (← osc_bundle_serialized_length bundle)
  let cur_msg_length := u32 (← osc_message_serialized_length msg)
  let new_mem_size := u32 (cur_bd_length + cur_msg_length + 8)
  let new_bd_length := sub32 new_mem_size 4
  match realloc e.alloc e.fresh bundle.raw_data new_mem_size with
  | none => pure (1, bundle)
  | some block =>
    let p_new_data := 4 + cur_bd_length
    let copied ← read_bytes msg.raw_data 0 (u32 (cur_msg_length + 4))
    let block ← write_bytes block p_new_data copied
    let be_value := htobe32 new_bd_length
    let block ← write_bytes block 0
      [be_value % 256 &&& 255, (be_value >>> 8) % 256 &&& 255, (be_value >>> 16) % 256 &&& 255,
       (be_value >>> 24) % 256 &&& 255]
    pure (0, ⟨12, block⟩)

/-- A `struct osc_message` whose pointers point into the block of a bundle, as offsets from the
start of that block. -/
structure osc_message_view where
  address : Nat
  typetag : Nat
  raw_data : Nat
deriving DecidableEq

/-- The message a view denotes: the block is the part of the bundle block from the view's
`raw_data` on, and the pointers are taken relative to it. -/
def osc_message_view.message (block : List Nat) (v : osc_message_view) : osc_message :=
  ⟨v.address - v.raw_data, v.typetag - v.raw_data, block.drop v.raw_data⟩

/-- Embedding of `osc_bundle_next_message`: the result `some none` is the message that
`OSC_MESSAGE_NULL` makes, and `prev = none` is a message whose `raw_data` is NULL. -/
def osc_bundle_next_message (bundle : osc_bundle) (prev : Option osc_message_view) :
    Option (Option osc_message_view) := do
  let cur_bd_length := u32 (← osc_bundle_serialized_length bundle)
  let next_msg_uchar := 20
  let first_byte_after := 4 + cur_bd_length
  if next_msg_uchar = first_byte_after then pure none
  else
    match prev with
    | none =>
      let address := next_msg_uchar + 4
      let alen ← strlen bundle.raw_data address
      pure (some ⟨address, address + alen + (4 - alen % 4), next_msg_uchar⟩)
    | some prev =>
      let uchar_prev := prev.raw_data
      let prev_msg_length :=
        u32 (← osc_message_serialized_length (prev.message bundle.raw_data))
      if uchar_prev + prev_msg_length + 4 < first_byte_after then
        let next_msg_uchar := uchar_prev + prev_msg_length + 4
        let address := next_msg_uchar + 4
        let alen ← strlen bundle.raw_data address
        pure (some ⟨address, address + alen + (4 - alen % 4), next_msg_uchar⟩)
      else pure none

/-- One call of the mutating bundle API. -/
inductive BCall where
  | set_timetag (sec frac : Nat)
  | add_message (msg : osc_message)
deriving DecidableEq

/-- Execution of one bundle call; `osc_bundle_set_timetag` returns nothing, which counts as
status 0. -/
def bcall (e : Env) (bundle : osc_bundle) : BCall → Option (Nat × osc_bundle)
  | .set_timetag sec frac => (osc_bundle_set_timetag bundle sec frac).map (fun b => (0, b))
  | .add_message msg => osc_bundle_add_message e bundle msg

/-- Execution of a sequence of bundle calls, each in its own environment; the sequence stops at
the first call that does not return 0. -/
def brun (bundle : osc_bundle) : List (Env × BCall) → Option (Nat × osc_bundle)
  | [] => some (0, bundle)
  | ec :: cs => do
    let r ← bcall ec.1 bundle ec.2
    if r.1 = 0 then brun r.2 cs else pure r

/-- The messages added by a sequence of bundle calls. -/
def bmessages : List (Env × BCall) → List osc_message
  | [] => []
  | (_, .set_timetag _ _) :: cs => bmessages cs
  | (_, .add_message m) :: cs => m :: bmessages cs

/-- The call of `osc_bundle_new` followed by a sequence of bundle calls. -/
def bbuild (e : Env) (b0 : osc_bundle) (s : List (Env × BCall)) : Option (Nat × osc_bundle) := do
  let r ← osc_bundle_new e b0
  if r.1 = 0 then brun r.2 s else pure r

/-- Bundles the API produces: `osc_bundle_new` followed by calls that all return 0, the added
messages being messages the message API produces. -/
def BReachable (b : osc_bundle) : Prop :=
  ∃ e b0 s, (∀ m ∈ bmessages s, Reachable m) ∧ bbuild e b0 s = some (0, b)

/-- The bundle made of a length field, the marker, a time-tag region and the embedded
messages. -/
def blayout (T Ms : List Nat) : osc_bundle :=
  ⟨12, be32 (16 + Ms.length) ++ ([35, 98, 117, 110, 100, 108, 101, 0] ++ (T ++ Ms))⟩

/-- The results of `osc_bundle_next_message` when it is called `n` times, the first time on the
null message and then on its previous result. -/
def bundle_iter (bundle : osc_bundle) : Nat → Option (Option osc_message_view)
  | 0 => some none
  | n + 1 => (bundle_iter bundle n).bind (osc_bundle_next_message bundle)

/-- The view of a message copied to offset `off` of a bundle block. -/
def view_at (off : Nat) (m : osc_message) : osc_message_view :=
  ⟨off + m.address, off + m.typetag, off⟩


/-! ## Arithmetic and memory lemmas -/

theorem u32_of_lt {x : Nat} (h : x < 4294967296) : u32 x = x := Nat.mod_eq_of_lt h

theorem u32_lt (x : Nat) : u32 x < 4294967296 := Nat.mod_lt _ (by decide)

theorem lor_bytes (b0 b1 b2 b3 : Nat) (h0 : b0 < 256) (h1 : b1 < 256) (h2 : b2 < 256)
    (h3 : b3 < 256) :
    0 ||| u32 (b0 <<< 0) ||| u32 (b1 <<< 8) ||| u32 (b2 <<< 16) ||| u32 (b3 <<< 24)
      = b0 + b1 * 256 + b2 * 65536 + b3 * 16777216 := by
  have e1 : b0 ||| 256 * b1 = 256 * b1 + b0 := by
    have := Nat.mul_add_lt_is_or (i := 8) (b := b0) (by norm_num; omega) b1
    rw [Nat.lor_comm]; norm_num at this; omega
  have e2 : 256 * b1 + b0 ||| 65536 * b2 = 65536 * b2 + (256 * b1 + b0) := by
    have := Nat.mul_add_lt_is_or (i := 16) (b := 256 * b1 + b0) (by norm_num; omega) b2
    rw [Nat.lor_comm]; norm_num at this; omega
  have e3 : 65536 * b2 + (256 * b1 + b0) ||| 16777216 * b3
      = 16777216 * b3 + (65536 * b2 + (256 * b1 + b0)) := by
    have := Nat.mul_add_lt_is_or (i := 24) (b := 65536 * b2 + (256 * b1 + b0)) (by norm_num; omega) b3
    rw [Nat.lor_comm]; norm_num at this; omega
  simp only [Nat.shiftLeft_eq, u32]
  norm_num
  rw [Nat.mod_eq_of_lt (by omega : b0 < 4294967296),
    Nat.mod_eq_of_lt (by omega : b1 * 256 < 4294967296),
    Nat.mod_eq_of_lt (by omega : b2 * 65536 < 4294967296),
    Nat.mod_eq_of_lt (by omega : b3 * 16777216 < 4294967296)]
  rw [Nat.mul_comm b1, Nat.mul_comm b2, Nat.mul_comm b3, e1, e2, e3]; omega

theorem and_255 (x : Nat) : x &&& 255 = x % 256 :=
  Nat.and_pow_two_sub_one_eq_mod x 8

/-- Every 32-bit value is made of four bytes -/
theorem bytes_of {x : Nat} (h : x < 4294967296) :
    ∃ a b c d, a < 256 ∧ b < 256 ∧ c < 256 ∧ d < 256 ∧
      x = a + 256 * b + 65536 * c + 16777216 * d :=
  ⟨x % 256, x / 256 % 256, x / 65536 % 256, x / 16777216, by omega, by omega, by omega,
    by omega, by omega⟩

theorem bswap32_bytes (a b c d : Nat) (ha : a < 256) (hb : b < 256) (hc : c < 256)
    (hd : d < 256) :
    bswap32 (a + 256 * b + 65536 * c + 16777216 * d) = d + 256 * c + 65536 * b + 16777216 * a := by
  unfold bswap32; omega

theorem bswap32_bswap32 {x : Nat} (h : x < 4294967296) : bswap32 (bswap32 x) = x := by
  obtain ⟨a, b, c, d, ha, hb, hc, hd, rfl⟩ := bytes_of h
  rw [bswap32_bytes a b c d ha hb hc hd, bswap32_bytes d c b a hd hc hb ha]

theorem bswap32_lt (x : Nat) : bswap32 x < 4294967296 := by
  unfold bswap32; omega

theorem toU32_toI32 {x : Nat} (h : x < 4294967296) : toU32 (toI32 x) = x := by
  unfold toU32 toI32
  rw [Nat.mod_eq_of_lt h]
  split <;> omega

theorem toSize_toI32 {x : Nat} (h : x < 4294967296) : u32 (toSize (toI32 x)) = x := by
  unfold toSize toI32 u32
  rw [Nat.mod_eq_of_lt h]
  split <;> omega

theorem toSize_toI32_small {x : Nat} (h : x < 2147483648) : toSize (toI32 x) = x := by
  unfold toSize toI32
  rw [Nat.mod_eq_of_lt (by omega : x < 4294967296)]
  split <;> omega

theorem le32_bytes (a b c d : Nat) (ha : a < 256) (hb : b < 256) (hc : c < 256)
    (hd : d < 256) : le32 (a + 256 * b + 65536 * c + 16777216 * d) = [a, b, c, d] := by
  unfold le32
  simp only [List.cons.injEq, and_true]
  refine ⟨?_, ?_, ?_, ?_⟩ <;> omega

theorem be32_bytes (a b c d : Nat) (ha : a < 256) (hb : b < 256) (hc : c < 256)
    (hd : d < 256) : be32 (a + 256 * b + 65536 * c + 16777216 * d) = [d, c, b, a] := by
  unfold be32
  simp only [List.cons.injEq, and_true]
  refine ⟨?_, ?_, ?_, ?_⟩ <;> omega

theorem le32_bswap32 {x : Nat} (h : x < 4294967296) : le32 (bswap32 x) = be32 x := by
  obtain ⟨a, b, c, d, ha, hb, hc, hd, rfl⟩ := bytes_of h
  rw [bswap32_bytes a b c d ha hb hc hd, le32_bytes d c b a hd hc hb ha,
    be32_bytes a b c d ha hb hc hd]

theorem be32_length (v : Nat) : (be32 v).length = 4 := rfl

/-- The length reader on a block that starts with the big-endian bytes of `n` -/
theorem length_field_be32 {n : Nat} (h : n < 4294967296) (rest : List Nat) :
    length_field (be32 n ++ rest) = some (toSize (toI32 n)) := by
  obtain ⟨a, b, c, d, ha, hb, hc, hd, rfl⟩ := bytes_of h
  rw [be32_bytes a b c d ha hb hc hd]
  simp only [length_field, List.cons_append, List.getElem?_cons_zero, List.getElem?_cons_succ,
    Option.bind_eq_bind, Option.some_bind, Option.pure_def, List.nil_append]
  rw [lor_bytes d c b a hd hc hb ha]
  unfold osc_unpack_int32 be32toh
  rw [toU32_toI32 (by omega), u32_of_lt (by omega)]
  have : d + c * 256 + b * 65536 + a * 16777216 = d + 256 * c + 65536 * b + 16777216 * a := by
    omega
  rw [this, bswap32_bytes d c b a hd hc hb ha]

theorem fresh_bytes_length (f : Nat → Nat) (s n : Nat) : (fresh_bytes f s n).length = n := by
  simp [fresh_bytes]

theorem realloc_grow (f : Nat → Nat) (block : List Nat) (size : Nat) (h : block.length ≤ size) :
    realloc true f block size = some (block ++ fresh_bytes f block.length (size - block.length)) := by
  simp [realloc, List.take_of_length_le h]

theorem realloc_false (f : Nat → Nat) (block : List Nat) (size : Nat) :
    realloc false f block size = none := by
  simp [realloc]

theorem realloc_length {ok : Bool} {f : Nat → Nat} {block block1 : List Nat} {size : Nat}
    (h : realloc ok f block size = some block1) : block1.length = size ∧ ok = true := by
  unfold realloc at h
  split at h
  · next hok =>
    simp only [Option.some.injEq] at h
    subst h
    refine ⟨?_, hok⟩
    simp only [List.length_append, List.length_take, fresh_bytes_length]
    omega
  · simp at h

theorem write_bytes_append (X Y Z Y1 : List Nat) (p : Nat) (hp : p = X.length)
    (hY : Y1.length = Y.length) :
    write_bytes (X ++ (Y ++ Z)) p Y1 = some (X ++ (Y1 ++ Z)) := by
  subst hp
  unfold write_bytes
  rw [if_pos (by simp; omega)]
  simp [hY]

theorem write_bytes_length {block block1 bs : List Nat} {p : Nat}
    (h : write_bytes block p bs = some block1) :
    block1.length = block.length ∧ p + bs.length ≤ block.length := by
  unfold write_bytes at h
  split at h
  · simp only [Option.some.injEq] at h
    subst h
    simp only [List.length_append, List.length_take, List.length_drop]
    omega
  · simp at h

theorem read_bytes_append (X Y Z : List Nat) (p n : Nat) (hp : p = X.length)
    (hn : n = Y.length) : read_bytes (X ++ (Y ++ Z)) p n = some Y := by
  subst hp hn
  unfold read_bytes
  rw [if_pos (by simp)]
  simp

theorem read_bytes_zero (bs : List Nat) (n : Nat) (h : n ≤ bs.length) :
    read_bytes bs 0 n = some (bs.take n) := by
  simp [read_bytes, h]

theorem strlen_at_append (s rest : List Nat) (h : 0 ∉ s) :
    strlen_at (s ++ 0 :: rest) = some s.length := by
  induction s with
  | nil => simp [strlen_at]
  | cons b bs ih =>
    have hb : b ≠ 0 := fun hb => h (by simp [hb])
    have hbs : 0 ∉ bs := fun hbs => h (by simp [hbs])
    simp [strlen_at, hb, ih hbs]

/-- A successful `strlen_at` splits the bytes at the terminator -/
theorem strlen_at_split {l : List Nat} {k : Nat} (h : strlen_at l = some k) :
    ∃ s rest, l = s ++ 0 :: rest ∧ s.length = k ∧ 0 ∉ s := by
  induction l generalizing k with
  | nil => simp [strlen_at] at h
  | cons b bs ih =>
    unfold strlen_at at h
    split at h
    · next hb =>
      simp only [Option.some.injEq] at h
      subst hb
      exact ⟨[], bs, by simp, by simpa using h, by simp⟩
    · next hb =>
      simp only [Option.map_eq_some'] at h
      obtain ⟨k1, hk1, rfl⟩ := h
      obtain ⟨s, rest, rfl, hs, h0⟩ := ih hk1
      refine ⟨b :: s, rest, by simp, by simp [hs], ?_⟩
      simp only [List.mem_cons, not_or]
      exact ⟨fun h => hb h.symm, h0⟩

theorem strlen_append (X s rest : List Nat) (p : Nat) (hp : p = X.length) (h : 0 ∉ s) :
    strlen (X ++ (s ++ 0 :: rest)) p = some s.length := by
  subst hp
  simp [strlen, strlen_at_append s rest h]

theorem strlen_lt {block : List Nat} {p k : Nat} (h : strlen block p = some k) :
    p + k < block.length := by
  unfold strlen at h
  obtain ⟨s, rest, hl, hs, -⟩ := strlen_at_split h
  have := congrArg List.length hl
  simp at this
  omega

theorem store_bytes (be : Nat) :
    [be &&& 255, (be >>> 8) &&& 255, (be >>> 16) &&& 255, (be >>> 24) &&& 255] = le32 be := by
  simp only [and_255, Nat.shiftRight_eq_div_pow, le32]

theorem actualize_length_append (a t : Nat) (H rest : List Nat) (v : Nat) (hH : H.length = 4) :
    actualize_length ⟨a, t, H ++ rest⟩ v = some ⟨a, t, be32 (u32 v) ++ rest⟩ := by
  simp only [actualize_length, htobe32]
  rw [store_bytes _, le32_bswap32 (u32_lt v)]
  have := write_bytes_append [] H rest (be32 (u32 v)) 0 rfl (by simp [be32_length, hH])
  simp only [List.nil_append] at this
  simp [this]

theorem c_str_spec (a rest : List Nat) :
    strlen_at (a ++ 0 :: rest) = some (c_str a).length ∧
    (a ++ 0 :: rest).take ((c_str a).length + 1) = c_str a ++ [0] ∧ 0 ∉ c_str a := by
  induction a with
  | nil => simp [strlen_at, c_str]
  | cons b bs ih =>
    obtain ⟨h1, h2, h3⟩ := ih
    by_cases hb : b = 0
    · subst hb; simp [strlen_at, c_str]
    · have hb2 : ¬ 0 = b := fun h => hb h.symm
      simp [strlen_at, c_str, hb, hb2, h1, h2, h3]

theorem c_str_of_not_mem {a : List Nat} (h : 0 ∉ a) : c_str a = a := by
  induction a with
  | nil => rfl
  | cons b bs ih =>
    have hb : b ≠ 0 := fun hb => h (by simp [hb])
    have hbs : 0 ∉ bs := fun hbs => h (by simp [hbs])
    simp [c_str, hb, ih hbs]

theorem strlen_at_append_right {l : List Nat} {k : Nat} (h : strlen_at l = some k)
    (T : List Nat) : strlen_at (l ++ T) = some k := by
  obtain ⟨s, rest, rfl, hs, h0⟩ := strlen_at_split h
  rw [List.append_assoc, List.cons_append, strlen_at_append s _ h0, hs]

theorem strlen_region {A : List Nat} {k : Nat} (h : strlen_at A = some k) (H T : List Nat)
    (p : Nat) (hp : p = H.length) : strlen (H ++ (A ++ T)) p = some k := by
  subst hp
  simp [strlen, strlen_at_append_right h T]

theorem padded_gt (k : Nat) : k < padded k ∧ padded k ≤ k + 4 ∧ padded k % 4 = 0 := by
  unfold padded; omega

theorem sub32_of_le {a b : Nat} (ha : a < 4294967296) (hb : b ≤ a) : sub32 a b = a - b := by
  unfold sub32; omega

theorem layout_raw_length (A S R : List Nat) :
    (layout A S R).raw_data.length = 4 + (A.length + (S.length + R.length)) := by
  simp [layout, be32_length]

theorem serialized_length_layout (A S R : List Nat)
    (hn : A.length + (S.length + R.length) < 4294967296) :
    osc_message_serialized_length (layout A S R)
      = some (toSize (toI32 (A.length + (S.length + R.length)))) := by
  simp only [osc_message_serialized_length, layout]
  exact length_field_be32 hn _

/-- The function `osc_message_set_address` with a text whose padded length is that of the address region -/
theorem set_address_same (e : Env) (A S R a : List Nat) (k : Nat)
    (hA : A.length = padded k)
    (hn : A.length + (S.length + R.length) < 4294967296)
    (hsame : padded (c_str a).length = A.length) :
    osc_message_set_address e (layout A S R) a
      = some (0, layout (c_str a ++ 0 :: A.drop ((c_str a).length + 1)) S R) := by
  obtain ⟨h1, h2, h3⟩ := c_str_spec a []
  have hlt := padded_gt (c_str a).length
  have hs32 : sub32 (4 + A.length) 4 = A.length := by
    unfold sub32; omega
  have hu : u32 ((c_str a).length + (4 - (c_str a).length % 4)) = A.length := by
    rw [u32_of_lt (by unfold padded at hsame; omega)]; exact hsame
  have hsplit : A = A.take ((c_str a).length + 1) ++ A.drop ((c_str a).length + 1) :=
    (List.take_append_drop _ _).symm
  have hw : write_bytes (be32 (A.length + (S.length + R.length)) ++ (A ++ (S ++ R))) 4
      (c_str a ++ [0])
      = some (be32 (A.length + (S.length + R.length)) ++
          ((c_str a ++ [0]) ++ (A.drop ((c_str a).length + 1) ++ (S ++ R)))) := by
    have := write_bytes_append (be32 (A.length + (S.length + R.length)))
      (A.take ((c_str a).length + 1)) (A.drop ((c_str a).length + 1) ++ (S ++ R))
      (c_str a ++ [0]) 4 rfl (by simp; omega)
    rw [← List.append_assoc (A.take _), List.take_append_drop] at this
    exact this
  simp only [osc_message_set_address, layout, h1, hs32, hu, strcpy, h2, hw,
    Option.bind_eq_bind, Option.some_bind, Option.pure_def, if_true]
  have hlen : (c_str a ++ 0 :: A.drop ((c_str a).length + 1)).length = A.length := by
    simp only [List.length_append, List.length_cons, List.length_drop]; omega
  rw [hlen]
  simp



theorem write_bytes_end (block bs : List Nat) (p : Nat) (h : p + bs.length = block.length) :
    write_bytes block p bs = some (block.take p ++ bs) := by
  unfold write_bytes
  rw [if_pos (by omega), List.drop_of_length_le (by omega)]
  simp

theorem memset_append (X Y Z : List Nat) (p c n : Nat) (hp : p = X.length) (hn : n = Y.length)
    (hc : c < 256) : memset (X ++ (Y ++ Z)) p c n = some (X ++ (List.replicate n c ++ Z)) := by
  unfold memset
  rw [Nat.mod_eq_of_lt hc]
  exact write_bytes_append X Y Z _ p hp (by simp [hn])

/-- The function `osc_message_set_address` with a text whose padded length exceeds the address region -/
theorem set_address_grow (e : Env) (A S R a : List Nat) (k : Nat)
    (hk : strlen_at A = some k) (hA : A.length = padded k)
    (hfit : 4 + (padded (c_str a).length + (S.length + R.length)) < 4294967296)
    (hgrow : A.length < padded (c_str a).length) (halloc : e.alloc = true) :
    osc_message_set_address e (layout A S R) a = some (0, layout (pad_str (c_str a)) S R) := by
  obtain ⟨h1, h2, h3⟩ := c_str_spec a []
  have hlt := padded_gt (c_str a).length
  generalize hs : c_str a = s at *
  generalize hnew : padded s.length = new at *
  have hz : 4 - s.length % 4 = new - s.length := by unfold padded at hnew; omega
  have hs32 : sub32 (4 + A.length) 4 = A.length := by unfold sub32; omega
  have hu : u32 (s.length + (4 - s.length % 4)) = new := by
    rw [u32_of_lt (by unfold padded at hnew; omega)]; exact hnew
  have hadd : sub32 new A.length = new - A.length := sub32_of_le (by omega) (by omega)
  have hne : ¬ A.length = new := by omega
  have hlen := serialized_length_layout A S R (by omega)
  unfold layout at hlen
  have hcur := toSize_toI32 (x := A.length + (S.length + R.length)) (by omega)
  have hnms : u32 (A.length + (S.length + R.length) + 4 + (new - A.length))
      = 4 + (new + (S.length + R.length)) := by unfold u32; omega
  have hcopy : sub32 (A.length + (S.length + R.length)) A.length = S.length + R.length := by
    rw [sub32_of_le (by omega) (by omega)]; omega
  have hnl : u32 (A.length + (S.length + R.length) + (new - A.length))
      = new + (S.length + R.length) := by unfold u32; omega
  -- the block after realloc
  obtain ⟨F, hF, hre⟩ : ∃ F, F.length = new - A.length ∧
      realloc e.alloc e.fresh (be32 (A.length + (S.length + R.length)) ++ (A ++ (S ++ R)))
        (4 + (new + (S.length + R.length)))
      = some (be32 (A.length + (S.length + R.length)) ++ (A ++ ((S ++ R) ++ F))) := by
    refine ⟨fresh_bytes e.fresh
      (be32 (A.length + (S.length + R.length)) ++ (A ++ (S ++ R))).length
      (4 + (new + (S.length + R.length))
        - (be32 (A.length + (S.length + R.length)) ++ (A ++ (S ++ R))).length), ?_, ?_⟩
    · simp [fresh_bytes_length, be32_length]; omega
    · rw [halloc, realloc_grow _ _ _ (by simp [be32_length]; omega)]
      simp only [List.append_assoc]
  have hstr : strlen (be32 (A.length + (S.length + R.length)) ++ (A ++ ((S ++ R) ++ F))) 4
      = some k := strlen_region hk _ _ 4 rfl
  have htt : 4 + k + (4 - k % 4) = 4 + A.length := by unfold padded at hA; omega
  -- the block after memmove: header, `new` bytes, then signature and arguments
  obtain ⟨Q, hQ, hmv⟩ : ∃ Q, Q.length = new ∧
      memmove (be32 (A.length + (S.length + R.length)) ++ (A ++ ((S ++ R) ++ F)))
        (4 + A.length + (new - A.length)) (4 + A.length) (S.length + R.length)
      = some (be32 (A.length + (S.length + R.length)) ++ (Q ++ (S ++ R))) := by
    have hrd : read_bytes (be32 (A.length + (S.length + R.length)) ++ (A ++ ((S ++ R) ++ F)))
        (4 + A.length) (S.length + R.length) = some (S ++ R) := by
      have := read_bytes_append (be32 (A.length + (S.length + R.length)) ++ A) (S ++ R) F
        (4 + A.length) (S.length + R.length) (by simp [be32_length]) (by simp)
      simpa only [List.append_assoc] using this
    refine ⟨((A ++ ((S ++ R) ++ F)).take new), ?_, ?_⟩
    · simp; omega
    · unfold memmove
      rw [hrd]
      simp only [Option.bind_eq_bind, Option.some_bind]
      rw [write_bytes_end _ _ _ (by simp [be32_length]; omega)]
      have h4 : 4 + A.length + (new - A.length) = 4 + new := by omega
      rw [h4, List.take_append_eq_append_take]
      simp [be32_length]
  -- strcpy and memset fill the `new` bytes
  have hQ1 : Q = Q.take (s.length + 1) ++ Q.drop (s.length + 1) := (List.take_append_drop _ _).symm
  have hcp : write_bytes (be32 (A.length + (S.length + R.length)) ++ (Q ++ (S ++ R))) 4 (s ++ [0])
      = some (be32 (A.length + (S.length + R.length)) ++
          (s ++ ((0 :: Q.drop (s.length + 1)) ++ (S ++ R)))) := by
    have := write_bytes_append (be32 (A.length + (S.length + R.length)))
      (Q.take (s.length + 1)) (Q.drop (s.length + 1) ++ (S ++ R))
      (s ++ [0]) 4 rfl (by simp; omega)
    rw [← List.append_assoc (Q.take _), List.take_append_drop] at this
    simpa only [List.append_assoc, List.singleton_append, List.cons_append] using this
  have hms : memset (be32 (A.length + (S.length + R.length)) ++
          (s ++ ((0 :: Q.drop (s.length + 1)) ++ (S ++ R)))) (4 + s.length) 0 (4 - s.length % 4)
      = some (be32 (A.length + (S.length + R.length)) ++
          (s ++ (List.replicate (new - s.length) 0 ++ (S ++ R)))) := by
    have := memset_append (be32 (A.length + (S.length + R.length)) ++ s)
      (0 :: Q.drop (s.length + 1)) (S ++ R) (4 + s.length) 0 (new - s.length)
      (by simp [be32_length]) (by simp; omega) (by decide)
    rw [hz]
    simpa only [List.append_assoc] using this
  have hal := actualize_length_append 4 (4 + A.length)
    (be32 (A.length + (S.length + R.length)))
    (s ++ (List.replicate (new - s.length) 0 ++ (S ++ R))) (new + (S.length + R.length))
    (be32_length _)
  simp only [osc_message_set_address, layout, h1, hs32, hu, hne, hadd, hlen, hcur, hnms, hcopy,
    hnl, hre, hstr, htt, hmv, strcpy, h2, hcp, hms, hal,
    Option.bind_eq_bind, Option.some_bind, Option.pure_def, if_false]
  have hpl : (pad_str s).length = new := by simp [pad_str]; omega
  rw [hpl, u32_of_lt (by omega)]
  simp [pad_str, hz]
  omega

theorem read_bytes_some {block bs : List Nat} {p n : Nat} (h : read_bytes block p n = some bs) :
    p + n ≤ block.length ∧ bs.length = n := by
  unfold read_bytes at h
  split at h
  · simp only [Option.some.injEq] at h
    subst h
    simp only [List.length_take, List.length_drop]
    omega
  · simp at h

theorem memmove_some {block b2 : List Nat} {dst src n : Nat}
    (h : memmove block dst src n = some b2) :
    dst + n ≤ block.length ∧ src + n ≤ block.length ∧ b2.length = block.length := by
  unfold memmove at h
  simp only [Option.bind_eq_bind, Option.bind_eq_some] at h
  obtain ⟨bs, hr, hw⟩ := h
  have h1 := read_bytes_some hr
  have h2 := write_bytes_length hw
  omega

theorem memset_some {block b2 : List Nat} {p c n : Nat} (h : memset block p c n = some b2) :
    p + n ≤ block.length ∧ b2.length = block.length := by
  unfold memset at h
  have := write_bytes_length h
  simp only [List.length_replicate] at this
  omega

theorem actualize_length_some {m m2 : osc_message} {v : Nat}
    (h : actualize_length m v = some m2) :
    m2.raw_data.length = m.raw_data.length ∧ 4 ≤ m.raw_data.length := by
  simp only [actualize_length, Option.bind_eq_bind, Option.bind_eq_some, Option.pure_def,
    Option.some.injEq] at h
  obtain ⟨b, hw, rfl⟩ := h
  have := write_bytes_length hw
  simp only [List.length_cons, List.length_nil] at this
  simp only
  omega

/-- Which calls of `osc_message_set_address` on a laid-out message return 0 -/
theorem set_address_ok {e : Env} {A S R a : List Nat} {k : Nat} {m2 : osc_message}
    (hA : A.length = padded k)
    (hn : 4 + (A.length + (S.length + R.length)) < 4294967296)
    (h : osc_message_set_address e (layout A S R) a = some (0, m2)) :
    padded (c_str a).length = A.length ∨
      (A.length < padded (c_str a).length ∧
        4 + (padded (c_str a).length + (S.length + R.length)) < 4294967296 ∧ e.alloc = true) := by
  obtain ⟨h1, h2, h3⟩ := c_str_spec a []
  generalize hs : c_str a = s at *
  have hs32 : sub32 (4 + A.length) 4 = A.length := by unfold sub32; omega
  have hlen := serialized_length_layout A S R (by omega)
  unfold layout at hlen
  have hcur := toSize_toI32 (x := A.length + (S.length + R.length)) (by omega)
  by_cases hsame : A.length = u32 (s.length + (4 - s.length % 4))
  · left
    simp only [osc_message_set_address, layout, h1, hs32, ← hsame, strcpy, h2,
      Option.bind_eq_bind, Option.some_bind, Option.pure_def, if_true, Option.bind_eq_some] at h
    obtain ⟨b, hw, -⟩ := h
    have := write_bytes_length hw
    simp only [List.length_append, be32_length, List.length_cons, List.length_nil] at this
    unfold u32 at hsame
    unfold padded
    omega
  · right
    simp only [osc_message_set_address, layout, h1, hs32, hsame, hlen, hcur, strcpy, h2,
      Option.bind_eq_bind, Option.some_bind, Option.pure_def, if_false] at h
    cases hre : realloc e.alloc e.fresh
        (be32 (A.length + (S.length + R.length)) ++ (A ++ (S ++ R)))
        (u32 (A.length + (S.length + R.length) + 4 +
          sub32 (u32 (s.length + (4 - s.length % 4))) A.length)) with
    | none => rw [hre] at h; simp at h
    | some block =>
      rw [hre] at h
      simp only [Option.bind_eq_some] at h
      obtain ⟨alen, -, b2, hmv, b3, hcp, b4, -, m5, -, -⟩ := h
      obtain ⟨hbl, hal⟩ := realloc_length hre
      obtain ⟨hm1, hm2, hm3⟩ := memmove_some hmv
      have hc := write_bytes_length hcp
      simp only [List.length_append, List.length_cons, List.length_nil] at hc
      refine ⟨?_, ?_, hal⟩ <;>
      · unfold u32 sub32 at *
        unfold padded
        omega

theorem pad_str_length (s : List Nat) : (pad_str s).length = padded s.length := by
  simp [pad_str, padded]

theorem pad_str_split (s : List Nat) :
    pad_str s = s ++ 0 :: List.replicate (3 - s.length % 4) 0 := by
  unfold pad_str
  have : 4 - s.length % 4 = (3 - s.length % 4) + 1 := by omega
  rw [this, List.replicate_succ]

theorem pad_str_snoc (s : List Nat) (c : Nat) (h : s.length % 4 ≠ 3) :
    pad_str (s ++ [c]) = s ++ c :: List.replicate (3 - s.length % 4) 0 := by
  unfold pad_str
  have : 4 - (s ++ [c]).length % 4 = 3 - s.length % 4 := by
    simp only [List.length_append, List.length_cons, List.length_nil]; omega
  rw [this]; simp

theorem pad_str_snoc_grow (s : List Nat) (c : Nat) (h : s.length % 4 = 3) :
    pad_str (s ++ [c]) = s ++ c :: [0, 0, 0, 0] := by
  unfold pad_str
  have : 4 - (s ++ [c]).length % 4 = 4 := by
    simp only [List.length_append, List.length_cons, List.length_nil]; omega
  rw [this]; simp [List.replicate]

theorem strlen_sig (H A ts R : List Nat) (p : Nat) (hp : p = H.length + A.length)
    (h0 : 0 ∉ ts) :
    strlen (H ++ (A ++ (pad_str (44 :: ts) ++ R))) p = some (ts.length + 1) := by
  rw [pad_str_split]
  have := strlen_append (H ++ A) (44 :: ts) (List.replicate (3 - (44 :: ts).length % 4) 0 ++ R) p
    (by simp [hp]) (by simp [h0])
  simpa only [List.append_assoc, List.cons_append, List.length_cons] using this

theorem memset_tag (H A ts R : List Nat) (tag p : Nat) (hp : p = H.length + A.length)
    (htag : tag < 256) (hroom : (ts.length + 1) % 4 ≠ 3) :
    memset (H ++ (A ++ (pad_str (44 :: ts) ++ R))) (p + (ts.length + 1)) tag 1
      = some (H ++ (A ++ (pad_str (44 :: (ts ++ [tag])) ++ R))) := by
  have h2 := pad_str_snoc (44 :: ts) tag (by simpa using hroom)
  simp only [List.cons_append] at h2
  have hrep : List.replicate (3 - (44 :: ts).length % 4) 0
      = 0 :: List.replicate (3 - ((44 :: ts).length + 1) % 4) 0 := by
    have : 3 - (44 :: ts).length % 4 = (3 - ((44 :: ts).length + 1) % 4) + 1 := by
      simp only [List.length_cons]; omega
    rw [this, List.replicate_succ]
  have := memset_append (H ++ (A ++ (44 :: ts))) [0]
    (List.replicate (3 - (44 :: ts).length % 4) 0 ++ R) (p + (ts.length + 1)) tag 1
    (by simp [hp]; omega) rfl htag
  rw [h2, pad_str_split]
  simpa only [List.append_assoc, List.cons_append, List.singleton_append, List.replicate_one,
    List.nil_append] using this

/-- The function `actualize_typetag` when the signature still has room for one more tag -/
theorem actualize_typetag_room (e : Env) (A ts R : List Nat) (tag : Nat)
    (h0 : 0 ∉ ts) (htag : tag < 256)
    (hn : 4 + (A.length + ((pad_str (44 :: ts)).length + R.length)) < 4294967296)
    (hroom : (ts.length + 1) % 4 ≠ 3) :
    actualize_typetag e (layout A (pad_str (44 :: ts)) R) tag
      = some (0, layout A (pad_str (44 :: (ts ++ [tag]))) R) := by
  have hstr := strlen_sig (be32 (A.length + ((pad_str (44 :: ts)).length + R.length))) A ts R
    (4 + A.length) (by simp [be32_length]) h0
  have hpl := pad_str_length (44 :: ts)
  have hlt := padded_gt (44 :: ts).length
  simp only [List.length_cons] at hpl hlt
  have hu : u32 (ts.length + 1) = ts.length + 1 := u32_of_lt (by omega)
  have hc : ¬ ((ts.length + 1) % 4 % 3 = 0 ∧ (ts.length + 1) % 4 ≠ 0) := by omega
  have hms := memset_tag (be32 (A.length + ((pad_str (44 :: ts)).length + R.length))) A ts R tag
    (4 + A.length) (by simp [be32_length]) htag hroom
  have hl2 : (pad_str (44 :: (ts ++ [tag]))).length = (pad_str (44 :: ts)).length := by
    rw [pad_str_length, pad_str_length]
    simp only [List.length_cons, List.length_append, List.length_nil]
    unfold padded; omega
  simp only [actualize_typetag, layout, hstr, hu, hc, hms, hl2,
    Option.bind_eq_bind, Option.some_bind, Option.pure_def, if_false]

theorem pad_str_full (s : List Nat) (h : s.length % 4 = 3) : pad_str s = s ++ [0] := by
  unfold pad_str
  have : 4 - s.length % 4 = 1 := by omega
  rw [this]; rfl

theorem layout_eq (A S R : List Nat) (n : Nat) (hn : n = A.length + (S.length + R.length)) :
    layout A S R = ⟨4, 4 + A.length, be32 n ++ (A ++ (S ++ R))⟩ := by
  subst hn; rfl

theorem length_field_layout (n : Nat) (hn : n < 4294967296) (a t : Nat) (rest : List Nat) :
    osc_message_serialized_length ⟨a, t, be32 n ++ rest⟩ = some (toSize (toI32 n)) :=
  length_field_be32 hn rest

/-- The function `actualize_typetag` when the signature region is full and has to grow by 4 bytes -/
theorem actualize_typetag_grow (e : Env) (A ts R : List Nat) (tag k : Nat)
    (hk : strlen_at A = some k) (hA : A.length = padded k)
    (h0 : 0 ∉ ts) (htag : tag < 256)
    (hn : 4 + (A.length + ((pad_str (44 :: ts)).length + R.length)) + 4 < 4294967296)
    (hfull : (ts.length + 1) % 4 = 3) (halloc : e.alloc_tt = true) :
    actualize_typetag e (layout A (pad_str (44 :: ts)) R) tag
      = some (0, layout A (pad_str (44 :: (ts ++ [tag]))) R) := by
  have hS : pad_str (44 :: ts) = 44 :: (ts ++ [0]) := pad_str_full (44 :: ts) (by simpa using hfull)
  have hS2 : pad_str (44 :: (ts ++ [tag])) = 44 :: (ts ++ tag :: [0, 0, 0, 0]) := by
    have := pad_str_snoc_grow (44 :: ts) tag (by simpa using hfull)
    simpa only [List.cons_append] using this
  obtain ⟨n, hnd⟩ : ∃ n, n = A.length + (ts.length + 2 + R.length) := ⟨_, rfl⟩
  have hSl : (pad_str (44 :: ts)).length = ts.length + 2 := by rw [hS]; simp
  rw [layout_eq A _ R n (by rw [hSl]; exact hnd),
    layout_eq A _ R (n + 4) (by rw [hS2]; simp; omega)]
  rw [hSl] at hn
  have hlen := length_field_layout n (by omega) 4 (4 + A.length) (A ++ (pad_str (44 :: ts) ++ R))
  have hcur := toSize_toI32 (x := n) (by omega)
  have hal := actualize_length_append 4 (4 + A.length) (be32 n)
    (A ++ (pad_str (44 :: (ts ++ [tag])) ++ R)) (n + 4) (be32_length _)
  have hH := be32_length n
  generalize be32 n = H at *
  have hstr : ∀ X : List Nat,
      strlen (H ++ (A ++ (pad_str (44 :: ts) ++ X))) (4 + A.length) = some (ts.length + 1) :=
    fun X => strlen_sig _ A ts X (4 + A.length) (by omega) h0
  have hu : u32 (ts.length + 1) = ts.length + 1 := u32_of_lt (by omega)
  have hc : ((ts.length + 1) % 4 % 3 = 0 ∧ (ts.length + 1) % 4 ≠ 0) := by omega
  have hnms : u32 (n + 8) = n + 8 := u32_of_lt (by omega)
  have hnl : u32 (n + 4) = n + 4 := u32_of_lt (by omega)
  have hs32 : sub32 (4 + A.length) 4 = A.length := by unfold sub32; omega
  have hargs : sub32 (sub32 (sub32 n A.length) (ts.length + 1))
      (4 - (ts.length + 1) % 4) = R.length := by unfold sub32; omega
  obtain ⟨F, hF, hre⟩ : ∃ F, F.length = 4 ∧
      realloc e.alloc_tt e.fresh (H ++ (A ++ (pad_str (44 :: ts) ++ R))) (n + 8)
      = some (H ++ (A ++ (pad_str (44 :: ts) ++ (R ++ F)))) := by
    refine ⟨fresh_bytes e.fresh (H ++ (A ++ (pad_str (44 :: ts) ++ R))).length
      (n + 8 - (H ++ (A ++ (pad_str (44 :: ts) ++ R))).length), ?_, ?_⟩
    · simp [fresh_bytes_length, hH, hSl]; omega
    · rw [halloc, realloc_grow _ _ _ (by simp [hH, hSl]; omega)]
      simp only [List.append_assoc]
  have hstrA : strlen (H ++ (A ++ (pad_str (44 :: ts) ++ (R ++ F)))) 4 = some k :=
    strlen_region hk _ _ 4 hH.symm
  have htt : 4 + k + (4 - k % 4) = 4 + A.length := by unfold padded at hA; omega
  obtain ⟨G, hG, hmv⟩ : ∃ G, G.length = 4 ∧
      memmove (H ++ (A ++ (pad_str (44 :: ts) ++ (R ++ F))))
        (4 + A.length + (ts.length + 1) + 1 + 4) (4 + A.length + (ts.length + 1) + 1) R.length
      = some (H ++ (A ++ (pad_str (44 :: ts) ++ (G ++ R)))) := by
    have hrd : read_bytes (H ++ (A ++ (pad_str (44 :: ts) ++ (R ++ F))))
        (4 + A.length + (ts.length + 1) + 1) R.length = some R := by
      have := read_bytes_append (H ++ (A ++ pad_str (44 :: ts))) R F
        (4 + A.length + (ts.length + 1) + 1) R.length (by simp [hH, hSl]; omega) rfl
      simpa only [List.append_assoc] using this
    refine ⟨(R ++ F).take 4, by simp; omega, ?_⟩
    unfold memmove
    rw [hrd]
    simp only [Option.bind_eq_bind, Option.some_bind]
    have hsplit : R ++ F = (R ++ F).take 4 ++ (R ++ F).drop 4 := (List.take_append_drop _ _).symm
    have := write_bytes_append (H ++ (A ++ (pad_str (44 :: ts) ++ (R ++ F).take 4)))
      ((R ++ F).drop 4) [] R (4 + A.length + (ts.length + 1) + 1 + 4)
      (by simp [hH, hSl]; omega) (by simp; omega)
    simp only [List.append_assoc, List.append_nil, List.take_append_drop] at this
    simpa only [List.append_assoc] using this
  have hz : memset (H ++ (A ++ (pad_str (44 :: ts) ++ (G ++ R))))
      (4 + A.length + (ts.length + 1) + 1) 0 4
      = some (H ++ (A ++ (pad_str (44 :: ts) ++ ([0, 0, 0, 0] ++ R)))) := by
    have := memset_append (H ++ (A ++ pad_str (44 :: ts))) G R
      (4 + A.length + (ts.length + 1) + 1) 0 4 (by simp [hH, hSl]; omega) hG.symm (by decide)
    simpa only [List.append_assoc, List.replicate] using this
  have hm : memset (H ++ (A ++ (pad_str (44 :: ts) ++ ([0, 0, 0, 0] ++ R))))
      (4 + A.length + (ts.length + 1)) tag 1
      = some (H ++ (A ++ (pad_str (44 :: (ts ++ [tag])) ++ R))) := by
    have := memset_append (H ++ (A ++ (44 :: ts))) [0]
      ([0, 0, 0, 0] ++ R) (4 + A.length + (ts.length + 1)) tag 1
      (by simp [hH]; omega) rfl htag
    rw [hS2, hS]
    simpa only [List.append_assoc, List.cons_append, List.singleton_append, List.replicate_one,
      List.nil_append] using this
  simp only [actualize_typetag, hstr, hu, hc, hlen, hcur, hnms, hnl, hs32, hargs, hre,
    hstrA, htt, hmv, hz, hm, hal,
    Option.bind_eq_bind, Option.some_bind, Option.pure_def, if_true, and_self]
  rw [if_pos ⟨trivial, hc.2⟩]

/-- The function `actualize_typetag` when the signature region is full and `realloc` fails -/
theorem actualize_typetag_fail (e : Env) (A ts R : List Nat) (tag : Nat)
    (h0 : 0 ∉ ts)
    (hn : 4 + (A.length + ((pad_str (44 :: ts)).length + R.length)) < 4294967296)
    (hfull : (ts.length + 1) % 4 = 3) (halloc : e.alloc_tt = false) :
    actualize_typetag e (layout A (pad_str (44 :: ts)) R) tag
      = some (1, layout A (pad_str (44 :: ts)) R) := by
  have hstr := strlen_sig (be32 (A.length + ((pad_str (44 :: ts)).length + R.length))) A ts R
    (4 + A.length) (by simp [be32_length]) h0
  have hpl := pad_str_length (44 :: ts)
  have hlt := padded_gt (44 :: ts).length
  simp only [List.length_cons] at hpl hlt
  have hu : u32 (ts.length + 1) = ts.length + 1 := u32_of_lt (by omega)
  have hc : ((ts.length + 1) % 4 % 3 = 0 ∧ (ts.length + 1) % 4 ≠ 0) := by omega
  have hlen := serialized_length_layout A (pad_str (44 :: ts)) R (by omega)
  unfold layout at hlen
  simp only [actualize_typetag, layout, hstr, hu, hlen, halloc, realloc_false,
    Option.bind_eq_bind, Option.some_bind, Option.pure_def]
  rw [if_pos hc]

/-- A successful `actualize_typetag` that has to grow the block stays below `2^32` bytes -/
theorem actualize_typetag_ok {e : Env} {A ts R : List Nat} {tag : Nat} {r : Nat × osc_message}
    (h0 : 0 ∉ ts)
    (hn : 4 + (A.length + ((pad_str (44 :: ts)).length + R.length)) < 4294967296)
    (hfull : (ts.length + 1) % 4 = 3) (halloc : e.alloc_tt = true)
    (h : actualize_typetag e (layout A (pad_str (44 :: ts)) R) tag = some r) :
    4 + (A.length + ((pad_str (44 :: ts)).length + R.length)) + 4 < 4294967296 := by
  have hstr := strlen_sig (be32 (A.length + ((pad_str (44 :: ts)).length + R.length))) A ts R
    (4 + A.length) (by simp [be32_length]) h0
  have hpl := pad_str_length (44 :: ts)
  have hlt := padded_gt (44 :: ts).length
  simp only [List.length_cons] at hpl hlt
  have hu : u32 (ts.length + 1) = ts.length + 1 := u32_of_lt (by omega)
  have hc : ((ts.length + 1) % 4 % 3 = 0 ∧ (ts.length + 1) % 4 ≠ 0) := by omega
  have hlen := serialized_length_layout A (pad_str (44 :: ts)) R (by omega)
  unfold layout at hlen
  have hcur := toSize_toI32 (x := A.length + ((pad_str (44 :: ts)).length + R.length)) (by omega)
  simp only [actualize_typetag, layout, hstr, hu, hlen, hcur, halloc,
    Option.bind_eq_bind, Option.some_bind, Option.pure_def] at h
  rw [if_pos hc] at h
  cases hre : realloc true e.fresh
      (be32 (A.length + ((pad_str (44 :: ts)).length + R.length)) ++
        (A ++ (pad_str (44 :: ts) ++ R)))
      (u32 (A.length + ((pad_str (44 :: ts)).length + R.length) + 8)) with
  | none => simp [realloc] at hre
  | some block =>
    rw [hre] at h
    simp only [Option.bind_eq_some] at h
    obtain ⟨alen, hal, -⟩ := h
    have h1 := strlen_lt hal
    have h2 := (realloc_length hre).1
    unfold u32 at h2
    omega

/-- The first phase of `add_argument` (everything before the signature is updated) on a
laid-out message: the payload is appended and the length field updated -/
theorem add_argument_store (e : Env) (A S R bytes : List Nat) (tag k X bc : Nat)
    (hk : strlen_at A = some k) (hA : A.length = padded k)
    (hsz : add_argument_sizes e (A.length + (S.length + R.length)) tag bytes
      = some (A.length + (S.length + R.length) + 4 + X, bc))
    (hbc : bc ≤ bytes.length)
    (hs : tag = OSC_TT_STRING → bc ≤ X ∧ ∃ k1, strlen_at bytes = some k1 ∧ padded k1 = X)
    (hns : tag ≠ OSC_TT_STRING → X = bc)
    (hfit : 4 + (A.length + (S.length + R.length)) + X < 4294967296)
    (halloc : e.alloc = true)
    (htag : tag = OSC_TT_INT ∨ tag = OSC_TT_FLOAT ∨ tag = OSC_TT_STRING ∨ tag = OSC_TT_TIMETAG
        ∨ tag = OSC_TT_BLOB) :
    add_argument e (layout A S R) tag bytes
      = (actualize_typetag e
          (layout A S (R ++ (bytes.take bc ++ List.replicate (X - bc) 0))) tag).bind
          (fun r => some (0, r.2)) := by
  obtain ⟨n, hnd⟩ : ∃ n, n = A.length + (S.length + R.length) := ⟨_, rfl⟩
  rw [layout_eq A S R n hnd, layout_eq A S _ (n + X) (by
    have : bc ≤ X := by
      by_cases ht : tag = OSC_TT_STRING
      · exact (hs ht).1
      · exact (hns ht).ge
    simp; omega)]
  rw [← hnd] at hsz hfit
  have hlen := length_field_layout n (by omega) 4 (4 + A.length) (A ++ (S ++ R))
  have hcur := toSize_toI32 (x := n) (by omega)
  have hH := be32_length n
  have hal : ∀ P : List Nat, actualize_length ⟨4, 4 + A.length, be32 n ++ (A ++ (S ++ (R ++ P)))⟩
      (n + X) = some ⟨4, 4 + A.length, be32 (n + X) ++ (A ++ (S ++ (R ++ P)))⟩ := by
    intro P
    rw [actualize_length_append 4 (4 + A.length) (be32 n) _ (n + X) hH, u32_of_lt (by omega)]
  generalize be32 n = H at *
  have hsub : sub32 (n + 4 + X) 4 = n + X := by unfold sub32; omega
  obtain ⟨F, hF, hre⟩ : ∃ F, F.length = X ∧
      realloc e.alloc e.fresh (H ++ (A ++ (S ++ R))) (n + 4 + X)
      = some (H ++ (A ++ (S ++ (R ++ F)))) := by
    refine ⟨fresh_bytes e.fresh (H ++ (A ++ (S ++ R))).length
      (n + 4 + X - (H ++ (A ++ (S ++ R))).length), ?_, ?_⟩
    · simp [fresh_bytes_length, hH]; omega
    · rw [halloc, realloc_grow _ _ _ (by simp [hH]; omega)]
      simp only [List.append_assoc]
  have hstrA : strlen (H ++ (A ++ (S ++ (R ++ F)))) 4 = some k :=
    strlen_region hk _ _ 4 hH.symm
  have htt : 4 + k + (4 - k % 4) = 4 + A.length := by unfold padded at hA; omega
  have hrd : read_bytes bytes 0 bc = some (bytes.take bc) := read_bytes_zero bytes bc hbc
  have hw : ∀ F1 : List Nat, F1.length = X → bc ≤ X →
      write_bytes (H ++ (A ++ (S ++ (R ++ F1)))) (4 + n) (bytes.take bc)
        = some (H ++ (A ++ (S ++ (R ++ (bytes.take bc ++ F1.drop bc))))) := by
    intro F1 hF1 hle
    have := write_bytes_append (H ++ (A ++ (S ++ R))) (F1.take bc) (F1.drop bc) (bytes.take bc)
      (4 + n) (by simp [hH]; omega) (by simp; omega)
    simpa only [List.append_assoc, List.take_append_drop] using this
  by_cases ht : tag = OSC_TT_STRING
  · obtain ⟨hle, k1, hk1, hp⟩ := hs ht
    subst ht
    have hms : memset (H ++ (A ++ (S ++ (R ++ F)))) (4 + n) 0 (k1 + (4 - k1 % 4))
        = some (H ++ (A ++ (S ++ (R ++ List.replicate X 0)))) := by
      have := memset_append (H ++ (A ++ (S ++ R))) F [] (4 + n) 0 X
        (by simp [hH]; omega) hF.symm (by decide)
      unfold padded at hp
      rw [hp]
      simpa only [List.append_assoc, List.append_nil] using this
    have hw1 := hw (List.replicate X 0) (by simp) hle
    simp only [List.drop_replicate] at hw1
    simp only [add_argument, hlen, hcur, hsz, hsub, hre, hstrA, hk1, hms, hrd, hw1, hal, htt,
      if_true, true_or, or_true, Option.bind_eq_bind, Option.some_bind, Option.pure_def]
  · have hX := hns ht
    have hw1 := hw F hF hX.ge
    have hd : F.drop bc = [] := List.drop_of_length_le (by omega)
    have hr0 : List.replicate (X - bc) 0 = [] := by
      have : X - bc = 0 := by omega
      rw [this]; rfl
    rw [hd] at hw1
    rw [hr0]
    have htag2 : tag = OSC_TT_INT ∨ tag = OSC_TT_FLOAT ∨ tag = OSC_TT_TIMETAG ∨ tag = OSC_TT_BLOB := by
      rcases htag with h | h | h | h | h
      · exact Or.inl h
      · exact Or.inr (Or.inl h)
      · exact absurd h ht
      · exact Or.inr (Or.inr (Or.inl h))
      · exact Or.inr (Or.inr (Or.inr h))
    simp only [add_argument, hlen, hcur, hsz, hsub, hre, hstrA, ht, hrd, hw1, hal, htag2, htt,
      false_or, if_true, if_false, Option.bind_eq_bind, Option.some_bind, Option.pure_def]

/-- What the first `switch` of `add_argument` computes for the five tags -/
theorem add_argument_sizes_spec {e : Env} {n tag nms bc : Nat} {bytes : List Nat}
    (htag : tag = OSC_TT_INT ∨ tag = OSC_TT_FLOAT ∨ tag = OSC_TT_STRING ∨ tag = OSC_TT_TIMETAG
        ∨ tag = OSC_TT_BLOB)
    (h : add_argument_sizes e n tag bytes = some (nms, bc)) :
    ∃ X, nms = u32 (n + 4 + X) ∧
      (tag = OSC_TT_STRING → ∃ k1, strlen_at bytes = some k1 ∧ padded k1 = X ∧ bc = u32 (k1 + 1)) ∧
      (tag ≠ OSC_TT_STRING → X = bc) := by
  rcases htag with rfl | rfl | rfl | rfl | rfl
  · simp [add_argument_sizes] at h
    exact ⟨4, h.1.symm, fun h => absurd h (by decide), fun _ => h.2⟩
  · simp [add_argument_sizes] at h
    exact ⟨4, h.1.symm, fun h => absurd h (by decide), fun _ => h.2⟩
  · cases hstr : strlen_at bytes with
    | none => simp [add_argument_sizes, hstr] at h
    | some k1 =>
      simp [add_argument_sizes, hstr] at h
      refine ⟨padded k1, ?_, fun _ => ⟨k1, rfl, rfl, h.2.symm⟩, fun hne => absurd rfl hne⟩
      rw [← h.1]; unfold padded; congr 1; omega
  · simp [add_argument_sizes] at h
    exact ⟨8, h.1.symm, fun h => absurd h (by decide), fun _ => h.2⟩
  · cases hsize : osc_blob_data_size bytes with
    | none => simp [add_argument_sizes, hsize] at h
    | some v =>
      simp [add_argument_sizes, hsize] at h
      exact ⟨bc, h.2 ▸ h.1.symm, fun h => absurd h (by decide), fun _ => rfl⟩

/-- Which calls of `add_argument` on a laid-out message return 0 -/
theorem add_argument_ok {e : Env} {A S R bytes : List Nat} {tag st : Nat} {m2 : osc_message}
    (hn : 4 + (A.length + (S.length + R.length)) < 4294967296)
    (htag : tag = OSC_TT_INT ∨ tag = OSC_TT_FLOAT ∨ tag = OSC_TT_STRING ∨ tag = OSC_TT_TIMETAG
        ∨ tag = OSC_TT_BLOB)
    (h : add_argument e (layout A S R) tag bytes = some (st, m2)) (hst : st ≠ 1) :
    ∃ X bc, add_argument_sizes e (A.length + (S.length + R.length)) tag bytes
        = some (A.length + (S.length + R.length) + 4 + X, bc) ∧
      bc ≤ bytes.length ∧
      (tag = OSC_TT_STRING → bc ≤ X ∧ ∃ k1, strlen_at bytes = some k1 ∧ padded k1 = X) ∧
      (tag ≠ OSC_TT_STRING → X = bc) ∧
      4 + (A.length + (S.length + R.length)) + X < 4294967296 ∧ e.alloc = true := by
  obtain ⟨n, hnd⟩ : ∃ n, n = A.length + (S.length + R.length) := ⟨_, rfl⟩
  rw [layout_eq A S R n hnd] at h
  rw [← hnd] at hn ⊢
  have hlen := length_field_layout n (by omega) 4 (4 + A.length) (A ++ (S ++ R))
  have hcur := toSize_toI32 (x := n) (by omega)
  have hH := be32_length n
  generalize be32 n = H at *
  cases hsz : add_argument_sizes e n tag bytes with
  | none => simp [add_argument, hlen, hcur, hsz] at h
  | some p =>
    obtain ⟨nms, bc⟩ := p
    obtain ⟨X, hX, hs, hns⟩ := add_argument_sizes_spec htag hsz
    cases hre : realloc e.alloc e.fresh (H ++ (A ++ (S ++ R))) nms with
    | none =>
      simp [add_argument, hlen, hcur, hsz, hre] at h
      exact absurd h.1.symm hst
    | some block =>
      obtain ⟨hbl, hal⟩ := realloc_length hre
      by_cases ht : tag = OSC_TT_STRING
      · obtain ⟨k1, hk1, hp, hbc⟩ := hs ht
        subst ht
        simp only [add_argument, hlen, hcur, hsz, hre, hk1, if_true, Option.bind_eq_bind,
          Option.some_bind, Option.pure_def, Option.bind_eq_some] at h
        obtain ⟨alen, -, b2, hst, copied, hrd, b3, hw, -⟩ := h
        obtain ⟨hr1, hr2⟩ := read_bytes_some hrd
        obtain ⟨hw1, hw2⟩ := write_bytes_length hw
        obtain ⟨hm1, hm2⟩ := memset_some hst
        have hX2 : nms = n + 4 + X ∧ 4 + n + X < 4294967296 := by
          unfold u32 at hX; unfold padded at hp; omega
        obtain ⟨hX2, hfit⟩ := hX2
        have hbX : bc ≤ X := by
          have := padded_gt k1
          unfold u32 at hbc; omega
        subst hX2
        exact ⟨X, bc, rfl, by omega, fun _ => ⟨hbX, k1, hk1, hp⟩, fun hne => absurd rfl hne,
          hfit, hal⟩
      · simp only [add_argument, hlen, hcur, hsz, hre, ht, if_false, Option.bind_eq_bind,
          Option.some_bind, Option.pure_def, Option.bind_eq_some] at h
        obtain ⟨alen, -, copied, hrd, b3, hw, -⟩ := h
        obtain ⟨hr1, hr2⟩ := read_bytes_some hrd
        obtain ⟨hw1, hw2⟩ := write_bytes_length hw
        have hXbc := hns ht
        have hX2 : nms = n + 4 + X ∧ 4 + n + X < 4294967296 := by
          unfold u32 at hX; omega
        obtain ⟨hX2, hfit⟩ := hX2
        subst hX2
        exact ⟨X, bc, rfl, by omega, fun h => absurd h ht, fun _ => hXbc, hfit, hal⟩



theorem add_arg_eq (e : Env) (m : osc_message) (x : Arg) :
    add_arg e m x = (add_argument e m x.tag x.bytes).bind
      (fun r => if r.1 = 1 then some (1, r.2) else some (0, r.2)) := by
  cases x <;> rfl

theorem tag_cases (x : Arg) :
    x.tag = OSC_TT_INT ∨ x.tag = OSC_TT_FLOAT ∨ x.tag = OSC_TT_STRING ∨ x.tag = OSC_TT_TIMETAG
        ∨ x.tag = OSC_TT_BLOB := by
  cases x <;> simp [Arg.tag]

theorem tag_bounds {tag : Nat}
    (htag : tag = OSC_TT_INT ∨ tag = OSC_TT_FLOAT ∨ tag = OSC_TT_STRING ∨ tag = OSC_TT_TIMETAG
        ∨ tag = OSC_TT_BLOB) : tag < 256 ∧ tag ≠ 0 := by
  rcases htag with rfl | rfl | rfl | rfl | rfl <;> decide

theorem not_mem_snoc {ts : List Nat} {tag : Nat} (h0 : 0 ∉ ts) (ht : tag ≠ 0) :
    0 ∉ ts ++ [tag] := by
  simp only [List.mem_append, List.mem_singleton, not_or]
  exact ⟨h0, fun h => ht h.symm⟩

/-- A call of `add_argument` that returns 0 on a laid-out message appends the payload to the
argument region and, unless the signature had to grow and its `realloc` failed, the tag to the
signature -/
theorem add_argument_layout {e : Env} {A ts R bytes : List Nat} {tag k st : Nat}
    {m2 : osc_message}
    (hk : strlen_at A = some k) (hA : A.length = padded k) (h0 : 0 ∉ ts)
    (hn : 4 + (A.length + ((pad_str (44 :: ts)).length + R.length)) < 4294967296)
    (htag : tag = OSC_TT_INT ∨ tag = OSC_TT_FLOAT ∨ tag = OSC_TT_STRING ∨ tag = OSC_TT_TIMETAG
        ∨ tag = OSC_TT_BLOB)
    (h : add_argument e (layout A (pad_str (44 :: ts)) R) tag bytes = some (st, m2))
    (hst : st ≠ 1) :
    ∃ X bc ts2, add_argument_sizes e (A.length + ((pad_str (44 :: ts)).length + R.length)) tag bytes
        = some (A.length + ((pad_str (44 :: ts)).length + R.length) + 4 + X, bc) ∧
      bc ≤ bytes.length ∧
      (tag = OSC_TT_STRING → bc ≤ X ∧ ∃ k1, strlen_at bytes = some k1 ∧ padded k1 = X) ∧
      (tag ≠ OSC_TT_STRING → X = bc) ∧
      m2 = layout A (pad_str (44 :: ts2)) (R ++ (bytes.take bc ++ List.replicate (X - bc) 0)) ∧
      (ts2 = ts ++ [tag] ∨ (ts2 = ts ∧ e.alloc_tt = false)) ∧ 0 ∉ ts2 ∧
      4 + (A.length + ((pad_str (44 :: ts2)).length +
        (R ++ (bytes.take bc ++ List.replicate (X - bc) 0)).length)) < 4294967296 := by
  obtain ⟨X, bc, hsz, hbc, hs, hns, hfit, halloc⟩ := add_argument_ok hn htag h hst
  rw [add_argument_store e A _ R bytes tag k X bc hk hA hsz hbc hs hns hfit halloc htag] at h
  obtain ⟨htl, htz⟩ := tag_bounds htag
  have hbX : bc ≤ X := by
    by_cases ht : tag = OSC_TT_STRING
    · exact (hs ht).1
    · exact (hns ht).ge
  have hPl : (R ++ (bytes.take bc ++ List.replicate (X - bc) 0)).length = R.length + X := by
    simp; omega
  have hn2 : 4 + (A.length + ((pad_str (44 :: ts)).length +
      (R ++ (bytes.take bc ++ List.replicate (X - bc) 0)).length)) < 4294967296 := by
    rw [hPl]; omega
  refine ⟨X, bc, ?_⟩
  by_cases hroom : (ts.length + 1) % 4 = 3
  · cases hat : e.alloc_tt with
    | false =>
      rw [actualize_typetag_fail e A ts _ tag h0 hn2 hroom hat] at h
      simp only [Option.some_bind, Option.some.injEq, Prod.mk.injEq] at h
      exact ⟨ts, hsz, hbc, hs, hns, h.2.symm, Or.inr ⟨rfl, rfl⟩, h0, hn2⟩
    | true =>
      cases hr : actualize_typetag e
          (layout A (pad_str (44 :: ts)) (R ++ (bytes.take bc ++ List.replicate (X - bc) 0)))
          tag with
      | none => rw [hr] at h; simp at h
      | some r =>
        have hfit2 := actualize_typetag_ok h0 hn2 hroom hat hr
        rw [actualize_typetag_grow e A ts _ tag k hk hA h0 htl hfit2 hroom hat] at h
        simp only [Option.some_bind, Option.some.injEq, Prod.mk.injEq] at h
        refine ⟨ts ++ [tag], hsz, hbc, hs, hns, h.2.symm, Or.inl rfl, not_mem_snoc h0 htz, ?_⟩
        have := pad_str_snoc_grow (44 :: ts) tag (by simpa using hroom)
        have h1 := pad_str_full (44 :: ts) (by simpa using hroom)
        rw [h1] at hfit2
        simp only [List.cons_append] at this
        rw [this]
        simp only [List.length_cons, List.length_append, List.length_nil] at hfit2 ⊢
        omega
  · rw [actualize_typetag_room e A ts _ tag h0 htl hn2 hroom] at h
    simp only [Option.some_bind, Option.some.injEq, Prod.mk.injEq] at h
    refine ⟨ts ++ [tag], hsz, hbc, hs, hns, h.2.symm, Or.inl rfl, not_mem_snoc h0 htz, ?_⟩
    have hl2 : (pad_str (44 :: (ts ++ [tag]))).length = (pad_str (44 :: ts)).length := by
      rw [pad_str_length, pad_str_length]
      simp only [List.length_cons, List.length_append, List.length_nil]
      unfold padded; omega
    rw [hl2]; exact hn2

/-- The message `osc_message_new` builds -/
theorem osc_message_new_eq (e : Env) (m0 : osc_message) (h : e.alloc = true) :
    osc_message_new e m0 = some (0, layout [0, 0, 0, 0] (pad_str [44]) []) := by
  have hf : fresh_bytes e.fresh 0 12 = [e.fresh 0 % 256, e.fresh 1 % 256, e.fresh 2 % 256,
      e.fresh 3 % 256, e.fresh 4 % 256, e.fresh 5 % 256, e.fresh 6 % 256, e.fresh 7 % 256,
      e.fresh 8 % 256, e.fresh 9 % 256, e.fresh 10 % 256, e.fresh 11 % 256] := by
    simp [fresh_bytes, List.range_succ]
  simp [osc_message_new, h, realloc, hf, memset, write_bytes, strlen, strlen_at, layout, pad_str,
    be32]

theorem osc_message_new_ok {e : Env} {m0 m1 : osc_message}
    (h : osc_message_new e m0 = some (0, m1)) :
    e.alloc = true ∧ m1 = layout [0, 0, 0, 0] (pad_str [44]) [] := by
  cases ha : e.alloc with
  | false => simp [osc_message_new, ha, realloc] at h
  | true =>
    rw [osc_message_new_eq e m0 ha] at h
    simp only [Option.some.injEq, Prod.mk.injEq, true_and] at h
    exact ⟨rfl, h.symm⟩

theorem WF_new : WF (layout [0, 0, 0, 0] (pad_str [44]) []) :=
  ⟨[0, 0, 0, 0], [], [], 0, rfl, by simp [strlen_at], by simp [padded], by simp,
    by simp [pad_str]⟩

/-- A call of `osc_message_set_address` that returns 0 on a laid-out message replaces the
address region by one that is at least as long and holds the new text -/
theorem set_address_layout {e : Env} {A S R a : List Nat} {k : Nat} {m2 : osc_message}
    (hk : strlen_at A = some k) (hA : A.length = padded k)
    (hn : 4 + (A.length + (S.length + R.length)) < 4294967296)
    (h : osc_message_set_address e (layout A S R) a = some (0, m2)) :
    ∃ A2, m2 = layout A2 S R ∧ strlen_at A2 = some (c_str a).length ∧
      A2.length = padded (c_str a).length ∧ A.length ≤ A2.length ∧
      A2.take (c_str a).length = c_str a ∧
      (A.length < A2.length → A2 = pad_str (c_str a) ∧ e.alloc = true) ∧
      4 + (A2.length + (S.length + R.length)) < 4294967296 := by
  obtain ⟨-, -, h3⟩ := c_str_spec a []
  rcases set_address_ok hA hn h with hsame | ⟨hgrow, hfit, halloc⟩
  · rw [set_address_same e A S R a k hA (by omega) hsame] at h
    simp only [Option.some.injEq, Prod.mk.injEq, true_and] at h
    have hlen : (c_str a ++ 0 :: A.drop ((c_str a).length + 1)).length = A.length := by
      have := padded_gt (c_str a).length
      simp only [List.length_append, List.length_cons, List.length_drop]; omega
    refine ⟨_, h.symm, strlen_at_append _ _ h3, by rw [hlen, hsame], by rw [hlen], by simp,
      fun hlt => absurd hlt (by rw [hlen]; omega), by rw [hlen]; exact hn⟩
  · rw [set_address_grow e A S R a k hk hA hfit hgrow halloc] at h
    simp only [Option.some.injEq, Prod.mk.injEq, true_and] at h
    have hpl := pad_str_length (c_str a)
    refine ⟨_, h.symm, ?_, hpl, by omega, ?_, fun _ => ⟨rfl, halloc⟩, by rw [hpl]; exact hfit⟩
    · rw [pad_str_split]; exact strlen_at_append _ _ h3
    · simp [pad_str]

/-- Every call that returns 0 keeps a message well formed -/
theorem call_WF {e : Env} {m m2 : osc_message} {c : Call} (hm : WF m)
    (h : call e m c = some (0, m2)) : WF m2 := by
  obtain ⟨A, ts, R, k, rfl, hk, hA, h0, hn⟩ := hm
  cases c with
  | set_address a =>
    obtain ⟨A2, rfl, hk2, hA2, -, -, -, hn2⟩ := set_address_layout hk hA hn h
    exact ⟨A2, ts, R, _, rfl, hk2, hA2, h0, hn2⟩
  | add x =>
    simp only [call, add_arg_eq, Option.bind_eq_some] at h
    obtain ⟨r, hr, hst⟩ := h
    have hr1 : r.1 ≠ 1 := by
      intro h1
      rw [if_pos h1] at hst
      simp at hst
    rw [if_neg hr1] at hst
    simp only [Option.some.injEq, Prod.mk.injEq, true_and] at hst
    obtain ⟨X, bc, ts2, -, -, -, -, hm2, -, h02, hn2⟩ :=
      add_argument_layout hk hA h0 hn (tag_cases x) hr hr1
    rw [← hst, hm2]
    exact ⟨A, ts2, _, k, rfl, hk, hA, h02, hn2⟩

theorem run_WF {m m2 : osc_message} (s : List (Env × Call)) (hm : WF m)
    (h : run m s = some (0, m2)) : WF m2 := by
  induction s generalizing m with
  | nil =>
    simp only [run, Option.some.injEq, Prod.mk.injEq, true_and] at h
    exact h ▸ hm
  | cons ec cs ih =>
    simp only [run, Option.bind_eq_bind, Option.bind_eq_some] at h
    obtain ⟨r, hr, hrest⟩ := h
    by_cases h0 : r.1 = 0
    · rw [if_pos h0] at hrest
      have hr2 : call ec.1 m ec.2 = some (0, r.2) := by rw [hr, ← h0]
      exact ih (call_WF hm hr2) hrest
    · rw [if_neg h0] at hrest
      simp only [Option.pure_def, Option.some.injEq] at hrest
      rw [hrest] at h0
      exact absurd rfl h0

theorem build_ok {e : Env} {m0 m : osc_message} {s : List (Env × Call)}
    (h : build e m0 s = some (0, m)) :
    e.alloc = true ∧ run (layout [0, 0, 0, 0] (pad_str [44]) []) s = some (0, m) := by
  cases ha : e.alloc with
  | false => simp [build, osc_message_new, ha, realloc] at h
  | true =>
    simp only [build, osc_message_new_eq e m0 ha, Option.bind_eq_bind, Option.some_bind,
      if_true] at h
    exact ⟨rfl, h⟩

theorem build_eq (e : Env) (m0 : osc_message) (s : List (Env × Call)) (ha : e.alloc = true) :
    build e m0 s = run (layout [0, 0, 0, 0] (pad_str [44]) []) s := by
  simp only [build, osc_message_new_eq e m0 ha, Option.bind_eq_bind, Option.some_bind, if_true]

theorem Reachable.wf {m : osc_message} (h : Reachable m) : WF m := by
  obtain ⟨e, m0, s, hb⟩ := h
  exact run_WF s WF_new (build_ok hb).2


theorem le32_length (v : Nat) : (le32 v).length = 4 := rfl

theorem le32_htobe32 (v : Nat) : le32 (htobe32 v) = be32 (u32 v) :=
  le32_bswap32 (u32_lt v)

theorem toU32_lt (x : Int) : toU32 x < 4294967296 := by
  unfold toU32; omega

theorem padded_mono {a b : Nat} (h : a ≤ b) : padded a ≤ padded b := by
  unfold padded; omega

/-- The sizes `add_argument` computes for a plain argument -/
theorem sizes_plain (e : Env) (n : Nat) {x : Arg} (hx : x.plain) :
    add_argument_sizes e n x.tag x.bytes
      = some (u32 (n + 4 + x.wire.length), u32 x.count) ∧
    x.count ≤ x.bytes.length ∧ x.count ≤ x.wire.length ∧
    (x.tag = OSC_TT_STRING → ∃ k1, strlen_at x.bytes = some k1 ∧ padded k1 = x.wire.length) ∧
    (x.tag ≠ OSC_TT_STRING → x.wire.length = x.count ∧ x.count ≤ 8) ∧
    x.bytes.take x.count ++ List.replicate (x.wire.length - x.count) 0 = x.wire := by
  cases x with
  | int32 v =>
    refine ⟨by simp [add_argument_sizes, Arg.tag, Arg.wire, Arg.count, be32_length, u32],
      by simp [Arg.count, Arg.bytes, le32_length], by simp [Arg.count, Arg.wire, be32_length],
      fun h => absurd h (by simp [Arg.tag]),
      fun _ => by simp [Arg.count, Arg.wire, be32_length], ?_⟩
    simp only [Arg.bytes, Arg.count, Arg.wire, le32_htobe32, be32_length,
      u32_of_lt (toU32_lt v)]
    simp [be32]
  | float32 v =>
    refine ⟨by simp [add_argument_sizes, Arg.tag, Arg.wire, Arg.count, be32_length, u32],
      by simp [Arg.count, Arg.bytes, le32_length], by simp [Arg.count, Arg.wire, be32_length],
      fun h => absurd h (by simp [Arg.tag]),
      fun _ => by simp [Arg.count, Arg.wire, be32_length], ?_⟩
    simp only [Arg.bytes, Arg.count, Arg.wire, le32_htobe32, be32_length]
    simp [be32]
  | string s =>
    have h0 : 0 ∉ s := hx
    have hstr : strlen_at (s ++ [0]) = some s.length := strlen_at_append s [] h0
    have hlt := padded_gt s.length
    refine ⟨?_, by simp [Arg.count, Arg.bytes], ?_, fun _ => ⟨s.length, hstr, ?_⟩,
      fun h => absurd rfl h, ?_⟩
    · simp only [add_argument_sizes, Arg.tag, Arg.bytes, hstr, Arg.wire, pad_str_length, Arg.count]
      simp only [Nat.reduceEqDiff, if_false, if_true, Option.bind_eq_bind, Option.some_bind,
        Option.pure_def, padded]
      rw [if_neg (by decide), if_neg (by decide), Nat.add_assoc (n + 4)]
    · simp only [Arg.count, Arg.wire, pad_str_length]; omega
    · simp only [Arg.wire, pad_str_length]
    · simp only [Arg.bytes, Arg.count, Arg.wire, pad_str_length]
      rw [pad_str_split, List.take_of_length_le (by simp)]
      have : padded s.length - (s.length + 1) = 3 - s.length % 4 := by unfold padded; omega
      rw [this]; simp
  | timetag sec frac =>
    refine ⟨by simp [add_argument_sizes, Arg.tag, Arg.wire, Arg.count, be32_length, u32],
      by simp [Arg.count, Arg.bytes, le32_length], by simp [Arg.count, Arg.wire, be32_length],
      fun h => absurd h (by simp [Arg.tag]),
      fun _ => by simp [Arg.count, Arg.wire, be32_length], ?_⟩
    simp only [Arg.bytes, Arg.count, Arg.wire, le32_htobe32, List.length_append, be32_length]
    simp [be32]
  | blob b => exact absurd hx (by simp [Arg.plain])

/-- A plain argument whose `osc_message_add_*` call returns 0 is appended with its tag -/
theorem add_arg_layout {e : Env} {A ts R : List Nat} {k : Nat} {x : Arg} {m2 : osc_message}
    (hk : strlen_at A = some k) (hA : A.length = padded k) (h0 : 0 ∉ ts)
    (hn : 4 + (A.length + ((pad_str (44 :: ts)).length + R.length)) < 4294967296)
    (hx : x.plain) (hat : e.alloc_tt = true)
    (h : add_arg e (layout A (pad_str (44 :: ts)) R) x = some (0, m2)) :
    m2 = layout A (pad_str (44 :: (ts ++ [x.tag]))) (R ++ x.wire) ∧ 0 ∉ ts ++ [x.tag] ∧
    4 + (A.length + ((pad_str (44 :: (ts ++ [x.tag]))).length + (R ++ x.wire).length))
      < 4294967296 := by
  simp only [add_arg_eq, Option.bind_eq_some] at h
  obtain ⟨r, hr, hst⟩ := h
  have hr1 : r.1 ≠ 1 := by
    intro h1
    rw [if_pos h1] at hst
    simp at hst
  rw [if_neg hr1] at hst
  simp only [Option.some.injEq, Prod.mk.injEq, true_and] at hst
  obtain ⟨X, bc, ts2, hsz, hbc, hs, hns, hm2, hts, h02, hn2⟩ :=
    add_argument_layout hk hA h0 hn (tag_cases x) hr hr1
  obtain ⟨hsz2, hc1, hc2, hstr, hnstr, hpay⟩ := sizes_plain e
    (A.length + ((pad_str (44 :: ts)).length + R.length)) hx
  rw [hsz2] at hsz
  simp only [Option.some.injEq, Prod.mk.injEq] at hsz
  obtain ⟨hsz1, hszc⟩ := hsz
  have hXw : X = x.wire.length ∧ bc = x.count := by
    by_cases ht : x.tag = OSC_TT_STRING
    · obtain ⟨-, k1, hk1, hp1⟩ := hs ht
      obtain ⟨k2, hk2, hp2⟩ := hstr ht
      rw [hk1] at hk2
      simp only [Option.some.injEq] at hk2
      subst hk2
      have hX : X = x.wire.length := by omega
      refine ⟨hX, ?_⟩
      unfold u32 at hsz1 hszc
      omega
    · have hXbc := hns ht
      have hcw := hnstr ht
      constructor <;>
      · unfold u32 at hsz1 hszc
        omega
  obtain ⟨hX, hbcc⟩ := hXw
  subst hX hbcc
  rw [hpay] at hm2 hn2
  rcases hts with rfl | ⟨-, hf⟩
  · exact ⟨hst ▸ hm2, h02, hn2⟩
  · rw [hat] at hf; exact absurd hf (by decide)

theorem pad_str_snoc_length (s : List Nat) (c : Nat) :
    (pad_str s).length ≤ (pad_str (s ++ [c])).length := by
  rw [pad_str_length, pad_str_length]
  exact padded_mono (by simp)

/-- A plain argument is appended when no allocation fails and the result stays below `2^32`
bytes -/
theorem add_arg_fwd (e : Env) (A ts R : List Nat) (k : Nat) (x : Arg)
    (hk : strlen_at A = some k) (hA : A.length = padded k) (h0 : 0 ∉ ts)
    (hx : x.plain) (ha : e.alloc = true) (hat : e.alloc_tt = true)
    (hfit : 4 + (A.length + ((pad_str (44 :: (ts ++ [x.tag]))).length + (R ++ x.wire).length))
      < 4294967296) :
    add_arg e (layout A (pad_str (44 :: ts)) R) x
      = some (0, layout A (pad_str (44 :: (ts ++ [x.tag]))) (R ++ x.wire)) := by
  obtain ⟨hsz, hc1, hc2, hstr, hnstr, hpay⟩ := sizes_plain e
    (A.length + ((pad_str (44 :: ts)).length + R.length)) hx
  have hmono := pad_str_snoc_length (44 :: ts) x.tag
  simp only [List.cons_append, List.length_append] at hmono hfit
  obtain ⟨htl, -⟩ := tag_bounds (tag_cases x)
  rw [u32_of_lt (by omega), u32_of_lt (by omega)] at hsz
  rw [add_arg_eq, add_argument_store e A _ R x.bytes x.tag k x.wire.length x.count hk hA hsz hc1
    (fun ht => ⟨hc2, hstr ht⟩) (fun ht => (hnstr ht).1) (by omega) ha (tag_cases x), hpay]
  by_cases hroom : (ts.length + 1) % 4 = 3
  · rw [actualize_typetag_grow e A ts _ x.tag k hk hA h0 htl ?_ hroom hat]
    · rfl
    · have := pad_str_snoc_grow (44 :: ts) x.tag (by simpa using hroom)
      have h1 := pad_str_full (44 :: ts) (by simpa using hroom)
      simp only [List.cons_append] at this
      rw [this] at hfit
      rw [h1]
      simp only [List.length_cons, List.length_append, List.length_nil] at hfit ⊢
      omega
  · rw [actualize_typetag_room e A ts _ x.tag h0 htl ?_ hroom]
    · rfl
    · simp only [List.length_append]; omega

/-- The message after a sequence of plain calls that all return 0, when no allocation for the
signature fails: the signature and the argument region list the appended arguments -/
theorem run_layout (s : List (Env × Call)) {A ts R : List Nat} {k : Nat} {m : osc_message}
    (hs : ∀ ec ∈ s, ec.2.plain ∧ ec.1.alloc_tt = true)
    (hk : strlen_at A = some k) (hA : A.length = padded k) (h0 : 0 ∉ ts)
    (hn : 4 + (A.length + ((pad_str (44 :: ts)).length + R.length)) < 4294967296)
    (h : run (layout A (pad_str (44 :: ts)) R) s = some (0, m)) :
    ∃ A2 k2, m = layout A2 (pad_str (44 :: (ts ++ (added s).map Arg.tag)))
        (R ++ ((added s).map Arg.wire).flatten) ∧
      strlen_at A2 = some k2 ∧ A2.length = padded k2 ∧ 0 ∉ ts ++ (added s).map Arg.tag ∧
      4 + (A2.length + ((pad_str (44 :: (ts ++ (added s).map Arg.tag))).length +
        (R ++ ((added s).map Arg.wire).flatten).length)) < 4294967296 := by
  induction s generalizing A ts R k with
  | nil =>
    simp only [run, Option.some.injEq, Prod.mk.injEq, true_and] at h
    subst h
    exact ⟨A, k, by simp [added], hk, hA, by simpa [added] using h0, by simpa [added] using hn⟩
  | cons ec cs ih =>
    obtain ⟨e, c⟩ := ec
    simp only [run, Option.bind_eq_bind, Option.bind_eq_some] at h
    obtain ⟨r, hr, hrest⟩ := h
    have hr0 : r.1 = 0 := by
      by_contra h0
      rw [if_neg h0] at hrest
      simp only [Option.pure_def, Option.some.injEq] at hrest
      rw [hrest] at h0
      exact h0 rfl
    rw [if_pos hr0] at hrest
    have hr2 : call e (layout A (pad_str (44 :: ts)) R) c = some (0, r.2) := by
      rw [hr, ← hr0]
    obtain ⟨hc, hat⟩ := hs (e, c) (List.mem_cons_self _ _)
    have hs2 : ∀ ec ∈ cs, ec.2.plain ∧ ec.1.alloc_tt = true :=
      fun ec hec => hs ec (List.mem_cons_of_mem _ hec)
    cases c with
    | set_address a =>
      obtain ⟨A2, hm2, hk2, hA2, -, -, -, hn2⟩ := set_address_layout hk hA hn hr2
      rw [hm2] at hrest
      exact ih hs2 hk2 hA2 h0 hn2 hrest
    | add x =>
      obtain ⟨hm2, h02, hn2⟩ := add_arg_layout hk hA h0 hn hc hat hr2
      rw [hm2] at hrest
      obtain ⟨A3, k3, hm3, hk3, hA3, h03, hn3⟩ := ih hs2 hk hA h02 hn2 hrest
      refine ⟨A3, k3, ?_, hk3, hA3, ?_, ?_⟩
      · simpa [added] using hm3
      · simpa [added] using h03
      · simpa [added] using hn3

theorem getElem?_drop_zero (l : List Nat) (q : Nat) : l[q]? = (l.drop q)[0]? := by
  simp

theorem strlen_of_drop (block s rest : List Nat) (p : Nat) (h0 : 0 ∉ s) (z : Nat)
    (hd : block.drop p = s ++ (0 :: List.replicate z 0) ++ rest) :
    strlen block p = some s.length := by
  unfold strlen
  rw [hd, List.append_assoc, List.cons_append]
  exact strlen_at_append s _ h0

/-- The scan of `osc_message_arg` over plain arguments advances by their encoded sizes -/
theorem arg_loop_plain (block : List Nat) (typetag : Nat) (rest : List Arg) (T : List Nat)
    (i p ab : Nat) (hplain : ∀ x ∈ rest, x.plain)
    (htags : ∀ j x, rest[j]? = some x → block[typetag + i + j]? = some x.tag)
    (hdata : block.drop p = (rest.map Arg.wire).flatten ++ T) :
    osc_message_arg_loop block typetag rest.length i p ab
      = some (p + (rest.map Arg.wire).flatten.length) := by
  induction rest generalizing i p with
  | nil => simp [osc_message_arg_loop]
  | cons x xs ih =>
    have hc : block[typetag + i]? = some x.tag := by
      simpa using htags 0 x (by simp)
    have hx : x.plain := hplain x (List.mem_cons_self _ _)
    have hxs : ∀ y ∈ xs, y.plain := fun y hy => hplain y (List.mem_cons_of_mem _ hy)
    have htags2 : ∀ j y, xs[j]? = some y → block[typetag + (i + 1) + j]? = some y.tag := by
      intro j y hy
      have := htags (j + 1) y (by simpa using hy)
      rw [← this]; congr 1; omega
    have hdata2 : block.drop (p + x.wire.length) = (xs.map Arg.wire).flatten ++ T := by
      rw [← List.drop_drop, hdata]
      simp
    have hih := ih (i + 1) (p + x.wire.length) hxs htags2 hdata2
    have hlen : p + ((x :: xs).map Arg.wire).flatten.length
        = p + x.wire.length + (xs.map Arg.wire).flatten.length := by
      simp; omega
    rw [hlen, ← hih]
    simp only [List.length_cons, osc_message_arg_loop, hc, Option.bind_eq_bind, Option.some_bind]
    cases x with
    | int32 v => simp [Arg.tag, Arg.wire, be32_length]
    | float32 v => simp [Arg.tag, Arg.wire, be32_length]
    | string s =>
      have hstr : strlen block p = some s.length := by
        apply strlen_of_drop block s ((xs.map Arg.wire).flatten ++ T) p hx (3 - s.length % 4)
        rw [hdata]
        simp [Arg.wire, pad_str_split]
      simp [Arg.tag, Arg.wire, hstr, pad_str_length, padded]
    | timetag sec frac => simp [Arg.tag, Arg.wire, be32_length]
    | blob b => exact absurd hx (by simp [Arg.plain])

theorem sig_get (H A ts R : List Nat) (t j : Nat) (ht : t = H.length + A.length)
    (hj : j < (pad_str (44 :: ts)).length) :
    (H ++ (A ++ (pad_str (44 :: ts) ++ R)))[t + j]? = (pad_str (44 :: ts))[j]? := by
  subst ht
  rw [← List.append_assoc, List.getElem?_append_right (by simp)]
  have : H.length + A.length + j - (H ++ A).length = j := by simp
  rw [this, List.getElem?_append_left hj]

theorem sig_tag (H A ts R : List Nat) (t j x : Nat) (ht : t = H.length + A.length)
    (hx : ts[j]? = some x) :
    (H ++ (A ++ (pad_str (44 :: ts) ++ R)))[t + (j + 1)]? = some x := by
  have hj : j < ts.length := by
    by_contra hn
    rw [List.getElem?_eq_none (by omega)] at hx
    simp at hx
  rw [sig_get H A ts R t (j + 1) ht (by
    rw [pad_str_length]; have := padded_gt (44 :: ts).length; simp at this ⊢; omega)]
  rw [pad_str_split, List.cons_append, List.getElem?_cons_succ, List.getElem?_append_left hj]
  exact hx

theorem sig_zero (H A ts R : List Nat) (t j : Nat) (ht : t = H.length + A.length)
    (h1 : ts.length + 1 ≤ j) (h2 : j < padded (ts.length + 1)) :
    (H ++ (A ++ (pad_str (44 :: ts) ++ R)))[t + j]? = some 0 := by
  rw [sig_get H A ts R t j ht (by rw [pad_str_length]; simpa using h2)]
  unfold pad_str
  rw [List.getElem?_append_right (by simp; omega), List.getElem?_replicate]
  unfold padded at h2
  simp only [List.length_cons]
  rw [if_pos (by omega)]

theorem sig_comma (H A ts R : List Nat) (t : Nat) (ht : t = H.length + A.length) :
    (H ++ (A ++ (pad_str (44 :: ts) ++ R)))[t]? = some 44 := by
  have := sig_get H A ts R t 0 ht (by rw [pad_str_length]; unfold padded; omega)
  rw [Nat.add_zero] at this
  rw [this, pad_str_split]
  simp

theorem tags_not_mem (args : List Arg) : 0 ∉ args.map Arg.tag := by
  intro h
  simp only [List.mem_map] at h
  obtain ⟨x, -, hx⟩ := h
  exact (tag_bounds (tag_cases x)).2 hx

theorem drop_layout (H A S R : List Nat) (p : Nat) (hp : p = H.length + A.length + S.length) :
    (H ++ (A ++ (S ++ R))).drop p = R := by
  subst hp
  have : H ++ (A ++ (S ++ R)) = (H ++ (A ++ S)) ++ R := by simp
  rw [this, List.drop_append_of_le_length (by simp; omega), List.drop_of_length_le (by simp; omega)]
  rfl

/-- The function `osc_message_arg` at an index below the number of plain arguments -/
theorem arg_layout_lt (A : List Nat) (args : List Arg) (i : Nat) (x : Arg)
    (hplain : ∀ x ∈ args, x.plain) (hx : args[i]? = some x)
    (hsz : 4 + (A.length + ((pad_str (44 :: args.map Arg.tag)).length +
      (args.map Arg.wire).flatten.length)) < 4294967296) :
    osc_message_arg (layout A (pad_str (44 :: args.map Arg.tag)) (args.map Arg.wire).flatten) i
      = some (some (4 + A.length + padded (args.length + 1)
          + ((args.take i).map Arg.wire).flatten.length)) := by
  have hi : i < args.length := by
    by_contra hn
    rw [List.getElem?_eq_none (by omega)] at hx
    simp at hx
  have hmod : (i + 1) % 18446744073709551616 = i + 1 := by
    have hp := pad_str_length (44 :: args.map Arg.tag)
    have hg := padded_gt (44 :: args.map Arg.tag).length
    simp only [List.length_cons, List.length_map] at hp hg
    exact Nat.mod_eq_of_lt (by omega)
  clear hsz
  obtain ⟨n, hn⟩ : ∃ n, n = A.length + ((pad_str (44 :: args.map Arg.tag)).length +
      (args.map Arg.wire).flatten.length) := ⟨_, rfl⟩
  rw [layout_eq _ _ _ n hn]
  have hH := be32_length n
  generalize be32 n = H at *
  have hstr := strlen_sig H A (args.map Arg.tag) (args.map Arg.wire).flatten (4 + A.length)
    (by omega) (tags_not_mem args)
  simp only [List.length_map] at hstr
  have hc : (H ++ (A ++ (pad_str (44 :: args.map Arg.tag) ++ (args.map Arg.wire).flatten)))[
      4 + A.length + (i + 1)]? = some x.tag :=
    sig_tag H A (args.map Arg.tag) _ (4 + A.length) i x.tag (by omega) (by simp [hx])
  have hne : x.tag ≠ 0 := (tag_bounds (tag_cases x)).2
  have hsplit : args = args.take i ++ args.drop i := (List.take_append_drop i args).symm
  have hloop := arg_loop_plain
    (H ++ (A ++ (pad_str (44 :: args.map Arg.tag) ++ (args.map Arg.wire).flatten)))
    (4 + A.length) (args.take i) ((args.drop i).map Arg.wire).flatten 1
    (4 + A.length + (args.length + 1) + (4 - (args.length + 1) % 4)) 0
    (fun y hy => hplain y (List.mem_of_mem_take hy))
    (by
      intro j y hy
      have hy2 : args[j]? = some y := by
        rw [List.getElem?_take] at hy
        split at hy
        · exact hy
        · simp at hy
      rw [Nat.add_assoc]
      rw [Nat.add_comm 1 j]
      exact sig_tag H A (args.map Arg.tag) _ (4 + A.length) j y.tag (by omega) (by simp [hy2]))
    (by
      rw [drop_layout H A _ _ _ (by
        rw [pad_str_length]; simp only [List.length_cons, List.length_map]; unfold padded; omega)]
      conv_lhs => rw [hsplit]
      simp only [List.map_append, List.flatten_append])
  rw [List.length_take, min_eq_left hi.le] at hloop
  simp only [osc_message_arg, hmod, Nat.add_sub_cancel, hstr, hc, hloop, hne, if_false,
    Option.bind_eq_bind, Option.some_bind, Option.pure_def]
  unfold padded
  simp only [Option.some.injEq]
  omega

/-- At the index `2^64 - 1` the sum `arg_index + 1` wraps to 0: the byte tested is the comma and
the loop does not run, so the result is the start of the argument region -/
theorem arg_index_wraps :
    osc_message_arg ⟨4, 8, [0, 0, 0, 12, 0, 0, 0, 0, 44, 105, 0, 0, 1, 0, 0, 0]⟩
      18446744073709551615 = some (some 12) := by
  decide

/-- The function `osc_message_arg` at the index that equals the number of arguments -/
theorem arg_layout_end (A R ts : List Nat) (h0 : 0 ∉ ts)
    (hsz : 4 + (A.length + ((pad_str (44 :: ts)).length + R.length)) < 4294967296) :
    osc_message_arg (layout A (pad_str (44 :: ts)) R) ts.length = some none := by
  have hmod : (ts.length + 1) % 18446744073709551616 = ts.length + 1 := by
    have hp := pad_str_length (44 :: ts)
    have hg := padded_gt (44 :: ts).length
    simp only [List.length_cons] at hp hg
    exact Nat.mod_eq_of_lt (by omega)
  clear hsz
  obtain ⟨n, hn⟩ : ∃ n, n = A.length + ((pad_str (44 :: ts)).length + R.length) := ⟨_, rfl⟩
  rw [layout_eq _ _ _ n hn]
  have hH := be32_length n
  generalize be32 n = H at *
  have hstr := strlen_sig H A ts R (4 + A.length) (by omega) h0
  have hc := sig_zero H A ts R (4 + A.length) (ts.length + 1) (by omega) (le_refl _)
    (padded_gt _).1
  simp only [osc_message_arg, hmod, hstr, hc, if_true, Option.bind_eq_bind, Option.some_bind,
    Option.pure_def]

/-- The function `osc_message_argc` on a laid-out message -/
theorem argc_layout (A R ts : List Nat) (h0 : 0 ∉ ts)
    (hn : 4 + (A.length + ((pad_str (44 :: ts)).length + R.length)) < 4294967296) :
    osc_message_argc (layout A (pad_str (44 :: ts)) R) = some ts.length := by
  have hpl := pad_str_length (44 :: ts)
  have hlt := padded_gt (44 :: ts).length
  simp only [List.length_cons] at hpl hlt
  obtain ⟨n, hnd⟩ : ∃ n, n = A.length + ((pad_str (44 :: ts)).length + R.length) := ⟨_, rfl⟩
  rw [layout_eq _ _ _ n hnd]
  have hH := be32_length n
  generalize be32 n = H at *
  have hstr := strlen_sig H A ts R (4 + A.length) (by omega) h0
  simp only [osc_message_argc, hstr, Option.bind_eq_bind, Option.some_bind, Option.pure_def,
    Option.some.injEq]
  omega

theorem load32_of_drop (block rest : List Nat) (p b0 b1 b2 b3 : Nat)
    (hd : block.drop p = b0 :: b1 :: b2 :: b3 :: rest) :
    load32 block p = some (b0 + 256 * b1 + 65536 * b2 + 16777216 * b3) := by
  have hl : p + 4 ≤ block.length := by
    have := congrArg List.length hd
    simp only [List.length_drop, List.length_cons] at this
    omega
  simp [load32, read_bytes, hl, hd]

theorem load32_be32 (block rest : List Nat) (p v : Nat) (hv : v < 4294967296)
    (hd : block.drop p = be32 v ++ rest) : load32 block p = some (bswap32 v) := by
  obtain ⟨a, b, c, d, ha, hb, hc, hdd, rfl⟩ := bytes_of hv
  rw [be32_bytes a b c d ha hb hc hdd] at hd
  rw [load32_of_drop block rest p d c b a hd, bswap32_bytes a b c d ha hb hc hdd]

theorem toI32_toU32 {x : Int} (h1 : -2147483648 ≤ x) (h2 : x < 2147483648) :
    toI32 (toU32 x) = x := by
  unfold toI32 toU32
  split <;> omega

theorem unpack_bswap {v : Nat} (hv : v < 4294967296) :
    osc_unpack_int32 (toI32 (bswap32 v)) = toI32 v := by
  unfold osc_unpack_int32 be32toh
  rw [toU32_toI32 (bswap32_lt v), u32_of_lt (bswap32_lt v), bswap32_bswap32 hv]

/-- Decoding the wire bytes of a plain argument gives the argument back -/
theorem decode_wire (block rest : List Nat) (p : Nat) (x : Arg) (hx : x.plain)
    (hd : block.drop p = x.wire ++ rest) : decode_arg block p x.tag = some x := by
  cases x with
  | int32 v =>
    obtain ⟨h1, h2⟩ : -2147483648 ≤ v ∧ v < 2147483648 := hx
    simp only [Arg.wire] at hd
    simp only [decode_arg, Arg.tag, if_true, load32_be32 block rest p _ (toU32_lt v) hd,
      Option.bind_eq_bind, Option.some_bind, Option.pure_def, unpack_bswap (toU32_lt v),
      toI32_toU32 h1 h2]
  | float32 v =>
    have hv : v < 4294967296 := hx
    simp only [Arg.wire, u32_of_lt hv] at hd
    simp only [decode_arg, Arg.tag, load32_be32 block rest p _ hv hd,
      Option.bind_eq_bind, Option.some_bind, Option.pure_def, osc_unpack_float, be32toh,
      u32_of_lt (bswap32_lt v), bswap32_bswap32 hv]
    simp
  | string s =>
    have h0 : 0 ∉ s := hx
    simp only [Arg.wire] at hd
    have hstr : strlen block p = some s.length :=
      strlen_of_drop block s rest p h0 (3 - s.length % 4) (by rw [hd, pad_str_split])
    have hl : p + s.length ≤ block.length := by
      have := congrArg List.length hd
      simp only [List.length_drop, List.length_append, pad_str_length] at this
      have := padded_gt s.length
      omega
    have hrd : read_bytes block p s.length = some s := by
      simp [read_bytes, hl, hd, pad_str]
    simp [decode_arg, Arg.tag, cstr_at, hstr, hrd]
  | timetag sec frac =>
    obtain ⟨h1, h2⟩ : sec < 4294967296 ∧ frac < 4294967296 := hx
    simp only [Arg.wire, u32_of_lt h1, u32_of_lt h2, List.append_assoc] at hd
    have hd2 : block.drop (p + 4) = be32 frac ++ rest := by
      rw [← List.drop_drop, hd]
      simp [be32]
    simp only [decode_arg, Arg.tag, load32_be32 block _ p _ h1 hd,
      load32_be32 block _ (p + 4) _ h2 hd2,
      Option.bind_eq_bind, Option.some_bind, Option.pure_def, unpack_bswap h1, unpack_bswap h2,
      toU32_toI32 h1, toU32_toI32 h2]
    simp
  | blob b => exact absurd hx (by simp [Arg.plain])

/-- A sequence of appends of plain arguments succeeds when no allocation fails and the final
message stays below `2^32` bytes -/
theorem run_adds (args : List Arg) (s : List (Env × Call)) (A ts R : List Nat) (k : Nat)
    (hmap : s.map Prod.snd = args.map Call.add)
    (henv : ∀ ec ∈ s, ec.1.alloc = true ∧ ec.1.alloc_tt = true)
    (hplain : ∀ x ∈ args, x.plain)
    (hk : strlen_at A = some k) (hA : A.length = padded k) (h0 : 0 ∉ ts)
    (hfit : 4 + (A.length + ((pad_str (44 :: (ts ++ args.map Arg.tag))).length +
        (R ++ (args.map Arg.wire).flatten).length)) < 4294967296) :
    run (layout A (pad_str (44 :: ts)) R) s
      = some (0, layout A (pad_str (44 :: (ts ++ args.map Arg.tag)))
          (R ++ (args.map Arg.wire).flatten)) := by
  induction args generalizing s ts R with
  | nil =>
    cases s with
    | nil => simp [run]
    | cons ec cs => simp at hmap
  | cons x xs ih =>
    cases s with
    | nil => simp at hmap
    | cons ec cs =>
      obtain ⟨e, c⟩ := ec
      simp only [List.map_cons, List.cons.injEq] at hmap
      obtain ⟨hc, hmap2⟩ := hmap
      subst hc
      obtain ⟨ha, hat⟩ := henv (e, Call.add x) (List.mem_cons_self _ _)
      have hx : x.plain := hplain x (List.mem_cons_self _ _)
      have hfit1 : 4 + (A.length + ((pad_str (44 :: (ts ++ [x.tag]))).length +
          (R ++ x.wire).length)) < 4294967296 := by
        have h1 : (pad_str (44 :: (ts ++ [x.tag]))).length
            ≤ (pad_str (44 :: (ts ++ (x :: xs).map Arg.tag))).length := by
          rw [pad_str_length, pad_str_length]
          exact padded_mono (by simp)
        simp only [List.length_append, List.map_cons, List.flatten_cons] at hfit h1 ⊢
        omega
      have hstep := add_arg_fwd e A ts R k x hk hA h0 hx ha hat hfit1
      have hrest := ih cs (ts ++ [x.tag]) (R ++ x.wire) hmap2
        (fun ec hec => henv ec (List.mem_cons_of_mem _ hec))
        (fun y hy => hplain y (List.mem_cons_of_mem _ hy))
        (not_mem_snoc h0 (tag_bounds (tag_cases x)).2)
        (by simpa [List.append_assoc] using hfit)
      simp only [run, call, hstep, Option.bind_eq_bind, Option.some_bind, if_true, hrest]
      simp [List.append_assoc]

theorem pad_str_short (a : List Nat) (h : a.length ≤ 3) :
    a ++ 0 :: List.drop (a.length + 1) [0, 0, 0, 0] = pad_str a := by
  rw [pad_str_split]
  have : a.length % 4 = a.length := Nat.mod_eq_of_lt (by omega)
  rw [this]
  have h4 : ([0, 0, 0, 0] : List Nat) = List.replicate 4 0 := rfl
  rw [h4, List.drop_replicate]
  congr 3
  omega

/-- The function `osc_message_set_address` on the message `osc_message_new` builds -/
theorem set_address_new (e : Env) (a : List Nat) (h0 : 0 ∉ a) (ha : e.alloc = true)
    (hfit : 4 + ((pad_str a).length + 4) < 4294967296) :
    osc_message_set_address e (layout [0, 0, 0, 0] (pad_str [44]) []) a
      = some (0, layout (pad_str a) (pad_str [44]) []) := by
  have hc := c_str_of_not_mem h0
  rw [pad_str_length] at hfit
  by_cases hs : a.length ≤ 3
  · rw [set_address_same e _ _ _ a 0 (by simp [padded]) (by simp [pad_str])
      (by rw [hc]; simp [padded]; omega), hc]
    rw [pad_str_short a hs]
  · have hp := padded_gt a.length
    rw [set_address_grow e _ _ _ a 0 (by simp [strlen_at]) (by simp [padded])
      (by rw [hc]; simp [pad_str]; omega) (by rw [hc]; simp; omega) ha, hc]

/-! ## Independence of the address region -/

theorem drop_shift {b b2 : List Nat} {t d : Nat} (h : b2.drop (t + d) = b.drop t) {p : Nat}
    (hp : t ≤ p) : b2.drop (p + d) = b.drop p := by
  have h1 : p + d = (t + d) + (p - t) := by omega
  have h2 : p = t + (p - t) := by omega
  rw [h1, ← List.drop_drop, h]
  conv_rhs => rw [h2, ← List.drop_drop]

theorem getElem?_shift {b b2 : List Nat} {t d : Nat} (h : b2.drop (t + d) = b.drop t) {p : Nat}
    (hp : t ≤ p) : b2[p + d]? = b[p]? := by
  rw [getElem?_drop_zero b2, getElem?_drop_zero b, drop_shift h hp]

theorem strlen_shift {b b2 : List Nat} {t d : Nat} (h : b2.drop (t + d) = b.drop t) {p : Nat}
    (hp : t ≤ p) : strlen b2 (p + d) = strlen b p := by
  unfold strlen
  rw [drop_shift h hp]

theorem read_bytes_shift {b b2 : List Nat} {t d : Nat} (h : b2.drop (t + d) = b.drop t)
    (hl : b2.length = b.length + d) {p : Nat} (hp : t ≤ p) (n : Nat) :
    read_bytes b2 (p + d) n = read_bytes b p n := by
  unfold read_bytes
  rw [drop_shift h hp, hl]
  by_cases hc : p + n ≤ b.length
  · rw [if_pos hc, if_pos (by omega)]
  · rw [if_neg hc, if_neg (by omega)]

/-- The scan of `osc_message_arg` only depends on the bytes from the signature onwards -/
theorem arg_loop_shift {b b2 : List Nat} {t d : Nat} (h : b2.drop (t + d) = b.drop t)
    (k i p ab : Nat) (hp : t ≤ p) :
    osc_message_arg_loop b2 (t + d) k i (p + d) ab
      = (osc_message_arg_loop b t k i p ab).map (· + d) := by
  induction k generalizing i p ab with
  | zero => simp [osc_message_arg_loop]
  | succ k ih =>
    have hc : b2[t + d + i]? = b[t + i]? := by
      have := getElem?_shift h (p := t + i) (by omega)
      rw [← this]; congr 1; omega
    simp only [osc_message_arg_loop, hc, strlen_shift h hp, drop_shift h hp,
      Option.bind_eq_bind]
    cases hb : b[t + i]? with
    | none => simp
    | some c =>
      simp only [Option.some_bind]
      have e4 : p + d + 4 = p + 4 + d := by omega
      have e8 : p + d + 8 = p + 8 + d := by omega
      split
      · rw [e4]; exact ih _ _ _ (by omega)
      · split
        · rw [e4]; exact ih _ _ _ (by omega)
        · split
          · cases hs : strlen b p with
            | none => simp
            | some n =>
              simp only [Option.some_bind]
              have : p + d + (n + (4 - n % 4)) = p + (n + (4 - n % 4)) + d := by omega
              rw [this]; exact ih _ _ _ (by omega)
          · split
            · rw [e8]; exact ih _ _ _ (by omega)
            · split
              · cases hs : osc_blob_data_size (b.drop p) with
                | none => simp
                | some n =>
                  simp only [Option.some_bind]
                  have : ∀ z, p + d + z = p + z + d := by intro z; omega
                  rw [this]; exact ih _ _ _ (by omega)
              · exact ih _ _ _ hp

/-- The function `osc_message_arg` only depends on the bytes from the signature onwards -/
theorem arg_shift {b b2 : List Nat} {t d : Nat} (h : b2.drop (t + d) = b.drop t)
    (a a2 i : Nat) :
    osc_message_arg ⟨a2, t + d, b2⟩ i
      = (osc_message_arg ⟨a, t, b⟩ i).map (Option.map (· + d)) := by
  have hs := strlen_shift h (le_refl t)
  have hc : ∀ j, b2[t + d + j]? = b[t + j]? := by
    intro j
    have := getElem?_shift h (p := t + j) (by omega)
    rw [← this]; congr 1; omega
  simp only [osc_message_arg, hs, hc, Option.bind_eq_bind]
  cases hl : strlen b t with
  | none => simp
  | some tlen =>
    simp only [Option.some_bind]
    cases hb : b[t + (i + 1) % 18446744073709551616]? with
    | none => simp
    | some c =>
      simp only [Option.some_bind]
      split
      · simp
      · have : t + d + tlen + (4 - tlen % 4) = t + tlen + (4 - tlen % 4) + d := by omega
        rw [this, arg_loop_shift h _ _ _ _ (by omega)]
        cases osc_message_arg_loop b t ((i + 1) % 18446744073709551616 - 1) 1
          (t + tlen + (4 - tlen % 4)) 0 <;> simp

theorem load32_shift {b b2 : List Nat} {t d : Nat} (h : b2.drop (t + d) = b.drop t)
    (hl : b2.length = b.length + d) {p : Nat} (hp : t ≤ p) :
    load32 b2 (p + d) = load32 b p := by
  unfold load32
  rw [read_bytes_shift h hl hp]

/-- Decoding only depends on the bytes from the signature onwards -/
theorem decode_shift {b b2 : List Nat} {t d : Nat} (h : b2.drop (t + d) = b.drop t)
    (hl : b2.length = b.length + d) {p : Nat} (hp : t ≤ p) (tag : Nat) :
    decode_arg b2 (p + d) tag = decode_arg b p tag := by
  have e4 : p + d + 4 = p + 4 + d := by omega
  unfold decode_arg cstr_at
  rw [load32_shift h hl hp, e4, load32_shift h hl (by omega : t ≤ p + 4), strlen_shift h hp]
  simp only [read_bytes_shift h hl hp]

/-! ## The claims -/


theorem padded_eq_round (k : Nat) : padded k = round_up4 (k + 1) := by
  unfold padded round_up4; omega

theorem encode_eq_layout (a : List Nat) (args : List Arg) :
    (⟨4, 4 + (pad_str a).length, encode a args⟩ : osc_message)
      = layout (pad_str a) (pad_str (44 :: args.map Arg.tag)) (args.map Arg.wire).flatten := by
  simp [encode, layout]

/-- C1: for every NUL-free address `a` and every list `args` of int32, float32, NUL-free
string and time-tag arguments, `osc_message_new` followed by `osc_message_set_address a` and
the matching `osc_message_add_*` call for each argument in order (no allocation failing, the
encoding below `2^32` bytes) returns 0 and leaves exactly the reference encoding
`encode a args` in the buffer: big-endian length of what follows, padded address, padded
signature, argument encodings. -/
theorem C1_encoding (e0 : Env) (m0 : osc_message) (s : List (Env × Call)) (a : List Nat)
    (args : List Arg)
    (hs : s.map Prod.snd = Call.set_address a :: args.map Call.add)
    (he0 : e0.alloc = true)
    (henv : ∀ ec ∈ s, ec.1.alloc = true ∧ ec.1.alloc_tt = true)
    (ha : 0 ∉ a) (hargs : ∀ x ∈ args, x.plain)
    (hsize : (encode a args).length < 4294967296) :
    build e0 m0 s = some (0, ⟨4, 4 + (pad_str a).length, encode a args⟩) := by
  rw [build_eq e0 m0 s he0, encode_eq_layout]
  have hlen : (encode a args).length = 4 + ((pad_str a).length +
      ((pad_str (44 :: args.map Arg.tag)).length + (args.map Arg.wire).flatten.length)) := by
    simp [encode, be32_length]
  rw [hlen] at hsize
  cases s with
  | nil => simp at hs
  | cons ec cs =>
    obtain ⟨e, c⟩ := ec
    simp only [List.map_cons, List.cons.injEq] at hs
    obtain ⟨hc, hmap⟩ := hs
    subst hc
    obtain ⟨hea, -⟩ := henv (e, Call.set_address a) (List.mem_cons_self _ _)
    have hsig : (pad_str [44]).length ≤ (pad_str (44 :: args.map Arg.tag)).length := by
      rw [pad_str_length, pad_str_length]
      exact padded_mono (by simp)
    have h4 : (pad_str [44]).length = 4 := rfl
    have hstep := set_address_new e a ha hea (by omega)
    have hpl := pad_str_length a
    have hrest := run_adds args cs (pad_str a) [] [] a.length hmap
      (fun ec hec => henv ec (List.mem_cons_of_mem _ hec)) hargs
      (by rw [pad_str_split]; exact strlen_at_append a _ ha) hpl (by simp)
      (by simpa using hsize)
    simp only [List.nil_append] at hrest
    simp only [run, call, hstep, Option.bind_eq_bind, Option.some_bind, if_true, hrest]

theorem C1_encoding_witness :
    build env_ok ⟨0, 0, []⟩
      [(env_ok, .set_address [47, 102, 111, 111]), (env_ok, .add (.int32 42)),
       (env_ok, .add (.string [98, 97, 114]))]
    = some (0, ⟨4, 12, [0, 0, 0, 20, 47, 102, 111, 111, 0, 0, 0, 0, 44, 105, 115, 0,
        0, 0, 0, 42, 98, 97, 114, 0]⟩) :=
  C1_encoding env_ok ⟨0, 0, []⟩ _ [47, 102, 111, 111] [.int32 42, .string [98, 97, 114]]
    rfl rfl (by decide) (by decide) (by decide) (by decide)

/-- The layout of a message built by plain calls -/
theorem build_layout {e0 : Env} {m0 m : osc_message} {s : List (Env × Call)}
    (hb : build e0 m0 s = some (0, m))
    (hs : ∀ ec ∈ s, ec.2.plain ∧ ec.1.alloc_tt = true) :
    ∃ A k, m = layout A (pad_str (44 :: (added s).map Arg.tag)) ((added s).map Arg.wire).flatten ∧
      strlen_at A = some k ∧ A.length = padded k ∧
      4 + (A.length + ((pad_str (44 :: (added s).map Arg.tag)).length +
        ((added s).map Arg.wire).flatten.length)) < 4294967296 := by
  obtain ⟨A, k, hm, hk, hA, -, hn⟩ := run_layout s hs
    (show strlen_at [0, 0, 0, 0] = some 0 by simp [strlen_at])
    (show ([0, 0, 0, 0] : List Nat).length = padded 0 by simp [padded])
    (show 0 ∉ ([] : List Nat) by simp)
    (show 4 + (([0, 0, 0, 0] : List Nat).length + ((pad_str (44 :: [])).length
      + ([] : List Nat).length)) < 4294967296 by simp [pad_str])
    (build_ok hb).2
  simp only [List.nil_append] at hm hn
  exact ⟨A, k, hm, hk, hA, hn⟩

theorem added_plain {s : List (Env × Call)} (hs : ∀ ec ∈ s, ec.2.plain ∧ ec.1.alloc_tt = true) :
    ∀ x ∈ added s, x.plain := by
  induction s with
  | nil => simp [added]
  | cons ec cs ih =>
    obtain ⟨e, c⟩ := ec
    have h1 := (hs (e, c) (List.mem_cons_self _ _)).1
    have h2 := ih (fun ec hec => hs ec (List.mem_cons_of_mem _ hec))
    cases c with
    | set_address a => simpa [added] using h2
    | add x =>
      intro y hy
      simp only [added, List.mem_cons] at hy
      rcases hy with rfl | hy
      · exact h1
      · exact h2 y hy

/-- C2: round trip.  In a message built from `osc_message_new` by calls that return 0 and append
int32, float32, NUL-free string and time-tag arguments (no allocation for the signature
failing), for every index `i` below the number of appended arguments `osc_message_arg`
returns the offset at which the encoding of the `i`-th appended argument starts in the
argument region, the signature character at position `i + 1` is its tag, and decoding the bytes
at that offset yields the `i`-th appended value. -/
theorem C2_round_trip (e0 : Env) (m0 m : osc_message) (s : List (Env × Call))
    (hb : build e0 m0 s = some (0, m))
    (hs : ∀ ec ∈ s, ec.2.plain ∧ ec.1.alloc_tt = true)
    (i : Nat) (x : Arg) (hx : (added s)[i]? = some x) :
    osc_message_arg m i = some (some (m.typetag + round_up4 ((added s).length + 2)
        + (((added s).take i).map Arg.wire).flatten.length)) ∧
    m.raw_data.drop (m.typetag + round_up4 ((added s).length + 2))
      = ((added s).map Arg.wire).flatten ∧
    m.raw_data[m.typetag + (i + 1)]? = some x.tag ∧
    decode_arg m.raw_data (m.typetag + round_up4 ((added s).length + 2)
        + (((added s).take i).map Arg.wire).flatten.length) x.tag = some x := by
  obtain ⟨A, k, rfl, hk, hA, hn⟩ := build_layout hb hs
  have hplain := added_plain hs
  have hi : i < (added s).length := by
    by_contra hni
    rw [List.getElem?_eq_none (by omega)] at hx
    simp at hx
  rw [← padded_eq_round]
  have hpl : (pad_str (44 :: (added s).map Arg.tag)).length = padded ((added s).length + 1) := by
    rw [pad_str_length]; simp
  have hdrop : (layout A (pad_str (44 :: (added s).map Arg.tag))
      ((added s).map Arg.wire).flatten).raw_data.drop (4 + A.length + padded ((added s).length + 1))
      = ((added s).map Arg.wire).flatten :=
    drop_layout _ _ _ _ _ (by rw [be32_length, hpl])
  have hsplit : added s = (added s).take i ++ x :: (added s).drop (i + 1) := by
    have h1 := (List.take_append_drop i (added s)).symm
    have h2 : (added s).drop i = x :: (added s).drop (i + 1) := by
      rw [List.drop_eq_getElem_cons hi]
      congr 1
      rw [List.getElem?_eq_getElem hi] at hx
      exact Option.some.inj hx
    rw [h2] at h1
    exact h1
  refine ⟨arg_layout_lt A (added s) i x hplain hx hn, hdrop, ?_, ?_⟩
  · have := sig_tag (be32 (A.length + ((pad_str (44 :: (added s).map Arg.tag)).length +
        ((added s).map Arg.wire).flatten.length))) A ((added s).map Arg.tag)
        ((added s).map Arg.wire).flatten (4 + A.length) i x.tag (by rw [be32_length])
        (by simp [hx])
    exact this
  · apply decode_wire _ (((added s).drop (i + 1)).map Arg.wire).flatten _ x
      (hplain x (List.getElem?_mem hx))
    have htt : (layout A (pad_str (44 :: (added s).map Arg.tag))
      ((added s).map Arg.wire).flatten).typetag = 4 + A.length := rfl
    have hw : ((added s).map Arg.wire).flatten = (((added s).take i).map Arg.wire).flatten ++
        (x.wire ++ (((added s).drop (i + 1)).map Arg.wire).flatten) := by
      conv_lhs => rw [hsplit]
      simp only [List.map_append, List.map_cons, List.flatten_append, List.flatten_cons]
    rw [htt, ← List.drop_drop, hdrop, hw, List.drop_left]

theorem C2_round_trip_witness :
    osc_message_arg ⟨4, 8, [0, 0, 0, 32, 0, 0, 0, 0, 44, 105, 115, 116, 102, 0, 0, 0,
      0, 0, 0, 42, 98, 97, 114, 0, 0, 0, 0, 1, 0, 0, 0, 2, 63, 128, 0, 0]⟩ 1
      = some (some 20) ∧
    decode_arg [0, 0, 0, 32, 0, 0, 0, 0, 44, 105, 115, 116, 102, 0, 0, 0,
      0, 0, 0, 42, 98, 97, 114, 0, 0, 0, 0, 1, 0, 0, 0, 2, 63, 128, 0, 0] 20 OSC_TT_STRING
      = some (.string [98, 97, 114]) :=
  have h := C2_round_trip env_ok ⟨0, 0, []⟩
    ⟨4, 8, [0, 0, 0, 32, 0, 0, 0, 0, 44, 105, 115, 116, 102, 0, 0, 0,
      0, 0, 0, 42, 98, 97, 114, 0, 0, 0, 0, 1, 0, 0, 0, 2, 63, 128, 0, 0]⟩
    [(env_ok, .add (.int32 42)), (env_ok, .add (.string [98, 97, 114])),
     (env_ok, .add (.timetag 1 2)), (env_ok, .add (.float32 1065353216))]
    (by decide) (by decide) 1 (.string [98, 97, 114]) (by decide)
  ⟨h.1, h.2.2.2⟩

/-- C3: length-field invariant.  For every message reachable from `osc_message_new` by calls of
`osc_message_set_address` and `osc_message_add_int32/float/string/timetag/blob` that return 0,
with a buffer below `2^31` bytes, `osc_message_serialized_length` returns the size of the
buffer minus 4. -/
theorem C3_length_invariant (m : osc_message) (hm : Reachable m)
    (hsize : m.raw_data.length < 2147483648) :
    ∃ n, osc_message_serialized_length m = some n ∧ n + 4 = m.raw_data.length := by
  obtain ⟨A, ts, R, k, rfl, -, -, -, hn⟩ := hm.wf
  rw [layout_raw_length] at hsize ⊢
  refine ⟨A.length + ((pad_str (44 :: ts)).length + R.length), ?_, by omega⟩
  rw [serialized_length_layout _ _ _ (by omega), toSize_toI32_small (by omega)]

theorem C3_length_invariant_witness :
    ∃ n, osc_message_serialized_length ⟨4, 12, [0, 0, 0, 20, 47, 102, 111, 111, 0, 0, 0, 0,
      44, 105, 115, 0, 0, 0, 0, 42, 98, 97, 114, 0]⟩ = some n ∧ n + 4 = 24 :=
  C3_length_invariant _
    ⟨env_ok, ⟨0, 0, []⟩,
      [(env_ok, .set_address [47, 102, 111, 111]), (env_ok, .add (.int32 42)),
       (env_ok, .add (.string [98, 97, 114]))], by decide⟩
    (by decide)

/-- C4: alignment invariant.  In every message built from `osc_message_new` by calls of
`osc_message_set_address` and `osc_message_add_int32/float/string/timetag` that return 0 (no
allocation for the signature failing), the address pointer is at offset 4, the cached
`typetag` pointer is at offset `4 + r(strlen(address) + 1)`, the byte there is a comma, the
signature has one character per appended argument after the comma, every byte between its
terminator and offset `r(strlen(signature) + 1)` of the signature is zero, and the argument
region that starts at that offset holds the encodings of the appended arguments. -/
theorem C4_alignment (e0 : Env) (m0 m : osc_message) (s : List (Env × Call))
    (hb : build e0 m0 s = some (0, m))
    (hs : ∀ ec ∈ s, ec.2.plain ∧ ec.1.alloc_tt = true) :
    ∃ k, strlen m.raw_data m.address = some k ∧ m.address = 4 ∧
      m.typetag = 4 + round_up4 (k + 1) ∧
      m.raw_data[m.typetag]? = some 44 ∧
      strlen m.raw_data m.typetag = some ((added s).length + 1) ∧
      (∀ j, (added s).length + 1 ≤ j → j < round_up4 ((added s).length + 2) →
        m.raw_data[m.typetag + j]? = some 0) ∧
      m.raw_data.drop (m.typetag + round_up4 ((added s).length + 2))
        = ((added s).map Arg.wire).flatten := by
  obtain ⟨A, k, rfl, hk, hA, hn⟩ := build_layout hb hs
  have hpl : (pad_str (44 :: (added s).map Arg.tag)).length = padded ((added s).length + 1) := by
    rw [pad_str_length]; simp
  have hH := be32_length (A.length + ((pad_str (44 :: (added s).map Arg.tag)).length +
        ((added s).map Arg.wire).flatten.length))
  have hstr := strlen_sig _ A ((added s).map Arg.tag) ((added s).map Arg.wire).flatten
    (4 + A.length) (by rw [hH]) (tags_not_mem (added s))
  rw [List.length_map] at hstr
  refine ⟨k, strlen_region hk _ _ 4 hH.symm, rfl, ?_, sig_comma _ A _ _ (4 + A.length) (by rw [hH]),
    hstr, ?_, ?_⟩
  · rw [← padded_eq_round, ← hA]; rfl
  · intro j h1 h2
    rw [← padded_eq_round] at h2
    exact sig_zero _ A ((added s).map Arg.tag) _ (4 + A.length) j (by rw [hH])
      (by simpa using h1) (by simpa using h2)
  · rw [← padded_eq_round]
    exact drop_layout _ _ _ _ _ (by rw [hH, hpl]; rfl)

theorem C4_alignment_witness :
    ∃ k, strlen [0, 0, 0, 20, 47, 102, 111, 111, 0, 0, 0, 0, 44, 105, 115, 0, 0, 0, 0, 42,
        98, 97, 114, 0] 4 = some k ∧ (4 : Nat) = 4 ∧ 12 = 4 + round_up4 (k + 1) ∧
      [0, 0, 0, 20, 47, 102, 111, 111, 0, 0, 0, 0, 44, 105, 115, 0, 0, 0, 0, 42,
        98, 97, 114, 0][12]? = some 44 ∧
      strlen [0, 0, 0, 20, 47, 102, 111, 111, 0, 0, 0, 0, 44, 105, 115, 0, 0, 0, 0, 42,
        98, 97, 114, 0] 12 = some 3 ∧
      (∀ j, 3 ≤ j → j < round_up4 4 →
        [0, 0, 0, 20, 47, 102, 111, 111, 0, 0, 0, 0, 44, 105, 115, 0, 0, 0, 0, 42,
          98, 97, 114, 0][12 + j]? = some 0) ∧
      List.drop (12 + round_up4 4) [0, 0, 0, 20, 47, 102, 111, 111, 0, 0, 0, 0, 44, 105, 115, 0,
        0, 0, 0, 42, 98, 97, 114, 0] = [0, 0, 0, 42, 98, 97, 114, 0] :=
  C4_alignment env_ok ⟨0, 0, []⟩
    ⟨4, 12, [0, 0, 0, 20, 47, 102, 111, 111, 0, 0, 0, 0, 44, 105, 115, 0, 0, 0, 0, 42,
      98, 97, 114, 0]⟩
    [(env_ok, .set_address [47, 102, 111, 111]), (env_ok, .add (.int32 42)),
     (env_ok, .add (.string [98, 97, 114]))] (by decide) (by decide)

/-- C5: in every message built from `osc_message_new` by calls of `osc_message_set_address`
and `osc_message_add_int32/float/string/timetag` that return 0 (no allocation for the
signature failing), with `N` arguments appended, `osc_message_argc` returns `N`,
`osc_message_arg` is not NULL at every index below `N`, and it is NULL at index `N`. -/
theorem C5_argc_arg (e0 : Env) (m0 m : osc_message) (s : List (Env × Call))
    (hb : build e0 m0 s = some (0, m))
    (hs : ∀ ec ∈ s, ec.2.plain ∧ ec.1.alloc_tt = true) :
    osc_message_argc m = some (added s).length ∧
    (∀ i, i < (added s).length → ∃ p, osc_message_arg m i = some (some p)) ∧
    osc_message_arg m (added s).length = some none := by
  obtain ⟨A, k, rfl, hk, hA, hn⟩ := build_layout hb hs
  have h0 := tags_not_mem (added s)
  refine ⟨?_, ?_, ?_⟩
  · have := argc_layout A ((added s).map Arg.wire).flatten ((added s).map Arg.tag) h0 hn
    simpa using this
  · intro i hi
    exact ⟨_, arg_layout_lt A (added s) i (added s)[i] (added_plain hs)
      (List.getElem?_eq_getElem hi) hn⟩
  · have := arg_layout_end A ((added s).map Arg.wire).flatten ((added s).map Arg.tag) h0 hn
    simpa using this

theorem C5_argc_arg_witness :
    osc_message_argc ⟨4, 12, [0, 0, 0, 20, 47, 102, 111, 111, 0, 0, 0, 0, 44, 105, 115, 0,
      0, 0, 0, 42, 98, 97, 114, 0]⟩ = some 2 ∧
    osc_message_arg ⟨4, 12, [0, 0, 0, 20, 47, 102, 111, 111, 0, 0, 0, 0, 44, 105, 115, 0,
      0, 0, 0, 42, 98, 97, 114, 0]⟩ 2 = some none :=
  have h := C5_argc_arg env_ok ⟨0, 0, []⟩
    ⟨4, 12, [0, 0, 0, 20, 47, 102, 111, 111, 0, 0, 0, 0, 44, 105, 115, 0, 0, 0, 0, 42,
      98, 97, 114, 0]⟩
    [(env_ok, .add (.int32 42)), (env_ok, .set_address [47, 102, 111, 111]),
     (env_ok, .add (.string [98, 97, 114]))] (by decide) (by decide)
  ⟨h.1, h.2.2⟩

/-- C6 (code defect): after `osc_message_new` and `osc_message_add_int32(0x01000000)` the
message has one argument, yet `osc_message_arg` at index 3 is not NULL: the test
`typetag[arg_index + 1] == 0` reads the first byte of the argument region, which is 1, and the
function returns the offset 16, one past the end of the buffer. -/
theorem C6_arg_past_end :
    build env_ok ⟨0, 0, []⟩ [(env_ok, .add (.int32 16777216))]
      = some (0, ⟨4, 8, [0, 0, 0, 12, 0, 0, 0, 0, 44, 105, 0, 0, 1, 0, 0, 0]⟩) ∧
    osc_message_argc ⟨4, 8, [0, 0, 0, 12, 0, 0, 0, 0, 44, 105, 0, 0, 1, 0, 0, 0]⟩ = some 1 ∧
    osc_message_arg ⟨4, 8, [0, 0, 0, 12, 0, 0, 0, 0, 44, 105, 0, 0, 1, 0, 0, 0]⟩ 3
      = some (some 16) := by
  decide

theorem cstr_at_layout (s S R : List Nat) (h0 : 0 ∉ s) :
    cstr_at (layout (pad_str s) S R).raw_data 4 = some s := by
  obtain ⟨n, hn⟩ : ∃ n, n = (pad_str s).length + (S.length + R.length) := ⟨_, rfl⟩
  rw [layout_eq _ _ _ n hn]
  have hH := be32_length n
  generalize be32 n = H at *
  have hstr : strlen (H ++ (pad_str s ++ (S ++ R))) 4 = some s.length :=
    strlen_region (by rw [pad_str_split]; exact strlen_at_append s _ h0) _ _ 4 hH.symm
  have hrd : read_bytes (H ++ (pad_str s ++ (S ++ R))) 4 s.length = some s := by
    have := read_bytes_append H s (List.replicate (4 - s.length % 4) 0 ++ (S ++ R)) 4 s.length
      hH.symm rfl
    unfold pad_str
    simpa only [List.append_assoc] using this
  simp only [cstr_at, hstr, hrd, Option.bind_eq_bind, Option.some_bind]

/-- What a growing `osc_message_set_address` leaves of a laid-out message -/
theorem grow_frame (A ts R text : List Nat) (d : Nat) (h0 : 0 ∉ text) (hts : 0 ∉ ts)
    (hn : 4 + (A.length + ((pad_str (44 :: ts)).length + R.length)) + d < 4294967296)
    (hnew : (pad_str text).length = A.length + d) :
    cstr_at (layout (pad_str text) (pad_str (44 :: ts)) R).raw_data
        (layout (pad_str text) (pad_str (44 :: ts)) R).address = some text ∧
      (layout (pad_str text) (pad_str (44 :: ts)) R).typetag
        = (layout A (pad_str (44 :: ts)) R).typetag + d ∧
      (layout (pad_str text) (pad_str (44 :: ts)) R).raw_data.length
        = (layout A (pad_str (44 :: ts)) R).raw_data.length + d ∧
      (layout (pad_str text) (pad_str (44 :: ts)) R).raw_data.drop
          (layout (pad_str text) (pad_str (44 :: ts)) R).typetag
        = (layout A (pad_str (44 :: ts)) R).raw_data.drop (layout A (pad_str (44 :: ts)) R).typetag ∧
      osc_message_argc (layout (pad_str text) (pad_str (44 :: ts)) R)
        = osc_message_argc (layout A (pad_str (44 :: ts)) R) ∧
      (∀ i, osc_message_arg (layout (pad_str text) (pad_str (44 :: ts)) R) i
        = (osc_message_arg (layout A (pad_str (44 :: ts)) R) i).map (Option.map (· + d))) ∧
      (∀ p tag, (layout A (pad_str (44 :: ts)) R).typetag ≤ p →
        decode_arg (layout (pad_str text) (pad_str (44 :: ts)) R).raw_data (p + d) tag
          = decode_arg (layout A (pad_str (44 :: ts)) R).raw_data p tag) := by
  have htt : (layout (pad_str text) (pad_str (44 :: ts)) R).typetag
      = (layout A (pad_str (44 :: ts)) R).typetag + d := by
    simp only [layout, hnew]; omega
  have hlen2 : (layout (pad_str text) (pad_str (44 :: ts)) R).raw_data.length
      = (layout A (pad_str (44 :: ts)) R).raw_data.length + d := by
    rw [layout_raw_length, layout_raw_length, hnew]; omega
  have hdrop : (layout (pad_str text) (pad_str (44 :: ts)) R).raw_data.drop
      ((layout A (pad_str (44 :: ts)) R).typetag + d)
      = (layout A (pad_str (44 :: ts)) R).raw_data.drop (layout A (pad_str (44 :: ts)) R).typetag := by
    have e1 : (layout A (pad_str (44 :: ts)) R).typetag = 4 + A.length := rfl
    rw [e1]
    have h1 : ∀ A1 : List Nat, (layout A1 (pad_str (44 :: ts)) R).raw_data.drop (4 + A1.length)
        = pad_str (44 :: ts) ++ R := by
      intro A1
      have := drop_layout (be32 (A1.length + ((pad_str (44 :: ts)).length + R.length))) A1 []
        (pad_str (44 :: ts) ++ R) (4 + A1.length) (by simp [be32_length])
      simpa [layout] using this
    rw [h1 A]
    have := h1 (pad_str text)
    rw [hnew] at this
    rw [← this]; congr 1; omega
  have hm2 : (layout (pad_str text) (pad_str (44 :: ts)) R)
      = ⟨4, (layout A (pad_str (44 :: ts)) R).typetag + d,
          (layout (pad_str text) (pad_str (44 :: ts)) R).raw_data⟩ := by
    simp only [layout, hnew]
    congr 1
    omega
  refine ⟨cstr_at_layout text _ _ h0, htt, hlen2, by rw [htt, hdrop], ?_, ?_, ?_⟩
  · rw [argc_layout _ _ _ hts (by rw [hnew]; omega), argc_layout _ _ _ hts (by omega)]
  · intro i
    rw [hm2]
    exact arg_shift hdrop 4 4 i
  · intro p tag hp
    exact decode_shift hdrop hlen2 hp tag

/-- C7: growing the address preserves the rest of the message.  For every reachable message
and every NUL-free text whose padded length `r(strlen(text) + 1)` exceeds the current address
region (`typetag - address`), with `d` the difference of the two: when the allocation succeeds
and the grown buffer stays below `2^32` bytes `osc_message_set_address` returns 0; and after
every such call that returns 0 the address reads back as the text, the signature pointer and
the buffer size have grown by `d`, all bytes from the signature to the end of the buffer are
the same as before, `osc_message_argc` is unchanged, `osc_message_arg` returns for every index
the old result moved by `d`, and decoding at a moved offset gives what decoding at the old
offset gave. -/
theorem C7_grow_address (e : Env) (m : osc_message) (text : List Nat) (hm : Reachable m)
    (h0 : 0 ∉ text) (hgrow : m.typetag - m.address < round_up4 (text.length + 1)) :
    (e.alloc = true →
      m.raw_data.length + (round_up4 (text.length + 1) - (m.typetag - m.address)) < 4294967296 →
      ∃ m2, osc_message_set_address e m text = some (0, m2)) ∧
    ∀ m2, osc_message_set_address e m text = some (0, m2) →
      cstr_at m2.raw_data m2.address = some text ∧
      m2.typetag = m.typetag + (round_up4 (text.length + 1) - (m.typetag - m.address)) ∧
      m2.raw_data.length
        = m.raw_data.length + (round_up4 (text.length + 1) - (m.typetag - m.address)) ∧
      m2.raw_data.drop m2.typetag = m.raw_data.drop m.typetag ∧
      osc_message_argc m2 = osc_message_argc m ∧
      (∀ i, osc_message_arg m2 i = (osc_message_arg m i).map
        (Option.map (· + (round_up4 (text.length + 1) - (m.typetag - m.address))))) ∧
      (∀ p tag, m.typetag ≤ p →
        decode_arg m2.raw_data
          (p + (round_up4 (text.length + 1) - (m.typetag - m.address))) tag
          = decode_arg m.raw_data p tag) := by
  obtain ⟨A, ts, R, k, rfl, hk, hA, hts, hn⟩ := hm.wf
  have hc := c_str_of_not_mem h0
  rw [← padded_eq_round] at hgrow ⊢
  have hda : (layout A (pad_str (44 :: ts)) R).typetag - (layout A (pad_str (44 :: ts)) R).address
      = A.length := by simp [layout]
  rw [hda] at hgrow ⊢
  rw [layout_raw_length]
  have hpl := pad_str_length text
  generalize hd : padded text.length - A.length = d
  have hnew : (pad_str text).length = A.length + d := by omega
  constructor
  · intro ha hfit
    exact ⟨_, set_address_grow e A _ R text k hk hA (by rw [hc]; omega) (by rw [hc]; omega) ha⟩
  · intro m2 h
    rcases set_address_ok hA hn h with h1 | ⟨-, hfit, ha⟩
    · rw [hc] at h1; omega
    · rw [hc] at hfit
      rw [set_address_grow e A _ R text k hk hA (by rw [hc]; omega) (by rw [hc]; omega) ha, hc] at h
      simp only [Option.some.injEq, Prod.mk.injEq, true_and] at h
      subst h
      have := grow_frame A ts R text d h0 hts (by omega) hnew
      rw [layout_raw_length A] at this
      exact this

theorem C7_grow_address_witness :
    ∃ m2, osc_message_set_address env_ok
        ⟨4, 8, [0, 0, 0, 12, 47, 97, 0, 0, 44, 105, 0, 0, 0, 0, 0, 7]⟩
        [47, 108, 111, 110, 103, 101, 114, 47, 112, 97, 116, 104] = some (0, m2) ∧
      m2.raw_data.drop m2.typetag = [44, 105, 0, 0, 0, 0, 0, 7] ∧
      osc_message_arg m2 0 = some (some 24) :=
  have h := C7_grow_address env_ok ⟨4, 8, [0, 0, 0, 12, 47, 97, 0, 0, 44, 105, 0, 0, 0, 0, 0, 7]⟩
    [47, 108, 111, 110, 103, 101, 114, 47, 112, 97, 116, 104]
    ⟨env_ok, ⟨0, 0, []⟩, [(env_ok, .set_address [47, 97]), (env_ok, .add (.int32 7))],
      by decide⟩
    (by decide) (by decide)
  (h.1 (by decide) (by decide)).elim fun m2 hm2 =>
    ⟨m2, hm2, (h.2 m2 hm2).2.2.2.1.trans (by decide), ((h.2 m2 hm2).2.2.2.2.2.1 0).trans (by decide)⟩

/-- No call of `osc_message_set_address` that would shrink the address region of a reachable
message returns 0 -/
theorem set_address_never_shrinks (e : Env) (m m2 : osc_message) (text : List Nat)
    (hm : Reachable m) (h0 : 0 ∉ text)
    (hshrink : round_up4 (text.length + 1) < m.typetag - m.address) :
    osc_message_set_address e m text ≠ some (0, m2) := by
  obtain ⟨A, ts, R, k, rfl, hk, hA, -, hn⟩ := hm.wf
  intro h
  have hc := c_str_of_not_mem h0
  have hda : (layout A (pad_str (44 :: ts)) R).typetag - (layout A (pad_str (44 :: ts)) R).address
      = A.length := by simp [layout]
  rw [hda, ← padded_eq_round] at hshrink
  rcases set_address_ok hA hn h with h1 | ⟨h1, -, -⟩
  · rw [hc] at h1; omega
  · rw [hc] at h1; omega

/-- C8 (code defect): after `osc_message_new`, `osc_message_set_address("/longer/path")` and
`osc_message_add_int32(1)` the message is the 28-byte buffer below; on it
`osc_message_set_address("/a")` has undefined behaviour (`none`): the block is reallocated to
16 bytes before the signature and the argument are moved, and the destination of the `memmove`
is `typetag + add_mem_size` with `add_mem_size = 2^32 - 12` as `unsigned int`. -/
theorem C8_shrink_address_undefined :
    build env_ok ⟨0, 0, []⟩
      [(env_ok, .set_address [47, 108, 111, 110, 103, 101, 114, 47, 112, 97, 116, 104]),
       (env_ok, .add (.int32 1))]
      = some (0, ⟨4, 20, [0, 0, 0, 24, 47, 108, 111, 110, 103, 101, 114, 47, 112, 97, 116, 104,
          0, 0, 0, 0, 44, 105, 0, 0, 0, 0, 0, 1]⟩) ∧
    osc_message_set_address env_ok
      ⟨4, 20, [0, 0, 0, 24, 47, 108, 111, 110, 103, 101, 114, 47, 112, 97, 116, 104,
          0, 0, 0, 0, 44, 105, 0, 0, 0, 0, 0, 1]⟩ [47, 97] = none := by
  decide

/-- C9 (code defect): after `osc_message_new`, `osc_message_set_address("abc")` and
`osc_message_set_address("a")` the address region holds `'a', 0, 'c', 0`: the in-place branch
copies the text with `strcpy` and does not clear the rest of the region, so the padding after
the terminator keeps a byte of the old address. -/
theorem C9_in_place_padding :
    build env_ok ⟨0, 0, []⟩ [(env_ok, .set_address [97, 98, 99]), (env_ok, .set_address [97])]
      = some (0, ⟨4, 8, [0, 0, 0, 8, 97, 0, 99, 0, 44, 0, 0, 0]⟩) := by
  decide

/-- C10 (code defect): a blob of data size 5 is appended as the claim says (tag `b`, then the
12 bytes `00 00 00 05 01 02 03 04 05 00 00 00`), but for a blob of data size 4 the local
`blob_add_bytes` is read without having been set: when it holds 1 the function wants to copy
`4 + 4 + 1` bytes out of the 8-byte blob block, which is undefined behaviour (`none`). -/
theorem C10_blob_append :
    osc_message_add_blob env_ok ⟨4, 8, [0, 0, 0, 8, 0, 0, 0, 0, 44, 0, 0, 0]⟩
        [0, 0, 0, 5, 1, 2, 3, 4, 5, 0, 0, 0]
      = some (0, ⟨4, 8, [0, 0, 0, 20, 0, 0, 0, 0, 44, 98, 0, 0,
          0, 0, 0, 5, 1, 2, 3, 4, 5, 0, 0, 0]⟩) ∧
    osc_blob_new env_ok 4 = some (some [0, 0, 0, 4, 0, 0, 0, 0]) ∧
    osc_message_add_blob ⟨true, true, fun _ => 170, 1⟩
        ⟨4, 8, [0, 0, 0, 8, 0, 0, 0, 0, 44, 0, 0, 0]⟩ [0, 0, 0, 4, 1, 2, 3, 4] = none := by
  decide

/-! ## Blobs and failing allocations -/

theorem osc_blob_new_eq (e : Env) (n : Nat) (hn : n < 4294967296) (halloc : e.alloc = true) :
    osc_blob_new e n = some (some (be32 n ++ List.replicate (n + (4 - n % 4) % 4) 0)) := by
  have hadd : (if n % 4 ≠ 0 then u32 (4 - n % 4) else 0) = (4 - n % 4) % 4 := by
    unfold u32; split <;> omega
  unfold osc_blob_new
  simp only [hadd, halloc]
  rw [realloc_grow _ _ _ (Nat.zero_le _)]
  generalize hF : fresh_bytes e.fresh ([] : List Nat).length
    (n + 4 + (4 - n % 4) % 4 - ([] : List Nat).length) = F
  have hFl : F.length = n + 4 + (4 - n % 4) % 4 := by
    rw [← hF, fresh_bytes_length]; simp
  have hsplit : ([] : List Nat) ++ F = [] ++ (F.take 4 ++ (F.drop 4 ++ [])) := by simp
  have hw := write_bytes_append [] (F.take 4) (F.drop 4 ++ []) (le32 (htobe32 n)) 0 rfl
    (by rw [le32_length, List.length_take]; omega)
  rw [hsplit, store_bytes]
  simp only [hw, Option.bind_eq_bind, Option.some_bind, Option.pure_def]
  have hm := memset_append ([] ++ le32 (htobe32 n)) (F.drop 4) [] 4 0 (n + (4 - n % 4) % 4)
    (by simp [le32_length]) (by rw [List.length_drop]; omega) (by decide)
  have h2 : ([] : List Nat) ++ (le32 (htobe32 n) ++ (List.drop 4 F ++ []))
      = [] ++ le32 (htobe32 n) ++ (List.drop 4 F ++ []) := by simp
  rw [h2, hm, le32_htobe32, u32_of_lt hn]
  simp

theorem length_field_some (b : List Nat) (h : 4 ≤ b.length) : (length_field b).isSome = true := by
  match b, h with
  | b0 :: b1 :: b2 :: b3 :: rest, _ => simp [length_field]

theorem strlen_at_some (s : List Nat) : (strlen_at (s ++ [0])).isSome = true := by
  induction s with
  | nil => rfl
  | cons c cs ih =>
    obtain ⟨k, hk⟩ := Option.isSome_iff_exists.mp ih
    by_cases hc : c = 0
    · simp [strlen_at, hc]
    · simp [strlen_at, hc, hk]

theorem add_argument_sizes_some (e : Env) (n : Nat) (x : Arg)
    (hx : ∀ b, x = .blob b → 4 ≤ b.length) :
    (add_argument_sizes e n x.tag x.bytes).isSome = true := by
  cases x with
  | int32 v => rfl
  | float32 v => rfl
  | string s =>
    obtain ⟨k, hk⟩ := Option.isSome_iff_exists.mp (strlen_at_some s)
    simp [add_argument_sizes, Arg.tag, Arg.bytes, hk]
  | timetag a b => rfl
  | blob b =>
    obtain ⟨k, hk⟩ := Option.isSome_iff_exists.mp (length_field_some b (hx b rfl))
    simp [add_argument_sizes, Arg.tag, Arg.bytes, osc_blob_data_size, hk]

/-- When the reallocation in `add_argument` fails, the call returns 1 and the message is the one
passed in -/
theorem add_arg_alloc_fail (e : Env) (m : osc_message) (x : Arg) (hm : WF m)
    (hx : ∀ b, x = .blob b → 4 ≤ b.length) (ha : e.alloc = false) :
    add_arg e m x = some (1, m) := by
  obtain ⟨A, ts, R, k, rfl, -, -, -, hn⟩ := hm
  obtain ⟨r, hr⟩ := Option.isSome_iff_exists.mp (add_argument_sizes_some e
    (u32 (toSize (toI32 (A.length + ((pad_str (44 :: ts)).length + R.length))))) x hx)
  have hl := serialized_length_layout A (pad_str (44 :: ts)) R (by omega)
  rw [add_arg_eq]
  simp only [add_argument, hl, hr, ha, realloc_false, Option.bind_eq_bind, Option.some_bind,
    Option.pure_def, if_true]

/-! ## Lemmas on bundles -/

theorem blayout_raw_length (T Ms : List Nat) :
    (blayout T Ms).raw_data.length = 4 + (8 + (T.length + Ms.length)) := by
  simp [blayout, be32_length]; omega

theorem blayout_eq (T Ms : List Nat) (n : Nat) (hn : n = 16 + Ms.length) :
    blayout T Ms = ⟨12, be32 n ++ ([35, 98, 117, 110, 100, 108, 101, 0] ++ (T ++ Ms))⟩ := by
  subst hn; rfl

theorem osc_bundle_new_eq (e : Env) (b0 : osc_bundle) (h : e.alloc = true) :
    osc_bundle_new e b0 = some (0, blayout [0, 0, 0, 0, 0, 0, 0, 1] []) := by
  have hf : fresh_bytes e.fresh 0 20 = [e.fresh 0 % 256, e.fresh 1 % 256, e.fresh 2 % 256,
      e.fresh 3 % 256, e.fresh 4 % 256, e.fresh 5 % 256, e.fresh 6 % 256, e.fresh 7 % 256,
      e.fresh 8 % 256, e.fresh 9 % 256, e.fresh 10 % 256, e.fresh 11 % 256, e.fresh 12 % 256,
      e.fresh 13 % 256, e.fresh 14 % 256, e.fresh 15 % 256, e.fresh 16 % 256, e.fresh 17 % 256,
      e.fresh 18 % 256, e.fresh 19 % 256] := by
    simp [fresh_bytes, List.range_succ]
  have h0 : le32 (u32 (htobe32 0)) ++ le32 (u32 (htobe32 1)) = [0, 0, 0, 0, 0, 0, 0, 1] := by
    decide
  simp [osc_bundle_new, h, realloc, hf, osc_bundle_set_timetag, h0, read_bytes, memset,
    write_bytes, strcpy, strlen_at, blayout, be32]

theorem osc_bundle_new_ok {e : Env} {b0 b1 : osc_bundle}
    (h : osc_bundle_new e b0 = some (0, b1)) :
    e.alloc = true ∧ b1 = blayout [0, 0, 0, 0, 0, 0, 0, 1] [] := by
  cases ha : e.alloc with
  | false => simp [osc_bundle_new, ha, realloc] at h
  | true =>
    rw [osc_bundle_new_eq e b0 ha] at h
    simp only [Option.some.injEq, Prod.mk.injEq, true_and] at h
    exact ⟨rfl, h.symm⟩

theorem set_timetag_blayout (T Ms : List Nat) (sec frac : Nat) (hT : T.length = 8) :
    osc_bundle_set_timetag (blayout T Ms) sec frac
      = some (blayout (be32 (u32 sec) ++ be32 (u32 frac)) Ms) := by
  have hs : ∀ v, le32 (u32 (htobe32 v)) = be32 (u32 v) := by
    intro v
    rw [u32_of_lt (by unfold htobe32; exact bswap32_lt _), le32_htobe32]
  have hrd := read_bytes_zero (be32 (u32 sec) ++ be32 (u32 frac)) 8 (by simp [be32_length])
  rw [List.take_of_length_le (by simp [be32_length])] at hrd
  have hw := write_bytes_append (be32 (16 + Ms.length) ++ [35, 98, 117, 110, 100, 108, 101, 0])
    T Ms (be32 (u32 sec) ++ be32 (u32 frac)) 12 (by simp [be32_length])
    (by simp [be32_length, hT])
  simp only [List.append_assoc] at hw
  simp only [osc_bundle_set_timetag, blayout, hs, hrd, hw, Option.bind_eq_bind, Option.some_bind,
    Option.pure_def, List.append_assoc]

theorem add_message_blayout (e : Env) (T Ms rest : List Nat) (n a t : Nat)
    (hT : T.length = 8) (hr : rest.length = n)
    (hfit : 20 + Ms.length + (n + 4) < 4294967296) (halloc : e.alloc = true) :
    osc_bundle_add_message e (blayout T Ms) ⟨a, t, be32 n ++ rest⟩
      = some (0, blayout T (Ms ++ (be32 n ++ rest))) := by
  obtain ⟨N, hN⟩ : ∃ N, N = 16 + Ms.length := ⟨_, rfl⟩
  rw [blayout_eq T Ms N hN, blayout_eq T _ (N + (n + 4)) (by simp [be32_length]; omega)]
  have hlb : osc_bundle_serialized_length
      ⟨12, be32 N ++ ([35, 98, 117, 110, 100, 108, 101, 0] ++ (T ++ Ms))⟩
      = some (toSize (toI32 N)) := length_field_be32 (by omega) _
  have hlm := length_field_layout n (by omega) a t rest
  have hcb := toSize_toI32 (x := N) (by omega)
  have hcm := toSize_toI32 (x := n) (by omega)
  have hnew : u32 (N + n + 8) = N + n + 8 := u32_of_lt (by omega)
  have hsub : sub32 (N + n + 8) 4 = N + (n + 4) := by unfold sub32; omega
  have hn4 : u32 (n + 4) = n + 4 := u32_of_lt (by omega)
  have hH := be32_length N
  have hm := be32_length n
  have hrd : read_bytes (be32 n ++ rest) 0 (n + 4) = some (be32 n ++ rest) := by
    rw [read_bytes_zero _ _ (by simp [hm]; omega), List.take_of_length_le (by simp [hm]; omega)]
  have hst := store_bytes (htobe32 (N + (n + 4)))
  have hst2 : [htobe32 (N + (n + 4)) % 256 &&& 255, (htobe32 (N + (n + 4)) >>> 8) % 256 &&& 255,
      (htobe32 (N + (n + 4)) >>> 16) % 256 &&& 255, (htobe32 (N + (n + 4)) >>> 24) % 256 &&& 255]
      = be32 (N + (n + 4)) := by
    rw [← u32_of_lt (show N + (n + 4) < 4294967296 by omega), ← le32_htobe32, ← store_bytes]
    simp only [and_255, Nat.mod_mod, u32_of_lt (show N + (n + 4) < 4294967296 by omega)]
  have hH2 := be32_length (N + (n + 4))
  have hM : (be32 n ++ rest).length = n + 4 := by simp [hm]; omega
  generalize be32 (N + (n + 4)) = H2 at *
  generalize be32 N = H at *
  generalize be32 n ++ rest = M at *
  obtain ⟨F, hF, hre⟩ : ∃ F, F.length = n + 4 ∧
      realloc e.alloc e.fresh (H ++ ([35, 98, 117, 110, 100, 108, 101, 0] ++ (T ++ Ms)))
        (N + n + 8)
      = some (H ++ ([35, 98, 117, 110, 100, 108, 101, 0] ++ (T ++ (Ms ++ F)))) := by
    refine ⟨fresh_bytes e.fresh (H ++ ([35, 98, 117, 110, 100, 108, 101, 0] ++ (T ++ Ms))).length
      (N + n + 8 - (H ++ ([35, 98, 117, 110, 100, 108, 101, 0] ++ (T ++ Ms))).length), ?_, ?_⟩
    · simp [fresh_bytes_length, hH, hT]; omega
    · rw [halloc, realloc_grow _ _ _ (by simp [hH, hT]; omega)]
      simp only [List.append_assoc]
  have hw1 := write_bytes_append (H ++ ([35, 98, 117, 110, 100, 108, 101, 0] ++ (T ++ Ms))) F []
    M (4 + N) (by simp [hH, hT]; omega) (by rw [hF]; exact hM)
  simp only [List.append_assoc, List.append_nil] at hw1
  have hw2 := write_bytes_append [] H ([35, 98, 117, 110, 100, 108, 101, 0] ++ (T ++ (Ms ++ M)))
    H2 0 rfl (by rw [hH2, hH])
  simp only [List.nil_append] at hw2
  simp only [osc_bundle_add_message, hlb, hlm, hcb, hcm, hnew, hsub, hn4, hre, hrd, hw1, hst2, hw2,
    Option.bind_eq_bind, Option.some_bind, Option.pure_def]

theorem add_message_ok {e : Env} {T Ms rest : List Nat} {n a t : Nat} {b2 : osc_bundle}
    (hT : T.length = 8) (hr : rest.length = n) (hb : 20 + Ms.length < 4294967296)
    (hm : n + 4 < 4294967296)
    (h : osc_bundle_add_message e (blayout T Ms) ⟨a, t, be32 n ++ rest⟩ = some (0, b2)) :
    e.alloc = true ∧ 20 + Ms.length + (n + 4) < 4294967296 := by
  obtain ⟨N, hN⟩ : ∃ N, N = 16 + Ms.length := ⟨_, rfl⟩
  rw [blayout_eq T Ms N hN] at h
  have hlb : osc_bundle_serialized_length
      ⟨12, be32 N ++ ([35, 98, 117, 110, 100, 108, 101, 0] ++ (T ++ Ms))⟩
      = some (toSize (toI32 N)) := length_field_be32 (by omega) _
  have hlm := length_field_layout n (by omega) a t rest
  have hcb := toSize_toI32 (x := N) (by omega)
  have hcm := toSize_toI32 (x := n) (by omega)
  have hn4 : u32 (n + 4) = n + 4 := u32_of_lt (by omega)
  simp only [osc_bundle_add_message, hlb, hlm, hcb, hcm, hn4,
    Option.bind_eq_bind, Option.some_bind, Option.pure_def] at h
  cases hre : realloc e.alloc e.fresh
      (be32 N ++ ([35, 98, 117, 110, 100, 108, 101, 0] ++ (T ++ Ms))) (u32 (N + n + 8)) with
  | none => rw [hre] at h; simp at h
  | some block =>
    rw [hre] at h
    simp only [Option.bind_eq_some] at h
    obtain ⟨copied, hc, block1, hw, -⟩ := h
    have h1 := read_bytes_some hc
    have h2 := write_bytes_length hw
    have h3 := realloc_length hre
    refine ⟨h3.2, ?_⟩
    have h4 := h3.1
    unfold u32 at h4
    omega

theorem add_message_layout {e : Env} {T Ms rest : List Nat} {n a t : Nat} {b2 : osc_bundle}
    (hT : T.length = 8) (hr : rest.length = n) (hb : 20 + Ms.length < 4294967296)
    (hm : n + 4 < 4294967296)
    (h : osc_bundle_add_message e (blayout T Ms) ⟨a, t, be32 n ++ rest⟩ = some (0, b2)) :
    b2 = blayout T (Ms ++ (be32 n ++ rest)) ∧ 20 + Ms.length + (n + 4) < 4294967296 := by
  obtain ⟨ha, hfit⟩ := add_message_ok hT hr hb hm h
  rw [add_message_blayout e T Ms rest n a t hT hr hfit ha] at h
  simp only [Option.some.injEq, Prod.mk.injEq, true_and] at h
  exact ⟨h.symm, hfit⟩

theorem WF.framed {m : osc_message} (h : WF m) :
    ∃ n rest, m = ⟨m.address, m.typetag, be32 n ++ rest⟩ ∧ rest.length = n ∧
      n + 4 < 4294967296 := by
  obtain ⟨A, ts, R, k, rfl, hk, hA, h0, hn⟩ := h
  refine ⟨A.length + ((pad_str (44 :: ts)).length + R.length),
    A ++ (pad_str (44 :: ts) ++ R), rfl, by simp, by omega⟩

theorem add_message_WF {e : Env} {T Ms : List Nat} {m : osc_message} {b2 : osc_bundle}
    (hT : T.length = 8) (hb : 20 + Ms.length < 4294967296) (hm : WF m)
    (h : osc_bundle_add_message e (blayout T Ms) m = some (0, b2)) :
    b2 = blayout T (Ms ++ m.raw_data) ∧ 20 + Ms.length + m.raw_data.length < 4294967296 := by
  obtain ⟨n, rest, hmeq, hr, hn⟩ := hm.framed
  rw [hmeq] at h
  have := add_message_layout hT hr hb hn h
  have hraw : m.raw_data = be32 n ++ rest := by rw [hmeq]
  rw [hraw]
  refine ⟨this.1, ?_⟩
  simp [be32_length]; omega

/-- The flattened blocks of a list of messages -/
theorem blocks_length (ms : List osc_message) :
    (ms.map (fun m => m.raw_data)).flatten.length = (ms.map (fun m => m.raw_data.length)).sum := by
  induction ms with
  | nil => rfl
  | cons m ms ih => simp [ih]

theorem brun_blayout {T Ms : List Nat} {b : osc_bundle} (s : List (Env × BCall))
    (hT : T.length = 8) (hb : 20 + Ms.length < 4294967296)
    (hs : ∀ m ∈ bmessages s, WF m)
    (h : brun (blayout T Ms) s = some (0, b)) :
    ∃ T2, T2.length = 8 ∧
      b = blayout T2 (Ms ++ ((bmessages s).map (fun m => m.raw_data)).flatten) ∧
      20 + (Ms ++ ((bmessages s).map (fun m => m.raw_data)).flatten).length < 4294967296 := by
  induction s generalizing T Ms with
  | nil =>
    simp only [brun, Option.some.injEq, Prod.mk.injEq, true_and] at h
    subst h
    exact ⟨T, hT, by simp [bmessages], by simpa [bmessages] using hb⟩
  | cons ec cs ih =>
    obtain ⟨e, c⟩ := ec
    simp only [brun, Option.bind_eq_bind, Option.bind_eq_some] at h
    obtain ⟨r, hr, h⟩ := h
    by_cases hr0 : r.1 = 0
    · rw [if_pos hr0] at h
      obtain ⟨st, b1⟩ := r
      simp only at hr0
      subst hr0
      cases c with
      | set_timetag sec frac =>
        simp only [bcall, set_timetag_blayout T Ms sec frac hT, Option.map_some',
          Option.some.injEq, Prod.mk.injEq, true_and] at hr
        subst hr
        exact ih (by simp [be32_length]) hb (by simpa [bmessages] using hs) h
      | add_message m =>
        simp only [bcall] at hr
        have hm : WF m := hs m (by simp [bmessages])
        obtain ⟨hb1, hfit⟩ := add_message_WF hT hb hm hr
        subst hb1
        obtain ⟨T2, hT2, hb2, hf2⟩ := ih hT (by rw [List.length_append]; omega)
          (fun m1 hm1 => hs m1 (by simp [bmessages, hm1])) h
        refine ⟨T2, hT2, ?_, ?_⟩
        · simpa [bmessages] using hb2
        · simpa [bmessages] using hf2
    · rw [if_neg hr0] at h
      simp only [Option.pure_def, Option.some.injEq] at h
      rw [h] at hr0
      exact absurd rfl hr0

theorem bbuild_blayout {e : Env} {b0 b : osc_bundle} {s : List (Env × BCall)}
    (hs : ∀ m ∈ bmessages s, WF m)
    (h : bbuild e b0 s = some (0, b)) :
    ∃ T, T.length = 8 ∧ e.alloc = true ∧
      b = blayout T ((bmessages s).map (fun m => m.raw_data)).flatten ∧
      20 + ((bmessages s).map (fun m => m.raw_data)).flatten.length < 4294967296 := by
  simp only [bbuild, Option.bind_eq_bind, Option.bind_eq_some] at h
  obtain ⟨r, hr, h⟩ := h
  by_cases hr0 : r.1 = 0
  · rw [if_pos hr0] at h
    obtain ⟨st, b1⟩ := r
    simp only at hr0
    subst hr0
    obtain ⟨ha, hb1⟩ := osc_bundle_new_ok hr
    subst hb1
    obtain ⟨T2, hT2, hb2, hf2⟩ := brun_blayout s (by simp) (by simp) hs h
    exact ⟨T2, hT2, ha, by simpa using hb2, by simpa using hf2⟩
  · rw [if_neg hr0] at h
    simp only [Option.pure_def, Option.some.injEq] at h
    rw [h] at hr0
    exact absurd rfl hr0

theorem BReachable.shape {b : osc_bundle} (h : BReachable b) :
    ∃ T Ms, T.length = 8 ∧ b = blayout T Ms ∧ 20 + Ms.length < 4294967296 := by
  obtain ⟨e, b0, s, hs, hb⟩ := h
  obtain ⟨T, hT, -, hb2, hf⟩ := bbuild_blayout (fun m hm => (hs m hm).wf) hb
  exact ⟨T, _, hT, hb2, hf⟩

theorem view_length (block rest : List Nat) (n : Nat) (v : osc_message_view)
    (hd : block.drop v.raw_data = be32 n ++ rest) (hn : n < 4294967296) :
    osc_message_serialized_length (v.message block) = some (toSize (toI32 n)) := by
  unfold osc_message_serialized_length osc_message_view.message
  simp only [hd]
  exact length_field_be32 hn rest

theorem bundle_drop (H T pre rest : List Nat) (p : Nat) (hH : H.length = 4) (hT : T.length = 8)
    (hp : p = 20 + pre.length) :
    (H ++ ([35, 98, 117, 110, 100, 108, 101, 0] ++ (T ++ (pre ++ rest)))).drop p = rest := by
  have := drop_layout (H ++ [35, 98, 117, 110, 100, 108, 101, 0]) T pre rest p
    (by simp [hH, hT]; omega)
  simpa only [List.append_assoc] using this

theorem bundle_strlen (H T pre hd A rest : List Nat) (k p : Nat) (hH : H.length = 4)
    (hT : T.length = 8) (hk : strlen_at A = some k) (hhd : hd.length = 4)
    (hp : p = 20 + pre.length + 4) :
    strlen (H ++ ([35, 98, 117, 110, 100, 108, 101, 0] ++ (T ++ (pre ++ (hd ++ (A ++ rest))))))
      p = some k := by
  have := strlen_region hk (H ++ ([35, 98, 117, 110, 100, 108, 101, 0] ++ (T ++ (pre ++ hd))))
    rest p (by simp [hH, hT, hhd]; omega)
  simpa only [List.append_assoc] using this

theorem next_empty (T : List Nat) (prev : Option osc_message_view) :
    osc_bundle_next_message (blayout T []) prev = some none := by
  have hlb : osc_bundle_serialized_length (blayout T []) = some (toSize (toI32 16)) :=
    length_field_be32 (by decide) _
  have hcb := toSize_toI32 (x := 16) (by decide)
  simp only [osc_bundle_next_message, hlb, hcb, Option.bind_eq_bind, Option.some_bind,
    Option.pure_def, if_true]

theorem next_first (T post A S R : List Nat) (k : Nat) (hT : T.length = 8)
    (hk : strlen_at A = some k) (hA : A.length = padded k)
    (hfit : 20 + ((layout A S R).raw_data ++ post).length < 4294967296) :
    osc_bundle_next_message (blayout T ((layout A S R).raw_data ++ post)) none
      = some (some (view_at 20 (layout A S R))) := by
  obtain ⟨N, hN⟩ : ∃ N, N = 16 + ((layout A S R).raw_data ++ post).length := ⟨_, rfl⟩
  rw [blayout_eq _ _ N hN]
  have hlb : osc_bundle_serialized_length
      ⟨12, be32 N ++ ([35, 98, 117, 110, 100, 108, 101, 0] ++
        (T ++ ((layout A S R).raw_data ++ post)))⟩
      = some (toSize (toI32 N)) := length_field_be32 (by omega) _
  have hcb := toSize_toI32 (x := N) (by omega)
  have hl := layout_raw_length A S R
  have hne : ¬ (20 = 4 + N) := by rw [hN, List.length_append, hl]; omega
  have hstr : strlen (be32 N ++ ([35, 98, 117, 110, 100, 108, 101, 0] ++
        (T ++ ((layout A S R).raw_data ++ post)))) (20 + 4) = some k := by
    have := bundle_strlen (be32 N) T [] (be32 (A.length + (S.length + R.length))) A
      ((S ++ R) ++ post) k (20 + 4) (be32_length _) hT hk (be32_length _) (by simp)
    simpa only [layout, List.append_assoc, List.nil_append] using this
  simp only [osc_bundle_next_message, hlb, hcb, hne, hstr, if_false, Option.bind_eq_bind,
    Option.some_bind, Option.pure_def]
  unfold padded at hA
  simp only [view_at, layout, hA, Option.some.injEq, osc_message_view.mk.injEq, and_true, true_and]
  omega

theorem next_after (T pre post A S R A2 S2 R2 : List Nat) (k2 : Nat) (v : osc_message_view)
    (hT : T.length = 8) (hv : v.raw_data = 20 + pre.length)
    (hk2 : strlen_at A2 = some k2) (hA2 : A2.length = padded k2)
    (hfit : 20 + (pre ++ ((layout A S R).raw_data ++ ((layout A2 S2 R2).raw_data ++ post))).length
      < 4294967296) :
    osc_bundle_next_message
        (blayout T (pre ++ ((layout A S R).raw_data ++ ((layout A2 S2 R2).raw_data ++ post))))
        (some v)
      = some (some (view_at (20 + pre.length + (layout A S R).raw_data.length)
          (layout A2 S2 R2))) := by
  obtain ⟨N, hN⟩ : ∃ N, N = 16 +
    (pre ++ ((layout A S R).raw_data ++ ((layout A2 S2 R2).raw_data ++ post))).length := ⟨_, rfl⟩
  rw [blayout_eq _ _ N hN]
  have hlb : osc_bundle_serialized_length
      ⟨12, be32 N ++ ([35, 98, 117, 110, 100, 108, 101, 0] ++
        (T ++ (pre ++ ((layout A S R).raw_data ++ ((layout A2 S2 R2).raw_data ++ post)))))⟩
      = some (toSize (toI32 N)) := length_field_be32 (by omega) _
  have hcb := toSize_toI32 (x := N) (by omega)
  have hl := layout_raw_length A S R
  have hl2 := layout_raw_length A2 S2 R2
  simp only [List.length_append] at hN hfit
  have hne : ¬ (20 = 4 + N) := by omega
  obtain ⟨n, hn⟩ : ∃ n, n = A.length + (S.length + R.length) := ⟨_, rfl⟩
  have hvl := view_length (be32 N ++ ([35, 98, 117, 110, 100, 108, 101, 0] ++
        (T ++ (pre ++ ((layout A S R).raw_data ++ ((layout A2 S2 R2).raw_data ++ post))))))
    ((A ++ (S ++ R)) ++ ((layout A2 S2 R2).raw_data ++ post)) n v (by
      rw [bundle_drop (be32 N) T pre _ _ (be32_length _) hT hv, layout_eq A S R n hn]
      simp only [List.append_assoc]) (by omega)
  have hcm := toSize_toI32 (x := n) (by omega)
  have hlt : 20 + pre.length + n + 4 < 4 + N := by omega
  have hstr : strlen (be32 N ++ ([35, 98, 117, 110, 100, 108, 101, 0] ++
        (T ++ (pre ++ ((layout A S R).raw_data ++ ((layout A2 S2 R2).raw_data ++ post))))))
      (20 + pre.length + n + 4 + 4) = some k2 := by
    have := bundle_strlen (be32 N) T (pre ++ (layout A S R).raw_data)
      (be32 (A2.length + (S2.length + R2.length))) A2
      ((S2 ++ R2) ++ post) k2 (20 + pre.length + n + 4 + 4) (be32_length _) hT hk2
      (be32_length _) (by rw [List.length_append, hl]; omega)
    simpa only [layout, List.append_assoc] using this
  simp only [osc_bundle_next_message, hlb, hcb, hne, hvl, hcm, hv, hlt, hstr, if_false, if_true,
    Option.bind_eq_bind, Option.some_bind, Option.pure_def]
  unfold padded at hA2
  simp only [view_at, layout, hA2, Option.some.injEq, osc_message_view.mk.injEq, and_true, true_and]
  simp only [List.length_append, be32_length]
  omega

theorem next_last (T pre A S R : List Nat) (v : osc_message_view)
    (hT : T.length = 8) (hv : v.raw_data = 20 + pre.length)
    (hfit : 20 + (pre ++ (layout A S R).raw_data).length < 4294967296) :
    osc_bundle_next_message (blayout T (pre ++ (layout A S R).raw_data)) (some v)
      = some none := by
  obtain ⟨N, hN⟩ : ∃ N, N = 16 + (pre ++ (layout A S R).raw_data).length := ⟨_, rfl⟩
  rw [blayout_eq _ _ N hN]
  have hlb : osc_bundle_serialized_length
      ⟨12, be32 N ++ ([35, 98, 117, 110, 100, 108, 101, 0] ++
        (T ++ (pre ++ (layout A S R).raw_data)))⟩
      = some (toSize (toI32 N)) := length_field_be32 (by omega) _
  have hcb := toSize_toI32 (x := N) (by omega)
  have hl := layout_raw_length A S R
  simp only [List.length_append] at hN hfit
  have hne : ¬ (20 = 4 + N) := by omega
  obtain ⟨n, hn⟩ : ∃ n, n = A.length + (S.length + R.length) := ⟨_, rfl⟩
  have hvl := view_length (be32 N ++ ([35, 98, 117, 110, 100, 108, 101, 0] ++
        (T ++ (pre ++ (layout A S R).raw_data))))
    (A ++ (S ++ R)) n v (by
      rw [bundle_drop (be32 N) T pre _ _ (be32_length _) hT hv, layout_eq A S R n hn]) (by omega)
  have hcm := toSize_toI32 (x := n) (by omega)
  have hlt : ¬ (20 + pre.length + n + 4 < 4 + N) := by omega
  simp only [osc_bundle_next_message, hlb, hcb, hne, hvl, hcm, hv, hlt, if_false,
    Option.bind_eq_bind, Option.some_bind, Option.pure_def]

theorem split_at {α : Type} (ms : List α) (j : Nat) (m : α) (h : ms[j]? = some m) :
    ms = ms.take j ++ m :: ms.drop (j + 1) := by
  obtain ⟨hj, hm⟩ := List.getElem?_eq_some.mp h
  have := List.drop_eq_getElem_cons hj
  rw [hm] at this
  rw [← this, List.take_append_drop]

theorem blocks_split (ms : List osc_message) (j : Nat) (m : osc_message)
    (h : ms[j]? = some m) :
    (ms.map (fun mi => mi.raw_data)).flatten
      = ((ms.take j).map (fun mi => mi.raw_data)).flatten ++
        (m.raw_data ++ ((ms.drop (j + 1)).map (fun mi => mi.raw_data)).flatten) := by
  conv_lhs => rw [split_at ms j m h]
  simp

theorem blocks_take_succ (ms : List osc_message) (j : Nat) (m : osc_message)
    (h : ms[j]? = some m) :
    ((ms.take (j + 1)).map (fun mi => mi.raw_data)).flatten
      = ((ms.take j).map (fun mi => mi.raw_data)).flatten ++ m.raw_data := by
  obtain ⟨hj, hm⟩ := List.getElem?_eq_some.mp h
  rw [List.take_succ, h]
  simp

theorem iter_view (T : List Nat) (ms : List osc_message) (hT : T.length = 8)
    (hms : ∀ m ∈ ms, WF m)
    (hfit : 20 + (ms.map (fun mi => mi.raw_data)).flatten.length < 4294967296) :
    ∀ j m, ms[j]? = some m →
      bundle_iter (blayout T (ms.map (fun mi => mi.raw_data)).flatten) (j + 1)
        = some (some (view_at
            (20 + ((ms.take j).map (fun mi => mi.raw_data)).flatten.length) m)) := by
  intro j
  induction j with
  | zero =>
    intro m hm
    obtain ⟨A, ts, R, k, rfl, hk, hA, -, -⟩ := hms m (List.getElem?_mem hm)
    have hsp := blocks_split ms 0 _ hm
    simp only [List.take_zero, List.map_nil, List.flatten_nil, List.nil_append] at hsp
    rw [hsp] at hfit ⊢
    simp only [bundle_iter, Option.some_bind, List.take_zero, List.map_nil, List.flatten_nil,
      List.length_nil, Nat.add_zero]
    exact next_first T _ A _ R k hT hk hA hfit
  | succ j ih =>
    intro m2 hm2
    obtain ⟨hj2, -⟩ := List.getElem?_eq_some.mp hm2
    have hj : j < ms.length := by omega
    have hm : ms[j]? = some ms[j] := List.getElem?_eq_getElem hj
    have hi := ih _ hm
    obtain ⟨A, ts, R, k, hmeq, hk, hA, -, -⟩ := hms _ (List.getElem?_mem hm)
    obtain ⟨A2, ts2, R2, k2, rfl, hk2, hA2, -, -⟩ := hms m2 (List.getElem?_mem hm2)
    have hsp := blocks_split ms j _ hm
    have hd : ms.drop (j + 1) = layout A2 (pad_str (44 :: ts2)) R2 :: ms.drop (j + 1 + 1) := by
      obtain ⟨hj3, hm3⟩ := List.getElem?_eq_some.mp hm2
      rw [List.drop_eq_getElem_cons hj3, hm3]
    rw [hd, hmeq] at hsp
    simp only [List.map_cons, List.flatten_cons] at hsp
    have ht := blocks_take_succ ms j _ hm
    rw [hmeq] at ht hi
    show (bundle_iter _ (j + 1)).bind _ = _
    rw [hi, ht, Option.some_bind, List.length_append, ← Nat.add_assoc]
    rw [hsp] at hfit ⊢
    exact next_after T _ _ A _ R A2 _ R2 k2 _ hT rfl hk2 hA2 hfit

theorem iter_nil (T : List Nat) :
    bundle_iter (blayout T (([] : List osc_message).map (fun mi => mi.raw_data)).flatten)
      (([] : List osc_message).length + 1) = some none := by
  simp only [List.map_nil, List.flatten_nil, List.length_nil]
  show (some none : Option (Option osc_message_view)).bind _ = _
  rw [Option.some_bind]
  exact next_empty T none

theorem iter_end (T : List Nat) (ms : List osc_message) (hT : T.length = 8)
    (hms : ∀ m ∈ ms, WF m)
    (hfit : 20 + (ms.map (fun mi => mi.raw_data)).flatten.length < 4294967296) :
    bundle_iter (blayout T (ms.map (fun mi => mi.raw_data)).flatten) (ms.length + 1)
      = some none := by
  cases hl : ms.length with
  | zero =>
    have : ms = [] := List.length_eq_zero.mp hl
    subst this
    exact iter_nil T
  | succ j =>
    have hj : j < ms.length := by omega
    have hm : ms[j]? = some ms[j] := List.getElem?_eq_getElem hj
    have hi := iter_view T ms hT hms hfit j _ hm
    obtain ⟨A, ts, R, k, hmeq, hk, hA, -, -⟩ := hms _ (List.getElem?_mem hm)
    have hsp := blocks_split ms j _ hm
    have hd : ms.drop (j + 1) = [] := List.drop_of_length_le (by omega)
    rw [hd, hmeq] at hsp
    simp only [List.map_nil, List.flatten_nil, List.append_nil] at hsp
    rw [hmeq] at hi
    show (bundle_iter _ (j + 1)).bind _ = _
    rw [hi, Option.some_bind]
    rw [hsp] at hfit ⊢
    exact next_last T _ A _ R _ hT rfl hfit

theorem view_bytes (T : List Nat) (ms : List osc_message) (hT : T.length = 8) (j : Nat)
    (m : osc_message) (hm : ms[j]? = some m) :
    read_bytes (blayout T (ms.map (fun mi => mi.raw_data)).flatten).raw_data
      (20 + ((ms.take j).map (fun mi => mi.raw_data)).flatten.length) m.raw_data.length
      = some m.raw_data := by
  rw [blocks_split ms j m hm]
  have := read_bytes_append
    (be32 (16 + (((ms.take j).map (fun mi => mi.raw_data)).flatten ++
        (m.raw_data ++ ((ms.drop (j + 1)).map (fun mi => mi.raw_data)).flatten)).length)
      ++ ([35, 98, 117, 110, 100, 108, 101, 0] ++
        (T ++ ((ms.take j).map (fun mi => mi.raw_data)).flatten)))
    m.raw_data ((ms.drop (j + 1)).map (fun mi => mi.raw_data)).flatten
    (20 + ((ms.take j).map (fun mi => mi.raw_data)).flatten.length) m.raw_data.length
    (by simp [be32_length, hT]; omega) rfl
  simpa only [blayout, List.append_assoc] using this

theorem WF.serialized_length {m : osc_message} (hm : WF m)
    (hsize : m.raw_data.length < 2147483648) :
    ∃ n, osc_message_serialized_length m = some n ∧ n + 4 = m.raw_data.length := by
  obtain ⟨A, ts, R, k, rfl, -, -, -, hn⟩ := hm
  rw [layout_raw_length] at hsize
  refine ⟨A.length + ((pad_str (44 :: ts)).length + R.length), ?_, ?_⟩
  · rw [serialized_length_layout _ _ _ (by omega), toSize_toI32_small (by omega)]
  · rw [layout_raw_length]; omega

theorem mem_blocks_le (ms : List osc_message) (m : osc_message) (h : m ∈ ms) :
    m.raw_data.length ≤ (ms.map (fun mi => mi.raw_data)).flatten.length := by
  induction ms with
  | nil => simp at h
  | cons a as ih =>
    simp only [List.map_cons, List.flatten_cons, List.length_append]
    rcases List.mem_cons.mp h with rfl | h
    · omega
    · have := ih h
      omega

theorem sum_serialized (ms : List osc_message) (hms : ∀ m ∈ ms, WF m)
    (hsize : (ms.map (fun mi => mi.raw_data)).flatten.length < 2147483648) :
    (ms.map (fun m => (osc_message_serialized_length m).getD 0 + 4)).sum
      = (ms.map (fun mi => mi.raw_data)).flatten.length := by
  rw [blocks_length]
  congr 1
  apply List.map_congr_left
  intro m hm
  obtain ⟨n, hn, hl⟩ := (hms m hm).serialized_length (by
    have := mem_blocks_le ms m hm
    omega)
  rw [hn, Option.getD_some, hl]

/-! ## The claims on argument lookup, bundles, blobs, failures and the codec -/

/-- C11 (code defect): the message built by `osc_message_new` and the appends of a blob of data
size 5, a blob of data size 4 and the int32 7 has its arguments at the offsets 16, 28 and 36, but
`osc_message_arg` at index 2 returns 39: the local `add_bytes` set to 3 by the first blob is not
reset, so the second blob, whose size is a multiple of 4, is stepped over by `4 + 4 + 3` bytes. -/
theorem C11_arg_after_blobs :
    build env_ok ⟨0, 0, []⟩
        [(env_ok, .add (.blob [0, 0, 0, 5, 1, 2, 3, 4, 5, 0, 0, 0])),
         (env_ok, .add (.blob [0, 0, 0, 4, 1, 2, 3, 4])), (env_ok, .add (.int32 7))]
      = some (0, ⟨4, 8, [0, 0, 0, 36, 0, 0, 0, 0, 44, 98, 98, 105, 0, 0, 0, 0,
          0, 0, 0, 5, 1, 2, 3, 4, 5, 0, 0, 0, 0, 0, 0, 4, 1, 2, 3, 4, 0, 0, 0, 7]⟩) ∧
    osc_message_arg ⟨4, 8, [0, 0, 0, 36, 0, 0, 0, 0, 44, 98, 98, 105, 0, 0, 0, 0,
          0, 0, 0, 5, 1, 2, 3, 4, 5, 0, 0, 0, 0, 0, 0, 4, 1, 2, 3, 4, 0, 0, 0, 7]⟩ 1
      = some (some 28) ∧
    osc_message_arg ⟨4, 8, [0, 0, 0, 36, 0, 0, 0, 0, 44, 98, 98, 105, 0, 0, 0, 0,
          0, 0, 0, 5, 1, 2, 3, 4, 5, 0, 0, 0, 0, 0, 0, 4, 1, 2, 3, 4, 0, 0, 0, 7]⟩ 2
      = some (some 39) := by
  decide

/-- C12: bundle iteration.  For a bundle built by `osc_bundle_new` and calls that all return 0,
the added messages `m_0 .. m_(k-1)` being messages the message API produces: call number
`j + 1` of `osc_bundle_next_message`, started on the null message and fed its previous result,
returns the view at offset `20 + sum over i < j of the buffer size of m_i`, with the address and
signature pointers of `m_j` moved by that offset; the bytes there are the buffer of `m_j`; and
call number `k + 1` returns the null message (for `k = 0` that is the first call).  The buffer
size of a message below `2^31` bytes is its `osc_message_serialized_length` plus 4. -/
theorem C12_bundle_iteration (e : Env) (b0 b : osc_bundle) (s : List (Env × BCall))
    (hs : ∀ m ∈ bmessages s, Reachable m)
    (hb : bbuild e b0 s = some (0, b)) :
    (∀ j m, (bmessages s)[j]? = some m →
      bundle_iter b (j + 1) = some (some (view_at
          (20 + (((bmessages s).take j).map (fun mi => mi.raw_data.length)).sum) m)) ∧
      read_bytes b.raw_data
          (20 + (((bmessages s).take j).map (fun mi => mi.raw_data.length)).sum)
          m.raw_data.length = some m.raw_data) ∧
    bundle_iter b ((bmessages s).length + 1) = some none ∧
    ∀ m ∈ bmessages s, m.raw_data.length < 2147483648 →
      ∃ n, osc_message_serialized_length m = some n ∧ n + 4 = m.raw_data.length := by
  have hwf : ∀ m ∈ bmessages s, WF m := fun m hm => (hs m hm).wf
  obtain ⟨T, hT, -, rfl, hfit⟩ := bbuild_blayout hwf hb
  refine ⟨fun j m hm => ?_, iter_end T _ hT hwf hfit, fun m hm hsz => (hwf m hm).serialized_length hsz⟩
  rw [← blocks_length]
  exact ⟨iter_view T _ hT hwf hfit j m hm, view_bytes T _ hT j m hm⟩

theorem C12_bundle_iteration_witness :
    bundle_iter ⟨12, [0, 0, 0, 44, 35, 98, 117, 110, 100, 108, 101, 0, 0, 0, 0, 0, 0, 0, 0, 1,
        0, 0, 0, 12, 0, 0, 0, 0, 44, 105, 0, 0, 0, 0, 0, 7,
        0, 0, 0, 8, 47, 97, 0, 0, 44, 0, 0, 0]⟩ 1 = some (some ⟨24, 28, 20⟩) ∧
    bundle_iter ⟨12, [0, 0, 0, 44, 35, 98, 117, 110, 100, 108, 101, 0, 0, 0, 0, 0, 0, 0, 0, 1,
        0, 0, 0, 12, 0, 0, 0, 0, 44, 105, 0, 0, 0, 0, 0, 7,
        0, 0, 0, 8, 47, 97, 0, 0, 44, 0, 0, 0]⟩ 2 = some (some ⟨40, 44, 36⟩) ∧
    bundle_iter ⟨12, [0, 0, 0, 44, 35, 98, 117, 110, 100, 108, 101, 0, 0, 0, 0, 0, 0, 0, 0, 1,
        0, 0, 0, 12, 0, 0, 0, 0, 44, 105, 0, 0, 0, 0, 0, 7,
        0, 0, 0, 8, 47, 97, 0, 0, 44, 0, 0, 0]⟩ 3 = some none :=
  have h := C12_bundle_iteration env_ok ⟨0, []⟩
    ⟨12, [0, 0, 0, 44, 35, 98, 117, 110, 100, 108, 101, 0, 0, 0, 0, 0, 0, 0, 0, 1,
        0, 0, 0, 12, 0, 0, 0, 0, 44, 105, 0, 0, 0, 0, 0, 7,
        0, 0, 0, 8, 47, 97, 0, 0, 44, 0, 0, 0]⟩
    [(env_ok, .add_message ⟨4, 8, [0, 0, 0, 12, 0, 0, 0, 0, 44, 105, 0, 0, 0, 0, 0, 7]⟩),
     (env_ok, .add_message ⟨4, 8, [0, 0, 0, 8, 47, 97, 0, 0, 44, 0, 0, 0]⟩)]
    (List.forall_mem_cons.mpr
      ⟨⟨env_ok, ⟨0, 0, []⟩, [(env_ok, .add (.int32 7))], by decide⟩,
       List.forall_mem_cons.mpr
        ⟨⟨env_ok, ⟨0, 0, []⟩, [(env_ok, .set_address [47, 97])], by decide⟩,
         fun _ hx => absurd hx (List.not_mem_nil _)⟩⟩)
    (by decide)
  ⟨(h.1 0 _ rfl).1, (h.1 1 _ rfl).1, h.2.1⟩

/-- C13: `osc_bundle_add_message` on a bundle the API produces and a message the message API
produces.  The call returns 0 when the allocation succeeds and the sizes fit 32 bits; whenever
it returns 0 the bundle buffer is longer by the size of the message buffer, its bytes from 4 to
the old end are unchanged, the message buffer follows them verbatim, the first four bytes hold
the old length plus the size of the message buffer in big-endian order, and below `2^31` bytes
that size is `osc_message_serialized_length msg + 4` and the new `osc_bundle_serialized_length`
is the old one plus it.  The message is an input that the function only reads. -/
theorem C13_bundle_add_message (e : Env) (b : osc_bundle) (msg : osc_message)
    (hb : BReachable b) (hm : Reachable msg) :
    (e.alloc = true → b.raw_data.length + msg.raw_data.length < 4294967296 →
      ∃ b2, osc_bundle_add_message e b msg = some (0, b2)) ∧
    ∀ b2, osc_bundle_add_message e b msg = some (0, b2) →
      b2.raw_data.length = b.raw_data.length + msg.raw_data.length ∧
      (b2.raw_data.take b.raw_data.length).drop 4 = b.raw_data.drop 4 ∧
      b2.raw_data.drop b.raw_data.length = msg.raw_data ∧
      b2.raw_data.take 4 = be32 (b.raw_data.length - 4 + msg.raw_data.length) ∧
      (b2.raw_data.length < 2147483648 →
        ∃ old n, osc_bundle_serialized_length b = some old ∧
          osc_message_serialized_length msg = some n ∧
          msg.raw_data.length = n + 4 ∧
          osc_bundle_serialized_length b2 = some (old + n + 4)) := by
  obtain ⟨T, Ms, hT, rfl, hfit⟩ := hb.shape
  have hwf := hm.wf
  obtain ⟨n, rest, hmeq, hr, hn⟩ := hwf.framed
  have hraw : msg.raw_data = be32 n ++ rest := by rw [hmeq]
  have hml : msg.raw_data.length = n + 4 := by rw [hraw]; simp [be32_length]; omega
  have hbl := blayout_raw_length T Ms
  constructor
  · intro ha hsz
    have := add_message_blayout e T Ms rest n msg.address msg.typetag hT hr (by omega) ha
    rw [← hmeq] at this
    exact ⟨_, this⟩
  · intro b2 h
    obtain ⟨rfl, hfit2⟩ := add_message_WF hT hfit hwf h
    have hbl2 := blayout_raw_length T (Ms ++ msg.raw_data)
    rw [List.length_append] at hbl2
    refine ⟨by omega, ?_, ?_, ?_, ?_⟩
    · simp only [blayout]
      have h4 := be32_length (16 + (Ms ++ msg.raw_data).length)
      have h4b := be32_length (16 + Ms.length)
      generalize be32 (16 + (Ms ++ msg.raw_data).length) = H2 at *
      generalize be32 (16 + Ms.length) = H at *
      have e1 : (H2 ++ ([35, 98, 117, 110, 100, 108, 101, 0] ++ (T ++ (Ms ++ msg.raw_data))))
          = (H2 ++ ([35, 98, 117, 110, 100, 108, 101, 0] ++ (T ++ Ms))) ++ msg.raw_data := by
        simp only [List.append_assoc]
      rw [e1, List.take_left' (by simp [h4, h4b]), List.drop_left' h4, List.drop_left' h4b]
    · simp only [blayout]
      have h4 := be32_length (16 + (Ms ++ msg.raw_data).length)
      have h4b := be32_length (16 + Ms.length)
      generalize be32 (16 + (Ms ++ msg.raw_data).length) = H2 at *
      generalize be32 (16 + Ms.length) = H at *
      have e1 : (H2 ++ ([35, 98, 117, 110, 100, 108, 101, 0] ++ (T ++ (Ms ++ msg.raw_data))))
          = (H2 ++ ([35, 98, 117, 110, 100, 108, 101, 0] ++ (T ++ Ms))) ++ msg.raw_data := by
        simp only [List.append_assoc]
      rw [e1, List.drop_left' (by simp [h4, h4b])]
    · rw [hbl]
      simp only [blayout]
      rw [List.take_left' (be32_length _), List.length_append]
      congr 1
      omega
    · intro hsz
      refine ⟨16 + Ms.length, n, ?_, ?_, hml, ?_⟩
      · exact (length_field_be32 (by omega) _).trans (by rw [toSize_toI32_small (by omega)])
      · rw [hmeq]
        exact (length_field_layout n (by omega) _ _ rest).trans
          (by rw [toSize_toI32_small (by omega)])
      · refine (length_field_be32 (by rw [List.length_append]; omega) _).trans ?_
        rw [toSize_toI32_small (by rw [List.length_append]; omega), List.length_append, hml]
        congr 1
        omega

theorem C13_bundle_add_message_witness :
    ∃ b2, osc_bundle_add_message env_ok
        ⟨12, [0, 0, 0, 16, 35, 98, 117, 110, 100, 108, 101, 0, 0, 0, 0, 0, 0, 0, 0, 1]⟩
        ⟨4, 8, [0, 0, 0, 12, 0, 0, 0, 0, 44, 105, 0, 0, 0, 0, 0, 7]⟩ = some (0, b2) ∧
      b2.raw_data.drop 20 = [0, 0, 0, 12, 0, 0, 0, 0, 44, 105, 0, 0, 0, 0, 0, 7] ∧
      b2.raw_data.take 4 = [0, 0, 0, 32] :=
  have h := C13_bundle_add_message env_ok
    ⟨12, [0, 0, 0, 16, 35, 98, 117, 110, 100, 108, 101, 0, 0, 0, 0, 0, 0, 0, 0, 1]⟩
    ⟨4, 8, [0, 0, 0, 12, 0, 0, 0, 0, 44, 105, 0, 0, 0, 0, 0, 7]⟩
    ⟨env_ok, ⟨0, []⟩, [], fun _ hx => absurd hx (List.not_mem_nil _), by decide⟩
    ⟨env_ok, ⟨0, 0, []⟩, [(env_ok, .add (.int32 7))], by decide⟩
  (h.1 rfl (by decide)).elim fun b2 hb2 =>
    ⟨b2, hb2, (h.2 b2 hb2).2.2.1, (h.2 b2 hb2).2.2.2.1.trans (by decide)⟩

/-- C14: bundle length invariant.  For a bundle built by `osc_bundle_new` and calls of
`osc_bundle_set_timetag` and `osc_bundle_add_message` that all return 0 (the added messages
being messages the message API produces), below `2^31` bytes: `osc_bundle_serialized_length`
plus 4 is the size of the buffer, and the length is 16 plus the sum of
`osc_message_serialized_length m + 4` over the added messages. -/
theorem C14_bundle_length (e : Env) (b0 b : osc_bundle) (s : List (Env × BCall))
    (hs : ∀ m ∈ bmessages s, Reachable m)
    (hb : bbuild e b0 s = some (0, b)) (hsize : b.raw_data.length < 2147483648) :
    ∃ n, osc_bundle_serialized_length b = some n ∧ n + 4 = b.raw_data.length ∧
      n = 16 + ((bmessages s).map
        (fun m => (osc_message_serialized_length m).getD 0 + 4)).sum := by
  have hwf : ∀ m ∈ bmessages s, WF m := fun m hm => (hs m hm).wf
  obtain ⟨T, hT, -, rfl, hfit⟩ := bbuild_blayout hwf hb
  have hbl := blayout_raw_length T ((bmessages s).map (fun m => m.raw_data)).flatten
  rw [hbl] at hsize
  refine ⟨16 + ((bmessages s).map (fun m => m.raw_data)).flatten.length, ?_, ?_, ?_⟩
  · exact (length_field_be32 (by omega) _).trans (by rw [toSize_toI32_small (by omega)])
  · rw [hbl]; omega
  · rw [sum_serialized _ hwf (by omega)]

theorem C14_bundle_length_witness :
    ∃ n, osc_bundle_serialized_length
        ⟨12, [0, 0, 0, 44, 35, 98, 117, 110, 100, 108, 101, 0, 0, 0, 0, 5, 0, 0, 0, 6,
          0, 0, 0, 12, 0, 0, 0, 0, 44, 105, 0, 0, 0, 0, 0, 7,
          0, 0, 0, 8, 47, 97, 0, 0, 44, 0, 0, 0]⟩ = some n ∧ n + 4 = 48 ∧ n = 16 + (16 + 12) :=
  have h := C14_bundle_length env_ok ⟨0, []⟩
    ⟨12, [0, 0, 0, 44, 35, 98, 117, 110, 100, 108, 101, 0, 0, 0, 0, 5, 0, 0, 0, 6,
        0, 0, 0, 12, 0, 0, 0, 0, 44, 105, 0, 0, 0, 0, 0, 7,
        0, 0, 0, 8, 47, 97, 0, 0, 44, 0, 0, 0]⟩
    [(env_ok, .add_message ⟨4, 8, [0, 0, 0, 12, 0, 0, 0, 0, 44, 105, 0, 0, 0, 0, 0, 7]⟩),
     (env_ok, .set_timetag 5 6),
     (env_ok, .add_message ⟨4, 8, [0, 0, 0, 8, 47, 97, 0, 0, 44, 0, 0, 0]⟩)]
    (List.forall_mem_cons.mpr
      ⟨⟨env_ok, ⟨0, 0, []⟩, [(env_ok, .add (.int32 7))], by decide⟩,
       List.forall_mem_cons.mpr
        ⟨⟨env_ok, ⟨0, 0, []⟩, [(env_ok, .set_address [47, 97])], by decide⟩,
         fun _ hx => absurd hx (List.not_mem_nil _)⟩⟩)
    (by decide) (by decide)
  h.elim fun n hn => ⟨n, hn.1, hn.2.1, hn.2.2.trans (by decide)⟩

/-- C15: `osc_bundle_new` returns 0 whenever its allocation succeeds, and whenever it returns 0
the buffer is the 20 bytes `00 00 00 10`, `#bundle`, `00`, `00 00 00 00 00 00 00 01`, its
`osc_bundle_serialized_length` is 16 and `osc_bundle_next_message` on the null message returns
the null message. -/
theorem C15_bundle_new (e : Env) (b0 : osc_bundle) :
    (e.alloc = true → ∃ b, osc_bundle_new e b0 = some (0, b)) ∧
    ∀ b, osc_bundle_new e b0 = some (0, b) →
      b.raw_data = [0, 0, 0, 16, 35, 98, 117, 110, 100, 108, 101, 0, 0, 0, 0, 0, 0, 0, 0, 1] ∧
      osc_bundle_serialized_length b = some 16 ∧
      osc_bundle_next_message b none = some none := by
  refine ⟨fun ha => ⟨_, osc_bundle_new_eq e b0 ha⟩, ?_⟩
  intro b h
  obtain ⟨-, rfl⟩ := osc_bundle_new_ok h
  exact ⟨rfl, by decide, next_empty _ none⟩

theorem C15_bundle_new_witness :
    ∃ b, osc_bundle_new env_ok ⟨0, []⟩ = some (0, b) ∧
      b.raw_data = [0, 0, 0, 16, 35, 98, 117, 110, 100, 108, 101, 0, 0, 0, 0, 0, 0, 0, 0, 1] ∧
      osc_bundle_next_message b none = some none :=
  have h := C15_bundle_new env_ok ⟨0, []⟩
  (h.1 rfl).elim fun b hb => ⟨b, hb, (h.2 b hb).1, (h.2 b hb).2.2⟩

/-- C16: `osc_bundle_set_timetag` on a bundle the API produces: the call is defined, the
structure keeps its `timetag` pointer, the size of the buffer and its bytes 0..11 (length field
and marker) and 20.. (embedded messages) are unchanged, bytes 12..19 are `sec` then `frac` in
big-endian order, and a second call gives the same bundle as that second call alone. -/
theorem C16_set_timetag (b : osc_bundle) (sec frac sec2 frac2 : Nat) (hb : BReachable b)
    (hsec : sec < 4294967296) (hfrac : frac < 4294967296) :
    ∃ b1, osc_bundle_set_timetag b sec frac = some b1 ∧
      b1.timetag = b.timetag ∧
      b1.raw_data.length = b.raw_data.length ∧
      b1.raw_data.take 12 = b.raw_data.take 12 ∧
      (b1.raw_data.drop 12).take 8 = be32 sec ++ be32 frac ∧
      b1.raw_data.drop 20 = b.raw_data.drop 20 ∧
      osc_bundle_set_timetag b1 sec2 frac2 = osc_bundle_set_timetag b sec2 frac2 := by
  obtain ⟨T, Ms, hT, rfl, hfit⟩ := hb.shape
  have hT2 : (be32 (u32 sec) ++ be32 (u32 frac)).length = 8 := by simp [be32_length]
  refine ⟨_, set_timetag_blayout T Ms sec frac hT, rfl, ?_, ?_, ?_, ?_, ?_⟩
  · rw [blayout_raw_length, blayout_raw_length, hT, hT2]
  · simp only [blayout]
    have h4 := be32_length (16 + Ms.length)
    generalize be32 (16 + Ms.length) = H at *
    have e1 : ∀ X : List Nat, (H ++ ([35, 98, 117, 110, 100, 108, 101, 0] ++ (X ++ Ms)))
        = (H ++ [35, 98, 117, 110, 100, 108, 101, 0]) ++ (X ++ Ms) := by
      intro X; simp only [List.append_assoc]
    rw [e1, e1, List.take_left' (by simp [h4]), List.take_left' (by simp [h4])]
  · simp only [blayout]
    have h4 := be32_length (16 + Ms.length)
    generalize be32 (16 + Ms.length) = H at *
    have e1 : ∀ X : List Nat, (H ++ ([35, 98, 117, 110, 100, 108, 101, 0] ++ (X ++ Ms)))
        = (H ++ [35, 98, 117, 110, 100, 108, 101, 0]) ++ (X ++ Ms) := by
      intro X; simp only [List.append_assoc]
    rw [e1, List.drop_left' (by simp [h4]), List.take_left' hT2, u32_of_lt hsec, u32_of_lt hfrac]
  · simp only [blayout]
    have h4 := be32_length (16 + Ms.length)
    generalize be32 (16 + Ms.length) = H at *
    have e1 : ∀ X : List Nat, (H ++ ([35, 98, 117, 110, 100, 108, 101, 0] ++ (X ++ Ms)))
        = (H ++ [35, 98, 117, 110, 100, 108, 101, 0] ++ X) ++ Ms := by
      intro X; simp only [List.append_assoc]
    rw [e1, e1, List.drop_left' (by simp [h4, hT2]), List.drop_left' (by simp [h4, hT])]
  · rw [set_timetag_blayout _ _ _ _ hT2, set_timetag_blayout _ _ _ _ hT]

theorem C16_set_timetag_witness :
    ∃ b1, osc_bundle_set_timetag
        ⟨12, [0, 0, 0, 32, 35, 98, 117, 110, 100, 108, 101, 0, 0, 0, 0, 0, 0, 0, 0, 1,
          0, 0, 0, 12, 0, 0, 0, 0, 44, 105, 0, 0, 0, 0, 0, 7]⟩ 5 6 = some b1 ∧
      (b1.raw_data.drop 12).take 8 = [0, 0, 0, 5, 0, 0, 0, 6] ∧
      b1.raw_data.drop 20 = [0, 0, 0, 12, 0, 0, 0, 0, 44, 105, 0, 0, 0, 0, 0, 7] :=
  have h := C16_set_timetag
    ⟨12, [0, 0, 0, 32, 35, 98, 117, 110, 100, 108, 101, 0, 0, 0, 0, 0, 0, 0, 0, 1,
      0, 0, 0, 12, 0, 0, 0, 0, 44, 105, 0, 0, 0, 0, 0, 7]⟩ 5 6 7 8
    ⟨env_ok, ⟨0, []⟩,
      [(env_ok, .add_message ⟨4, 8, [0, 0, 0, 12, 0, 0, 0, 0, 44, 105, 0, 0, 0, 0, 0, 7]⟩)],
      List.forall_mem_cons.mpr
        ⟨⟨env_ok, ⟨0, 0, []⟩, [(env_ok, .add (.int32 7))], by decide⟩,
         fun _ hx => absurd hx (List.not_mem_nil _)⟩,
      by decide⟩
    (by decide) (by decide)
  h.elim fun b1 hb1 => ⟨b1, hb1.1, hb1.2.2.2.2.1, hb1.2.2.2.2.2.1⟩

/-- C17: `osc_blob_new n` for `n < 2^31`: it returns a blob whenever the allocation succeeds,
and every blob it returns has `4 + n + (4 - n % 4) % 4` bytes, the first four being `n` in
big-endian order and the others zero; `osc_blob_data_size` of it is `n` and `osc_blob_data_ptr`
is offset 4. -/
theorem C17_blob_new (e : Env) (n : Nat) (hn : n < 2147483648) :
    (e.alloc = true → ∃ blob, osc_blob_new e n = some (some blob)) ∧
    ∀ blob, osc_blob_new e n = some (some blob) →
      blob.length = 4 + n + (4 - n % 4) % 4 ∧
      blob = be32 n ++ List.replicate (n + (4 - n % 4) % 4) 0 ∧
      osc_blob_data_size blob = some n ∧ osc_blob_data_ptr blob = 4 := by
  refine ⟨fun ha => ⟨_, osc_blob_new_eq e n (by omega) ha⟩, ?_⟩
  intro blob h
  have ha : e.alloc = true := by
    cases hal : e.alloc
    · unfold osc_blob_new at h
      simp [hal, realloc_false] at h
    · rfl
  rw [osc_blob_new_eq e n (by omega) ha] at h
  simp only [Option.some.injEq] at h
  subst h
  refine ⟨?_, rfl, ?_, rfl⟩
  · simp [be32_length]; omega
  · unfold osc_blob_data_size
    rw [length_field_be32 (by omega), toSize_toI32_small hn]

theorem C17_blob_new_witness :
    (env_ok.alloc = true → ∃ blob, osc_blob_new env_ok 5 = some (some blob)) ∧
    ∀ blob, osc_blob_new env_ok 5 = some (some blob) →
      blob.length = 4 + 5 + (4 - 5 % 4) % 4 ∧
      blob = be32 5 ++ List.replicate (5 + (4 - 5 % 4) % 4) 0 ∧
      osc_blob_data_size blob = some 5 ∧ osc_blob_data_ptr blob = 4 :=
  C17_blob_new env_ok 5 (by decide)

/-- C18 (code defect): on the message with the signature `,ii`, an `osc_message_add_int32` whose
first reallocation succeeds and whose reallocation inside `actualize_typetag` fails returns 0,
and the buffer has the payload appended and the length prefix raised from 16 to 20 while the
signature is still `,ii`; when the first reallocation fails the call returns 1 and the message
is unchanged. -/
theorem C18_append_not_atomic :
    build env_ok ⟨0, 0, []⟩ [(env_ok, .add (.int32 1)), (env_ok, .add (.int32 2))]
      = some (0, ⟨4, 8, [0, 0, 0, 16, 0, 0, 0, 0, 44, 105, 105, 0, 0, 0, 0, 1, 0, 0, 0, 2]⟩) ∧
    osc_message_add_int32 ⟨true, false, fun _ => 170, 0⟩
        ⟨4, 8, [0, 0, 0, 16, 0, 0, 0, 0, 44, 105, 105, 0, 0, 0, 0, 1, 0, 0, 0, 2]⟩ 3
      = some (0, ⟨4, 8, [0, 0, 0, 20, 0, 0, 0, 0, 44, 105, 105, 0, 0, 0, 0, 1, 0, 0, 0, 2,
          0, 0, 0, 3]⟩) ∧
    osc_message_add_int32 ⟨false, true, fun _ => 170, 0⟩
        ⟨4, 8, [0, 0, 0, 16, 0, 0, 0, 0, 44, 105, 105, 0, 0, 0, 0, 1, 0, 0, 0, 2]⟩ 3
      = some (1, ⟨4, 8, [0, 0, 0, 16, 0, 0, 0, 0, 44, 105, 105, 0, 0, 0, 0, 1, 0, 0, 0, 2]⟩) := by
  decide

/-- C19: `osc_unpack_int32` undoes `htobe32` on every `int32_t`, `osc_unpack_float` undoes it
on every 32-bit pattern, and `osc_unpack_int32` undoes it on both halves of a time-tag;
`osc_unpack_int32` reverses the four bytes of its argument and is its own inverse. -/
theorem C19_unpack_pack (x : Int) (bits sec frac : Nat)
    (hx : -2147483648 ≤ x ∧ x < 2147483648) (hb : bits < 4294967296)
    (hs : sec < 4294967296) (hf : frac < 4294967296) :
    osc_unpack_int32 (toI32 (htobe32 (toU32 x))) = x ∧
    osc_unpack_float (htobe32 bits) = bits ∧
    toU32 (osc_unpack_int32 (toI32 (htobe32 sec))) = sec ∧
    toU32 (osc_unpack_int32 (toI32 (htobe32 frac))) = frac ∧
    le32 (toU32 (osc_unpack_int32 x)) = (le32 (toU32 x)).reverse ∧
    osc_unpack_int32 (osc_unpack_int32 x) = x := by
  have hux := toU32_lt x
  have key : ∀ v, v < 4294967296 → osc_unpack_int32 (toI32 (htobe32 v)) = toI32 v := by
    intro v hv
    unfold htobe32
    rw [u32_of_lt hv]
    exact unpack_bswap hv
  have hun : osc_unpack_int32 x = toI32 (bswap32 (toU32 x)) := by
    unfold osc_unpack_int32 be32toh
    rw [u32_of_lt hux]
  refine ⟨?_, ?_, ?_, ?_, ?_, ?_⟩
  · rw [key _ hux, toI32_toU32 hx.1 hx.2]
  · unfold osc_unpack_float be32toh htobe32
    rw [u32_of_lt hb, u32_of_lt (bswap32_lt _), bswap32_bswap32 hb]
  · rw [key _ hs, toU32_toI32 hs]
  · rw [key _ hf, toU32_toI32 hf]
  · rw [hun, toU32_toI32 (bswap32_lt _), le32_bswap32 hux]
    rfl
  · rw [hun, unpack_bswap hux, toI32_toU32 hx.1 hx.2]

theorem C19_unpack_pack_witness :
    osc_unpack_int32 (toI32 (htobe32 (toU32 (-2)))) = -2 ∧
    osc_unpack_float (htobe32 2143289345) = 2143289345 ∧
    toU32 (osc_unpack_int32 (toI32 (htobe32 3000000000))) = 3000000000 ∧
    toU32 (osc_unpack_int32 (toI32 (htobe32 1))) = 1 ∧
    le32 (toU32 (osc_unpack_int32 (-2))) = (le32 (toU32 (-2))).reverse ∧
    osc_unpack_int32 (osc_unpack_int32 (-2)) = -2 :=
  C19_unpack_pack (-2) 2143289345 3000000000 1 (by decide) (by decide) (by decide) (by decide)

/-- C20: signature growth trigger.  The condition `(len % 4) % 3 == 0 && len % 4 != 0` of
`actualize_typetag` holds exactly when `len % 4 = 3`, which is exactly when
`r(len + 2) > r(len + 1)`; a padded signature has a single terminating NUL exactly when its
length is 3 modulo 4, and the padded signature with one more tag is 4 bytes longer in that case
and has the same size otherwise.  On a well-formed message `actualize_typetag` follows that
case distinction: when the signature length is not 3 modulo 4 it returns 0 without consulting
the allocator, and when it is 3 modulo 4 it returns 0 if the allocation succeeds and 1 with the
message unchanged if it fails; whenever it returns 0 the result is the message with the same
address region, the padded signature with the new tag, and the same argument region, so the
buffer is 4 bytes longer exactly in the second case. -/
theorem C20_growth_trigger (e : Env) (A ts R : List Nat) (tag k len : Nat)
    (hk : strlen_at A = some k) (hA : A.length = padded k) (h0 : 0 ∉ ts) (htag : tag < 256)
    (hn : 4 + (A.length + ((pad_str (44 :: ts)).length + R.length)) + 4 < 4294967296) :
    (((len % 4) % 3 = 0 ∧ len % 4 ≠ 0) ↔ len % 4 = 3) ∧
    (len % 4 = 3 ↔ round_up4 (len + 2) > round_up4 (len + 1)) ∧
    ((44 :: ts).length % 4 = 3 ↔ (pad_str (44 :: ts)).length = (44 :: ts).length + 1) ∧
    (pad_str (44 :: (ts ++ [tag]))).length
      = (pad_str (44 :: ts)).length + (if (44 :: ts).length % 4 = 3 then 4 else 0) ∧
    ((44 :: ts).length % 4 ≠ 3 ∨ e.alloc_tt = true →
      actualize_typetag e (layout A (pad_str (44 :: ts)) R) tag
        = some (0, layout A (pad_str (44 :: (ts ++ [tag]))) R)) ∧
    ((44 :: ts).length % 4 = 3 → e.alloc_tt = false →
      actualize_typetag e (layout A (pad_str (44 :: ts)) R) tag
        = some (1, layout A (pad_str (44 :: ts)) R)) ∧
    (∀ st m2, actualize_typetag e (layout A (pad_str (44 :: ts)) R) tag = some (st, m2) →
      st = 0 →
      m2 = layout A (pad_str (44 :: (ts ++ [tag]))) R ∧
      m2.raw_data.length = (layout A (pad_str (44 :: ts)) R).raw_data.length
        + (if (44 :: ts).length % 4 = 3 then 4 else 0)) := by
  have h1 := pad_str_length (44 :: (ts ++ [tag]))
  have h2 := pad_str_length (44 :: ts)
  simp only [List.length_cons, List.length_append, List.length_singleton, List.length_nil]
    at h1 h2
  have hpad : (pad_str (44 :: (ts ++ [tag]))).length
      = (pad_str (44 :: ts)).length + (if (ts.length + 1) % 4 = 3 then 4 else 0) := by
    rw [h1, h2]; unfold padded; split <;> omega
  have hok : (ts.length + 1) % 4 ≠ 3 ∨ e.alloc_tt = true →
      actualize_typetag e (layout A (pad_str (44 :: ts)) R) tag
        = some (0, layout A (pad_str (44 :: (ts ++ [tag]))) R) := by
    intro hc
    by_cases hfull : (ts.length + 1) % 4 = 3
    · rcases hc with hc | hc
      · exact absurd hfull hc
      · exact actualize_typetag_grow e A ts R tag k hk hA h0 htag hn hfull hc
    · exact actualize_typetag_room e A ts R tag h0 htag (by omega) hfull
  have hfail : (ts.length + 1) % 4 = 3 → e.alloc_tt = false →
      actualize_typetag e (layout A (pad_str (44 :: ts)) R) tag
        = some (1, layout A (pad_str (44 :: ts)) R) :=
    fun hfull hc => actualize_typetag_fail e A ts R tag h0 (by omega) hfull hc
  refine ⟨by omega, by unfold round_up4; omega, ?_, ?_, ?_, ?_, ?_⟩
  · rw [pad_str_length]; unfold padded
    simp only [List.length_cons]; omega
  · simpa only [List.length_cons] using hpad
  · simpa only [List.length_cons] using hok
  · simpa only [List.length_cons] using hfail
  · intro st m2 h hst
    subst hst
    have hc : (ts.length + 1) % 4 ≠ 3 ∨ e.alloc_tt = true := by
      by_cases hfull : (ts.length + 1) % 4 = 3
      · right
        cases hal : e.alloc_tt with
        | true => rfl
        | false =>
          rw [hfail hfull hal] at h
          simp at h
      · exact Or.inl hfull
    rw [hok hc] at h
    simp only [Option.some.injEq, Prod.mk.injEq, true_and] at h
    subst h
    refine ⟨rfl, ?_⟩
    rw [layout_raw_length, layout_raw_length, hpad]
    simp only [List.length_cons]
    omega

theorem C20_growth_trigger_witness :
    actualize_typetag env_ok
        ⟨4, 8, [0, 0, 0, 16, 0, 0, 0, 0, 44, 105, 105, 0, 0, 0, 0, 1, 0, 0, 0, 2]⟩ 105
      = some (0, ⟨4, 8, [0, 0, 0, 20, 0, 0, 0, 0, 44, 105, 105, 105, 0, 0, 0, 0,
          0, 0, 0, 1, 0, 0, 0, 2]⟩) ∧
    actualize_typetag ⟨true, false, fun _ => 170, 0⟩
        ⟨4, 8, [0, 0, 0, 16, 0, 0, 0, 0, 44, 105, 105, 0, 0, 0, 0, 1, 0, 0, 0, 2]⟩ 105
      = some (1, ⟨4, 8, [0, 0, 0, 16, 0, 0, 0, 0, 44, 105, 105, 0, 0, 0, 0, 1, 0, 0, 0, 2]⟩) ∧
    actualize_typetag ⟨true, false, fun _ => 170, 0⟩
        ⟨4, 8, [0, 0, 0, 12, 0, 0, 0, 0, 44, 105, 0, 0, 0, 0, 0, 1]⟩ 102
      = some (0, ⟨4, 8, [0, 0, 0, 12, 0, 0, 0, 0, 44, 105, 102, 0, 0, 0, 0, 1]⟩) :=
  ⟨(C20_growth_trigger env_ok [0, 0, 0, 0] [105, 105] [0, 0, 0, 1, 0, 0, 0, 2] 105 0 3
      (by decide) (by decide) (by decide) (by decide) (by decide)).2.2.2.2.1 (Or.inr rfl),
   (C20_growth_trigger ⟨true, false, fun _ => 170, 0⟩ [0, 0, 0, 0] [105, 105]
      [0, 0, 0, 1, 0, 0, 0, 2] 105 0 3
      (by decide) (by decide) (by decide) (by decide) (by decide)).2.2.2.2.2.1 (by decide) rfl,
   (C20_growth_trigger ⟨true, false, fun _ => 170, 0⟩ [0, 0, 0, 0] [105]
      [0, 0, 0, 1] 102 0 2
      (by decide) (by decide) (by decide) (by decide) (by decide)).2.2.2.2.1
      (Or.inl (by decide))⟩

/-! ## The frame of an append -/

theorem cstr_at_sig (A ts R : List Nat) (h0 : 0 ∉ ts) :
    cstr_at (layout A (pad_str (44 :: ts)) R).raw_data (layout A (pad_str (44 :: ts)) R).typetag
      = some (44 :: ts) := by
  obtain ⟨n, hn⟩ : ∃ n, n = A.length + ((pad_str (44 :: ts)).length + R.length) := ⟨_, rfl⟩
  rw [layout_eq _ _ _ n hn]
  have hH := be32_length n
  generalize be32 n = H at *
  have hstr := strlen_sig H A ts R (4 + A.length) (by omega) h0
  have hrd : read_bytes (H ++ (A ++ (pad_str (44 :: ts) ++ R))) (4 + A.length) (ts.length + 1)
      = some (44 :: ts) := by
    have := read_bytes_append (H ++ A) (44 :: ts)
      (0 :: List.replicate (3 - (44 :: ts).length % 4) 0 ++ R) (4 + A.length) (ts.length + 1)
      (by simp [hH]) (by simp)
    rw [pad_str_split]
    simpa only [List.append_assoc, List.cons_append] using this
  simp only [cstr_at, hstr, hrd, Option.bind_eq_bind, Option.some_bind]

theorem layout_address_region (A S R : List Nat) :
    ((layout A S R).raw_data.drop (layout A S R).address).take
      ((layout A S R).typetag - (layout A S R).address) = A := by
  simp only [layout]
  rw [List.drop_left' (be32_length _)]
  simp

theorem layout_args_region (A S R : List Nat) (q : Nat) (hq : q = 4 + A.length + S.length) :
    (layout A S R).raw_data.drop q = R := by
  simp only [layout]
  exact drop_layout _ A S R q (by rw [be32_length]; exact hq)

theorem layout_take4 (A S R : List Nat) :
    (layout A S R).raw_data.take 4 = be32 ((layout A S R).raw_data.length - 4) := by
  rw [layout_raw_length]
  simp only [layout]
  rw [List.take_left' (be32_length _)]
  congr 1
  omega

/-- C21: frame of an append.  For a message the API produces and an
`osc_message_add_int32/float/string/timetag` call whose signature allocation does not fail: the
call returns 0 when its allocation succeeds and the grown buffer fits 32 bits; whenever it
returns 0, the two pointers and the bytes of the address region are unchanged, the signature is
the old one followed by the new tag, the argument region is the old one followed by the
encoding of the new argument and starts `r(len + 2)` after the signature pointer, which is 4
more than before exactly when the old signature length `len` is 3 modulo 4, and the buffer and
its big-endian length prefix grow by the size of the encoding plus 4 in that case and plus 0
otherwise. -/
theorem C21_append_frame (e : Env) (m : osc_message) (x : Arg) (hm : Reachable m)
    (hx : x.plain) (hat : e.alloc_tt = true) :
    (e.alloc = true → m.raw_data.length + x.wire.length + 4 < 4294967296 →
      ∃ m2, add_arg e m x = some (0, m2)) ∧
    ∀ m2, add_arg e m x = some (0, m2) →
      ∃ sig, cstr_at m.raw_data m.typetag = some sig ∧
        m2.address = m.address ∧ m2.typetag = m.typetag ∧
        (m2.raw_data.drop m.address).take (m.typetag - m.address)
          = (m.raw_data.drop m.address).take (m.typetag - m.address) ∧
        cstr_at m2.raw_data m2.typetag = some (sig ++ [x.tag]) ∧
        m2.raw_data.drop (m2.typetag + round_up4 (sig.length + 2))
          = m.raw_data.drop (m.typetag + round_up4 (sig.length + 1)) ++ x.wire ∧
        round_up4 (sig.length + 2)
          = round_up4 (sig.length + 1) + (if sig.length % 4 = 3 then 4 else 0) ∧
        m2.raw_data.length
          = m.raw_data.length + x.wire.length + (if sig.length % 4 = 3 then 4 else 0) ∧
        m.raw_data.take 4 = be32 (m.raw_data.length - 4) ∧
        m2.raw_data.take 4 = be32 (m.raw_data.length - 4 + x.wire.length
          + (if sig.length % 4 = 3 then 4 else 0)) := by
  obtain ⟨A, ts, R, k, rfl, hk, hA, h0, hn⟩ := hm.wf
  have hp1 := pad_str_length (44 :: ts)
  have hp2 := pad_str_length (44 :: (ts ++ [x.tag]))
  simp only [List.length_cons, List.length_append, List.length_singleton, List.length_nil]
    at hp1 hp2
  have hr1 := padded_eq_round (ts.length + 1)
  have hr2 := padded_eq_round (ts.length + 1 + 1)
  have hstep : round_up4 (ts.length + 1 + 2)
      = round_up4 (ts.length + 1 + 1) + (if (ts.length + 1) % 4 = 3 then 4 else 0) := by
    unfold round_up4; split <;> omega
  have hl1 := layout_raw_length A (pad_str (44 :: ts)) R
  have hl2 := layout_raw_length A (pad_str (44 :: (ts ++ [x.tag]))) (R ++ x.wire)
  rw [List.length_append] at hl2
  constructor
  · intro ha hsz
    refine ⟨_, add_arg_fwd e A ts R k x hk hA h0 hx ha hat ?_⟩
    rw [List.length_append, hp2, hr2, hstep, ← hr1]
    rw [hl1, hp1] at hsz
    split <;> omega
  · intro m2 h
    obtain ⟨rfl, h02, hn2⟩ := add_arg_layout hk hA h0 hn hx hat h
    refine ⟨44 :: ts, cstr_at_sig A ts R h0, rfl, rfl, ?_, ?_, ?_, ?_, ?_, layout_take4 _ _ _, ?_⟩
    · have := layout_address_region A (pad_str (44 :: (ts ++ [x.tag]))) (R ++ x.wire)
      rw [layout_address_region]
      exact this
    · have := cstr_at_sig A (ts ++ [x.tag]) (R ++ x.wire) h02
      simpa only [List.cons_append] using this
    · simp only [List.length_cons]
      rw [layout_args_region _ _ _ _ (by simp only [layout]; rw [hp2, hr2]),
        layout_args_region _ _ _ _ (by simp only [layout]; rw [hp1, hr1])]
    · simpa only [List.length_cons] using hstep
    · simp only [List.length_cons]
      rw [hl1, hl2, hp1, hp2, hr1, hr2, hstep]
      split <;> omega
    · simp only [List.length_cons]
      rw [layout_take4, hl1, hl2, hp1, hp2, hr1, hr2, hstep]
      congr 1
      split <;> omega

theorem C21_append_frame_witness :
    ∃ m2, add_arg env_ok
        ⟨4, 8, [0, 0, 0, 16, 0, 0, 0, 0, 44, 105, 105, 0, 0, 0, 0, 1, 0, 0, 0, 2]⟩ (.int32 3)
        = some (0, m2) ∧
      m2.raw_data.length = 28 ∧
      m2.raw_data.drop (m2.typetag + 8) = [0, 0, 0, 1, 0, 0, 0, 2, 0, 0, 0, 3] ∧
      m2.raw_data.take 4 = [0, 0, 0, 24] := by
  have h := C21_append_frame env_ok
    ⟨4, 8, [0, 0, 0, 16, 0, 0, 0, 0, 44, 105, 105, 0, 0, 0, 0, 1, 0, 0, 0, 2]⟩ (.int32 3)
    ⟨env_ok, ⟨0, 0, []⟩, [(env_ok, .add (.int32 1)), (env_ok, .add (.int32 2))], by decide⟩
    (by decide) rfl
  obtain ⟨m2, hm2⟩ := h.1 rfl (by decide)
  obtain ⟨sig, hs, -, -, -, -, h5, -, h7, -, h9⟩ := h.2 m2 hm2
  have hsig : sig = [44, 105, 105] := by
    have hc : cstr_at [0, 0, 0, 16, 0, 0, 0, 0, 44, 105, 105, 0, 0, 0, 0, 1, 0, 0, 0, 2] 8
        = some [44, 105, 105] := by decide
    exact (Option.some.inj (hc.symm.trans hs)).symm
  subst hsig
  exact ⟨m2, hm2, h7.trans (by decide), h5.trans (by decide), h9.trans (by decide)⟩

/-! ## Reading a block that has been extended at its end -/

theorem getElem?_mono {block : List Nat} {i c : Nat} (rest : List Nat)
    (h : block[i]? = some c) : (block ++ rest)[i]? = some c := by
  obtain ⟨hi, -⟩ := List.getElem?_eq_some.mp h
  rw [List.getElem?_append_left hi, h]

theorem drop_mono {block : List Nat} {p : Nat} (rest : List Nat) (h : block.drop p ≠ []) :
    (block ++ rest).drop p = block.drop p ++ rest := by
  have hp : p ≤ block.length := by
    by_contra hc
    exact h (List.drop_of_length_le (by omega))
  exact List.drop_append_of_le_length hp

theorem strlen_mono {block : List Nat} {p k : Nat} (rest : List Nat)
    (h : strlen block p = some k) : strlen (block ++ rest) p = some k := by
  unfold strlen at h ⊢
  rw [drop_mono rest (by intro hc; rw [hc] at h; simp [strlen_at] at h)]
  exact strlen_at_append_right h rest

theorem read_bytes_mono {block bs : List Nat} {p n : Nat} (rest : List Nat)
    (h : read_bytes block p n = some bs) : read_bytes (block ++ rest) p n = some bs := by
  unfold read_bytes at h ⊢
  split at h
  · rename_i hle
    rw [if_pos (by rw [List.length_append]; omega)]
    rw [List.drop_append_of_le_length (by omega), List.take_append_of_le_length
      (by rw [List.length_drop]; omega)]
    exact h
  · simp at h

theorem length_field_mono {block : List Nat} {n : Nat} (rest : List Nat)
    (h : length_field block = some n) : length_field (block ++ rest) = some n := by
  simp only [length_field, Option.bind_eq_bind, Option.bind_eq_some] at h ⊢
  obtain ⟨b0, h0, b1, h1, b2, h2, b3, h3, h⟩ := h
  exact ⟨b0, getElem?_mono rest h0, b1, getElem?_mono rest h1, b2, getElem?_mono rest h2,
    b3, getElem?_mono rest h3, h⟩

theorem length_field_drop_mono {block : List Nat} {p n : Nat} (rest : List Nat)
    (h : length_field (block.drop p) = some n) :
    length_field ((block ++ rest).drop p) = some n := by
  rw [drop_mono rest (by intro hc; rw [hc] at h; simp [length_field] at h)]
  exact length_field_mono rest h

theorem arg_loop_mono (block rest : List Nat) (t : Nat) :
    ∀ (k i p ab r : Nat), osc_message_arg_loop block t k i p ab = some r →
      osc_message_arg_loop (block ++ rest) t k i p ab = some r := by
  intro k
  induction k with
  | zero =>
    intro i p ab r h
    simpa [osc_message_arg_loop] using h
  | succ k ih =>
    intro i p ab r h
    simp only [osc_message_arg_loop, Option.bind_eq_bind, Option.bind_eq_some] at h ⊢
    obtain ⟨c, hc, h⟩ := h
    refine ⟨c, getElem?_mono rest hc, ?_⟩
    by_cases h1 : c = OSC_TT_INT
    · rw [if_pos h1] at h ⊢
      exact ih _ _ _ _ h
    rw [if_neg h1] at h ⊢
    by_cases h2 : c = OSC_TT_FLOAT
    · rw [if_pos h2] at h ⊢
      exact ih _ _ _ _ h
    rw [if_neg h2] at h ⊢
    by_cases h3 : c = OSC_TT_STRING
    · rw [if_pos h3] at h ⊢
      simp only [Option.bind_eq_some] at h ⊢
      obtain ⟨n, hn, h⟩ := h
      exact ⟨n, strlen_mono rest hn, ih _ _ _ _ h⟩
    rw [if_neg h3] at h ⊢
    by_cases h4 : c = OSC_TT_TIMETAG
    · rw [if_pos h4] at h ⊢
      exact ih _ _ _ _ h
    rw [if_neg h4] at h ⊢
    by_cases h5 : c = OSC_TT_BLOB
    · rw [if_pos h5] at h ⊢
      simp only [Option.bind_eq_some, osc_blob_data_size] at h ⊢
      obtain ⟨n, hn, h⟩ := h
      exact ⟨n, length_field_drop_mono rest hn, ih _ _ _ _ h⟩
    rw [if_neg h5] at h ⊢
    exact ih _ _ _ _ h

theorem arg_mono {a t i : Nat} {block : List Nat} {r : Option Nat} (rest : List Nat)
    (h : osc_message_arg ⟨a, t, block⟩ i = some r) :
    osc_message_arg ⟨a, t, block ++ rest⟩ i = some r := by
  simp only [osc_message_arg, Option.bind_eq_bind, Option.bind_eq_some] at h ⊢
  obtain ⟨tlen, ht, c, hc, h⟩ := h
  refine ⟨tlen, strlen_mono rest ht, c, getElem?_mono rest hc, ?_⟩
  by_cases h0 : c = 0
  · rw [if_pos h0] at h ⊢
    exact h
  · rw [if_neg h0] at h ⊢
    simp only [Option.bind_eq_some] at h ⊢
    obtain ⟨p, hp, h⟩ := h
    exact ⟨p, arg_loop_mono block rest t _ _ _ _ _ hp, h⟩

theorem argc_mono {a t n : Nat} {block : List Nat} (rest : List Nat)
    (h : osc_message_argc ⟨a, t, block⟩ = some n) :
    osc_message_argc ⟨a, t, block ++ rest⟩ = some n := by
  simp only [osc_message_argc, Option.bind_eq_bind, Option.bind_eq_some] at h ⊢
  obtain ⟨tlen, ht, h⟩ := h
  exact ⟨tlen, strlen_mono rest ht, h⟩

theorem cstr_at_mono {block s : List Nat} {p : Nat} (rest : List Nat)
    (h : cstr_at block p = some s) : cstr_at (block ++ rest) p = some s := by
  simp only [cstr_at, Option.bind_eq_bind, Option.bind_eq_some] at h ⊢
  obtain ⟨n, hn, h⟩ := h
  exact ⟨n, strlen_mono rest hn, read_bytes_mono rest h⟩

theorem load32_mono {block : List Nat} {p v : Nat} (rest : List Nat)
    (h : load32 block p = some v) : load32 (block ++ rest) p = some v := by
  simp only [load32, Option.bind_eq_bind, Option.bind_eq_some] at h ⊢
  obtain ⟨bs, hbs, h⟩ := h
  exact ⟨bs, read_bytes_mono rest hbs, h⟩

theorem decode_arg_mono {block : List Nat} {p tag : Nat} {y : Arg} (rest : List Nat)
    (h : decode_arg block p tag = some y) : decode_arg (block ++ rest) p tag = some y := by
  unfold decode_arg at h ⊢
  by_cases h1 : tag = OSC_TT_INT
  · rw [if_pos h1] at h ⊢
    simp only [Option.bind_eq_bind, Option.bind_eq_some] at h ⊢
    obtain ⟨v, hv, h⟩ := h
    exact ⟨v, load32_mono rest hv, h⟩
  rw [if_neg h1] at h ⊢
  by_cases h2 : tag = OSC_TT_FLOAT
  · rw [if_pos h2] at h ⊢
    simp only [Option.bind_eq_bind, Option.bind_eq_some] at h ⊢
    obtain ⟨v, hv, h⟩ := h
    exact ⟨v, load32_mono rest hv, h⟩
  rw [if_neg h2] at h ⊢
  by_cases h3 : tag = OSC_TT_STRING
  · rw [if_pos h3] at h ⊢
    simp only [Option.bind_eq_bind, Option.bind_eq_some] at h ⊢
    obtain ⟨v, hv, h⟩ := h
    exact ⟨v, cstr_at_mono rest hv, h⟩
  rw [if_neg h3] at h ⊢
  by_cases h4 : tag = OSC_TT_TIMETAG
  · rw [if_pos h4] at h ⊢
    simp only [Option.bind_eq_bind, Option.bind_eq_some] at h ⊢
    obtain ⟨v, hv, w, hw, h⟩ := h
    exact ⟨v, load32_mono rest hv, w, load32_mono rest hw, h⟩
  rw [if_neg h4] at h ⊢
  exact h

theorem serialized_length_mono {a t n : Nat} {block : List Nat} (rest : List Nat)
    (h : osc_message_serialized_length ⟨a, t, block⟩ = some n) :
    osc_message_serialized_length ⟨a, t, block ++ rest⟩ = some n :=
  length_field_mono rest h

theorem cstr_at_address (A S R : List Nat) (k : Nat) (hk : strlen_at A = some k) :
    cstr_at (layout A S R).raw_data (layout A S R).address = some (A.take k) := by
  obtain ⟨n, hn⟩ : ∃ n, n = A.length + (S.length + R.length) := ⟨_, rfl⟩
  rw [layout_eq _ _ _ n hn]
  have hH := be32_length n
  generalize be32 n = H at *
  have hstr : strlen (H ++ (A ++ (S ++ R))) 4 = some k := strlen_region hk _ _ 4 hH.symm
  obtain ⟨s, r, hA, hs, -⟩ := strlen_at_split hk
  have hrd : read_bytes (H ++ (A ++ (S ++ R))) 4 k = some (A.take k) := by
    have := read_bytes_append H (A.take k) (A.drop k ++ (S ++ R)) 4 k hH.symm
      (by rw [List.length_take, hA]; simp; omega)
    rw [← List.append_assoc (A.take k), List.take_append_drop] at this
    exact this
  simp only [cstr_at, hstr, hrd, Option.bind_eq_bind, Option.some_bind]

theorem view_message_eq (T pre post : List Nat) (m : osc_message) (hT : T.length = 8) :
    (view_at (20 + pre.length) m).message (blayout T (pre ++ (m.raw_data ++ post))).raw_data
      = ⟨m.address, m.typetag, m.raw_data ++ post⟩ := by
  simp only [osc_message_view.message, view_at, blayout, Nat.add_sub_cancel_left]
  rw [bundle_drop _ T pre _ _ (be32_length _) hT rfl]

theorem view_typetag_comma (T pre post A ts R : List Nat) (hT : T.length = 8) :
    (blayout T (pre ++ ((layout A (pad_str (44 :: ts)) R).raw_data ++ post))).raw_data[
      (view_at (20 + pre.length) (layout A (pad_str (44 :: ts)) R)).typetag]? = some 44 := by
  show (blayout T (pre ++ ((layout A (pad_str (44 :: ts)) R).raw_data ++ post))).raw_data[
      20 + pre.length + (4 + A.length)]? = some 44
  rw [← List.getElem?_drop]
  simp only [blayout]
  rw [bundle_drop _ T pre _ _ (be32_length _) hT rfl]
  exact getElem?_mono post (sig_comma _ A ts R (4 + A.length) (by simp [be32_length]))

/-- C22: embedded messages decode like the originals.  In a bundle built by `osc_bundle_new`
and calls that return 0, the added messages being built by the message API from int32,
float32, string and time-tag arguments without a failing signature allocation, call `j + 1` of
the iteration returns a view `v` of the message `m` added as number `j`: `v.address` is
`v.raw_data + 4`, the byte at `v.typetag` is the comma, the bytes at the view are those of `m`,
and the address string, the signature string, `osc_message_serialized_length`,
`osc_message_argc` and, below that count, `osc_message_arg` (as an offset from `raw_data`) have
on the view the values they have on `m`; what `decode_arg` reads at such an offset of `m` it
reads at the same offset of the view. -/
theorem C22_embedded_decode (e : Env) (b0 b : osc_bundle) (s : List (Env × BCall))
    (hs : ∀ m ∈ bmessages s, ∃ e0 m0 sm, build e0 m0 sm = some (0, m) ∧
      ∀ ec ∈ sm, ec.2.plain ∧ ec.1.alloc_tt = true)
    (hb : bbuild e b0 s = some (0, b)) (j : Nat) (m : osc_message)
    (hj : (bmessages s)[j]? = some m) :
    ∃ v, bundle_iter b (j + 1) = some (some v) ∧
      v.address = v.raw_data + 4 ∧
      b.raw_data[v.typetag]? = some 44 ∧
      (v.message b.raw_data).raw_data.take m.raw_data.length = m.raw_data ∧
      (∃ adr, cstr_at m.raw_data m.address = some adr ∧
        cstr_at (v.message b.raw_data).raw_data (v.message b.raw_data).address = some adr) ∧
      (∃ sig, cstr_at m.raw_data m.typetag = some sig ∧
        cstr_at (v.message b.raw_data).raw_data (v.message b.raw_data).typetag = some sig) ∧
      (∃ n, osc_message_serialized_length m = some n ∧
        osc_message_serialized_length (v.message b.raw_data) = some n) ∧
      ∃ n, osc_message_argc m = some n ∧ osc_message_argc (v.message b.raw_data) = some n ∧
        ∀ i, i < n → ∃ p, osc_message_arg m i = some (some p) ∧
          osc_message_arg (v.message b.raw_data) i = some (some p) ∧
          ∀ tag y, decode_arg m.raw_data p tag = some y →
            decode_arg (v.message b.raw_data).raw_data p tag = some y := by
  have hwf : ∀ m ∈ bmessages s, WF m := fun m hm => by
    obtain ⟨e0, m0, sm, hbm, -⟩ := hs m hm
    exact Reachable.wf ⟨e0, m0, sm, hbm⟩
  obtain ⟨T, hT, -, rfl, hfit⟩ := bbuild_blayout hwf hb
  obtain ⟨e0, m0, sm, hbm, hsm⟩ := hs m (List.getElem?_mem hj)
  obtain ⟨A, k, rfl, hk, hA, hn⟩ := build_layout hbm hsm
  have h0 := tags_not_mem (added sm)
  have hplain := added_plain hsm
  refine ⟨_, iter_view T _ hT hwf hfit j _ hj, rfl, ?_⟩
  rw [blocks_split _ j _ hj, view_message_eq _ _ _ _ hT]
  generalize (((bmessages s).take j).map (fun mi => mi.raw_data)).flatten = pre
  generalize (((bmessages s).drop (j + 1)).map (fun mi => mi.raw_data)).flatten = post
  refine ⟨?_, List.take_left' rfl, ⟨_, cstr_at_address A _ _ k hk, ?_⟩,
    ⟨_, cstr_at_sig A _ _ h0, ?_⟩, ⟨_, serialized_length_layout A _ _ (by omega), ?_⟩,
    ⟨_, argc_layout A _ _ h0 hn, argc_mono post (argc_layout A _ _ h0 hn), ?_⟩⟩
  · exact view_typetag_comma T pre post A _ _ hT
  · exact cstr_at_mono post (cstr_at_address A _ _ k hk)
  · exact cstr_at_mono post (cstr_at_sig A _ _ h0)
  · exact serialized_length_mono post (serialized_length_layout A _ _ (by omega))
  · intro i hi
    rw [List.length_map] at hi
    have hx : (added sm)[i]? = some (added sm)[i] := List.getElem?_eq_getElem hi
    have ha := arg_layout_lt A (added sm) i _ hplain hx hn
    exact ⟨_, ha, arg_mono post ha, fun tag y hd => decode_arg_mono post hd⟩

theorem C22_embedded_decode_witness :
    ∃ v, bundle_iter ⟨12, [0, 0, 0, 44, 35, 98, 117, 110, 100, 108, 101, 0, 0, 0, 0, 0, 0, 0, 0, 1,
        0, 0, 0, 12, 0, 0, 0, 0, 44, 105, 0, 0, 0, 0, 0, 7,
        0, 0, 0, 8, 47, 97, 0, 0, 44, 0, 0, 0]⟩ 1 = some (some v) ∧
      v.address = v.raw_data + 4 ∧
      ∃ n, osc_message_argc ⟨4, 8, [0, 0, 0, 12, 0, 0, 0, 0, 44, 105, 0, 0, 0, 0, 0, 7]⟩
          = some n ∧
        osc_message_argc (v.message [0, 0, 0, 44, 35, 98, 117, 110, 100, 108, 101, 0,
          0, 0, 0, 0, 0, 0, 0, 1, 0, 0, 0, 12, 0, 0, 0, 0, 44, 105, 0, 0, 0, 0, 0, 7,
          0, 0, 0, 8, 47, 97, 0, 0, 44, 0, 0, 0]) = some n :=
  have h := C22_embedded_decode env_ok ⟨0, []⟩
    ⟨12, [0, 0, 0, 44, 35, 98, 117, 110, 100, 108, 101, 0, 0, 0, 0, 0, 0, 0, 0, 1,
        0, 0, 0, 12, 0, 0, 0, 0, 44, 105, 0, 0, 0, 0, 0, 7,
        0, 0, 0, 8, 47, 97, 0, 0, 44, 0, 0, 0]⟩
    [(env_ok, .add_message ⟨4, 8, [0, 0, 0, 12, 0, 0, 0, 0, 44, 105, 0, 0, 0, 0, 0, 7]⟩),
     (env_ok, .add_message ⟨4, 8, [0, 0, 0, 8, 47, 97, 0, 0, 44, 0, 0, 0]⟩)]
    (List.forall_mem_cons.mpr
      ⟨⟨env_ok, ⟨0, 0, []⟩, [(env_ok, .add (.int32 7))], by decide, by decide⟩,
       List.forall_mem_cons.mpr
        ⟨⟨env_ok, ⟨0, 0, []⟩, [(env_ok, .set_address [47, 97])], by decide, by decide⟩,
         fun _ hx => absurd hx (List.not_mem_nil _)⟩⟩)
    (by decide) 0 ⟨4, 8, [0, 0, 0, 12, 0, 0, 0, 0, 44, 105, 0, 0, 0, 0, 0, 7]⟩ rfl
  h.elim fun v hv =>
    ⟨v, hv.1, hv.2.1, hv.2.2.2.2.2.2.2.elim fun n hn => ⟨n, hn.1, hn.2.1⟩⟩

/-! ## Length fields -/

theorem toSize_toI32_big {x : Nat} (h1 : 2147483648 ≤ x) (h2 : x < 4294967296) :
    toSize (toI32 x) = x + 18446744069414584320 := by
  unfold toSize toI32
  rw [Nat.mod_eq_of_lt h2, if_neg (by omega)]
  omega

/-- What the three length readers return on a block that starts with the bytes `b0 b1 b2 b3`:
the big-endian value when `b0 < 128`, and that value plus `2^64 - 2^32` otherwise -/
theorem length_field_bytes (b0 b1 b2 b3 : Nat) (rest : List Nat) (h0 : b0 < 256) (h1 : b1 < 256)
    (h2 : b2 < 256) (h3 : b3 < 256) :
    length_field (b0 :: b1 :: b2 :: b3 :: rest)
      = some (if b0 < 128 then b0 * 16777216 + b1 * 65536 + b2 * 256 + b3
          else b0 * 16777216 + b1 * 65536 + b2 * 256 + b3 + 18446744069414584320) := by
  have hb := be32_bytes b3 b2 b1 b0 h3 h2 h1 h0
  have hl := length_field_be32 (n := b3 + 256 * b2 + 65536 * b1 + 16777216 * b0) (by omega) rest
  rw [hb] at hl
  rw [show b0 :: b1 :: b2 :: b3 :: rest = [b0, b1, b2, b3] ++ rest from rfl, hl]
  congr 1
  by_cases h : b0 < 128
  · rw [if_pos h, toSize_toI32_small (by omega)]; omega
  · rw [if_neg h, toSize_toI32_big (by omega) (by omega)]; omega

/-- C23 (code defect): on a buffer that starts with the bytes `80 00 00 01` the three length
readers return `2^64 - 2147483647`, not `0x80000001`: the value goes through the `int32_t` of
`osc_unpack_int32` and is sign-extended when it is converted to `size_t`.  In the same way the
length `0x80000001` written by `actualize_length` does not read back. -/
theorem C23_length_sign_extended :
    osc_message_serialized_length ⟨4, 8, [128, 0, 0, 1, 0, 0, 0, 0, 44, 0, 0, 0]⟩
      = some 18446744071562067969 ∧
    osc_bundle_serialized_length
        ⟨12, [128, 0, 0, 1, 35, 98, 117, 110, 100, 108, 101, 0, 0, 0, 0, 0, 0, 0, 0, 1]⟩
      = some 18446744071562067969 ∧
    osc_blob_data_size [128, 0, 0, 1] = some 18446744071562067969 ∧
    actualize_length ⟨4, 8, [0, 0, 0, 8, 0, 0, 0, 0, 44, 0, 0, 0]⟩ 2147483649
      = some ⟨4, 8, [128, 0, 0, 1, 0, 0, 0, 0, 44, 0, 0, 0]⟩ ∧
    128 * 16777216 + 0 * 65536 + 0 * 256 + 1 = 2147483649 ∧
    osc_message_serialized_length ⟨4, 8, [127, 255, 255, 255, 0, 0, 0, 0, 44, 0, 0, 0]⟩
      = some 2147483647 := by
  decide

/-! ## Address changes between appends -/

/-- The function `osc_message_set_address` on a message whose address is still empty -/
theorem set_address_fresh (e : Env) (a S R : List Nat) (h0 : 0 ∉ a) (ha : e.alloc = true)
    (hfit : 4 + ((pad_str a).length + (S.length + R.length)) < 4294967296) :
    osc_message_set_address e (layout [0, 0, 0, 0] S R) a = some (0, layout (pad_str a) S R) := by
  have hc := c_str_of_not_mem h0
  rw [pad_str_length] at hfit
  have hp := padded_gt a.length
  by_cases hs : a.length ≤ 3
  · rw [set_address_same e _ _ _ a 0 (by simp [padded]) (by simp; omega)
      (by rw [hc]; simp [padded]; omega), hc]
    rw [pad_str_short a hs]
  · rw [set_address_grow e _ _ _ a 0 (by simp [strlen_at]) (by simp [padded])
      (by rw [hc]; omega) (by rw [hc]; simp; omega) ha, hc]

theorem run_append (m : osc_message) (s1 s2 : List (Env × Call)) :
    run m (s1 ++ s2) = (run m s1).bind (fun r => if r.1 = 0 then run r.2 s2 else some r) := by
  induction s1 generalizing m with
  | nil => simp [run]
  | cons ec cs ih =>
    simp only [List.cons_append, run, Option.bind_eq_bind]
    cases hc : call ec.1 m ec.2 with
    | none => simp
    | some r =>
      simp only [Option.some_bind]
      by_cases hr : r.1 = 0
      · simp only [hr, if_true]
        exact ih r.2
      · simp [hr]

theorem run_adds_set_adds (args : List Arg) (p : Nat) (a : List Nat) (e : Env)
    (s1 s2 : List (Env × Call))
    (hs1 : s1.map Prod.snd = (args.take p).map Call.add)
    (hs2 : s2.map Prod.snd = (args.drop p).map Call.add)
    (he : e.alloc = true)
    (henv1 : ∀ ec ∈ s1, ec.1.alloc = true ∧ ec.1.alloc_tt = true)
    (henv2 : ∀ ec ∈ s2, ec.1.alloc = true ∧ ec.1.alloc_tt = true)
    (ha : 0 ∉ a) (hargs : ∀ x ∈ args, x.plain)
    (hsize : 4 + ((pad_str a).length +
      ((pad_str (44 :: args.map Arg.tag)).length + (args.map Arg.wire).flatten.length))
        < 4294967296) :
    run (layout [0, 0, 0, 0] (pad_str [44]) []) (s1 ++ (e, Call.set_address a) :: s2)
      = some (0, layout (pad_str a) (pad_str (44 :: args.map Arg.tag))
          (args.map Arg.wire).flatten) := by
  have hsplit : args = args.take p ++ args.drop p := (List.take_append_drop p args).symm
  have htags : args.map Arg.tag = (args.take p).map Arg.tag ++ (args.drop p).map Arg.tag := by
    rw [← List.map_append, ← hsplit]
  have hwires : (args.map Arg.wire).flatten
      = ((args.take p).map Arg.wire).flatten ++ ((args.drop p).map Arg.wire).flatten := by
    rw [← List.flatten_append, ← List.map_append, ← hsplit]
  have hsig1 : (pad_str (44 :: (args.take p).map Arg.tag)).length
      ≤ (pad_str (44 :: args.map Arg.tag)).length := by
    rw [pad_str_length, pad_str_length]
    exact padded_mono (by rw [htags]; simp)
  have hw1 : ((args.take p).map Arg.wire).flatten.length ≤ (args.map Arg.wire).flatten.length := by
    rw [hwires, List.length_append]; omega
  have hpa := padded_gt a.length
  have hpl := pad_str_length a
  have h1 := run_adds (args.take p) s1 [0, 0, 0, 0] [] [] 0 hs1 henv1
    (fun x hx => hargs x (List.mem_of_mem_take hx)) (by simp [strlen_at]) (by simp [padded])
    (by simp) (by simp only [List.nil_append, List.length_cons, List.length_nil]; omega)
  simp only [List.nil_append] at h1
  have h2 := set_address_fresh e a (pad_str (44 :: (args.take p).map Arg.tag))
    ((args.take p).map Arg.wire).flatten ha he (by omega)
  have h3 := run_adds (args.drop p) s2 (pad_str a) ((args.take p).map Arg.tag)
    ((args.take p).map Arg.wire).flatten a.length hs2 henv2
    (fun x hx => hargs x (List.mem_of_mem_drop hx))
    (by rw [pad_str_split]; exact strlen_at_append a _ ha) hpl (tags_not_mem _)
    (by rw [← htags, ← hwires]; exact hsize)
  rw [← htags, ← hwires] at h3
  rw [run_append, h1]
  simp only [Option.some_bind, if_true, run, call, h2, Option.bind_eq_bind, h3]

/-- C24: setting the address commutes with appending on a fresh message.  For a NUL-free
address `a`, int32, float32, string and time-tag arguments `args` and a position `p`, with no
allocation failing and the encoding below `2^32` bytes: `osc_message_new`, the appends of the
first `p` arguments, `osc_message_set_address a` and the appends of the other arguments return
0 and leave the same message as `osc_message_new`, `osc_message_set_address a` and the appends
of all arguments, namely the reference encoding `encode a args`. -/
theorem C24_set_address_commutes (e0 e1 e e2 : Env) (m0 m1 : osc_message) (a : List Nat)
    (args : List Arg) (p : Nat) (s1 s2 s3 : List (Env × Call))
    (hs1 : s1.map Prod.snd = (args.take p).map Call.add)
    (hs2 : s2.map Prod.snd = (args.drop p).map Call.add)
    (hs3 : s3.map Prod.snd = args.map Call.add)
    (he0 : e0.alloc = true) (he1 : e1.alloc = true) (he : e.alloc = true) (he2 : e2.alloc = true)
    (henv1 : ∀ ec ∈ s1, ec.1.alloc = true ∧ ec.1.alloc_tt = true)
    (henv2 : ∀ ec ∈ s2, ec.1.alloc = true ∧ ec.1.alloc_tt = true)
    (henv3 : ∀ ec ∈ s3, ec.1.alloc = true ∧ ec.1.alloc_tt = true)
    (ha : 0 ∉ a) (hargs : ∀ x ∈ args, x.plain)
    (hsize : (encode a args).length < 4294967296) :
    build e0 m0 (s1 ++ (e, Call.set_address a) :: s2)
      = some (0, ⟨4, 4 + (pad_str a).length, encode a args⟩) ∧
    build e1 m1 ((e2, Call.set_address a) :: s3)
      = some (0, ⟨4, 4 + (pad_str a).length, encode a args⟩) := by
  have hlen : (encode a args).length = 4 + ((pad_str a).length +
      ((pad_str (44 :: args.map Arg.tag)).length + (args.map Arg.wire).flatten.length)) := by
    simp [encode, be32_length]
  rw [hlen] at hsize
  rw [build_eq e0 m0 _ he0, build_eq e1 m1 _ he1, encode_eq_layout]
  refine ⟨run_adds_set_adds args p a e s1 s2 hs1 hs2 he henv1 henv2 ha hargs hsize, ?_⟩
  have := run_adds_set_adds args 0 a e2 [] s3 rfl (by simpa using hs3) he2
    (fun ec hec => absurd hec (List.not_mem_nil _)) henv3 ha hargs hsize
  simpa using this

theorem C24_set_address_commutes_witness :
    build env_ok ⟨0, 0, []⟩
      [(env_ok, .add (.int32 42)), (env_ok, .set_address [47, 102, 111, 111]),
       (env_ok, .add (.string [98, 97, 114]))]
      = some (0, ⟨4, 12, [0, 0, 0, 20, 47, 102, 111, 111, 0, 0, 0, 0, 44, 105, 115, 0,
          0, 0, 0, 42, 98, 97, 114, 0]⟩) ∧
    build env_ok ⟨0, 0, []⟩
      [(env_ok, .set_address [47, 102, 111, 111]), (env_ok, .add (.int32 42)),
       (env_ok, .add (.string [98, 97, 114]))]
      = some (0, ⟨4, 12, [0, 0, 0, 20, 47, 102, 111, 111, 0, 0, 0, 0, 44, 105, 115, 0,
          0, 0, 0, 42, 98, 97, 114, 0]⟩) :=
  C24_set_address_commutes env_ok env_ok env_ok env_ok ⟨0, 0, []⟩ ⟨0, 0, []⟩
    [47, 102, 111, 111] [.int32 42, .string [98, 97, 114]] 1
    [(env_ok, .add (.int32 42))] [(env_ok, .add (.string [98, 97, 114]))]
    [(env_ok, .add (.int32 42)), (env_ok, .add (.string [98, 97, 114]))]
    rfl rfl rfl rfl rfl rfl rfl (by decide) (by decide) (by decide) (by decide) (by decide)
    (by decide)

end OSC
